import Mathlib

/-!
# Machine arithmetic

What the two embeddings below take from the machine: the `int` of 32 bits, on
which an addition that leaves the range wraps around as the compiled code does,
and the rounding of a `double` operation to the nearest binary64 value.
-/

namespace machine

/-- The value an `int` holds after an arithmetic result `n`: `n` reduced modulo
`2^32` into the range from `-2^31` to `2^31 - 1` (two's complement). -/
def wrapInt (n : Int) : Int := (n + 2147483648) % 4294967296 - 2147483648

/-- The loop of `log2`, with a bound on its iterations. -/
def log2Loop : Nat → Nat → Nat
  | 0, _ => 0
  | fuel + 1, n => if 2 ≤ n then log2Loop fuel (n / 2) + 1 else 0

/-- The position of the highest bit of `n`: the floor of its binary logarithm
(`0` for `n = 0`). -/
def log2 (n : Nat) : Nat := log2Loop n n

/-- The integer nearest to `num / den`, the even one of the two when `num / den`
lies half way between them. -/
def roundHalfEven (num den : Nat) : Nat :=
  if 2 * (num % den) < den then num / den
  else if den < 2 * (num % den) then num / den + 1
  else if (num / den) % 2 = 0 then num / den else num / den + 1

/-- The floor of the binary logarithm of `num / den`, for positive `num` and
`den`: the difference of the bit positions, or one less. -/
def floorLog2 (num den : Nat) : Int :=
  let e0 : Int := (log2 num : Int) - (log2 den : Int)
  if (if 0 ≤ e0 then 2 ^ e0.toNat * den ≤ num else den ≤ num * 2 ^ (-e0).toNat) then e0
  else e0 - 1

/-- The binary64 value nearest to `q`, ties to even: 53 significant bits, the
spacing never below `2^-1074`. A result of `2^1024` or more in absolute value
stands for an overflow, which the caller maps to an infinity. -/
def roundBinary64 (q : ℚ) : ℚ :=
  if q = 0 then 0
  else
    let num := q.num.natAbs
    let e := floorLog2 num q.den
    let qe := max e (-1022) - 52
    let r : ℚ :=
      if 0 ≤ qe then ((roundHalfEven num (q.den * 2 ^ qe.toNat) * 2 ^ qe.toNat : Nat) : ℚ)
      else (roundHalfEven (num * 2 ^ (-qe).toNat) q.den : ℚ) / ((2 ^ (-qe).toNat : Nat) : ℚ)
    if q < 0 then -r else r

end machine

/-!
# Decap placement (`src/dpl/src/DecapPlacement.cpp`)

A shallow embedding of the decoupling-capacitor insertion pass of the detailed
placer, and theorems about it.

Conventions of the embedding:

* C++ `int` and the `Dbu`/`Grid` wrappers are `Int`. The `int` arithmetic of the
  selector (`width_acum + master_width`, `gap_width - min_space.v`,
  `width_acum += master_width`) wraps on 32 bits (`machine.wrapInt`); coordinates
  and sizes of the design are not wrapped, and a statement that needs them to
  stay in the range of `int` says so.
* `double` capacitances are rationals `ℚ`. The functions of the pass compute
  with them exactly; `whileAcceptRounded`, `forMastersRounded` and
  `findDecapCellIndicesRounded` are the selector with every `double` operation
  followed by a rounding.
* pointers to `GapInfo`/`DecapCell` are the records themselves; a row's
  `vector<GapInfo*>` is a `List GapInfo`, and writing through a pointer is a
  `List.set` at that position.
* `std::map<int, vector<GapInfo*>>` is an association list kept in strictly
  increasing key order (the iteration order of the map).
* a `while` loop whose termination depends on the data takes a fuel argument
  and returns `none` when the fuel is used up.
* `logger_->error` throws: a failing run is an `Except.error`.
* the state carries a ghost log with one record per call of `insertDecapInRow`,
  so that statements can speak about the calls made during a pass.
-/

namespace dpl

/-! ## Data model -/

/-- The part of `odb::dbMaster` the pass reads: an identity and `getWidth()`. -/
structure dbMaster where
  id : Nat
  width : Int
deriving DecidableEq, Repr

/-- Accessor `dbMaster::getWidth()`. -/
def dbMaster.getWidth (m : dbMaster) : Int := m.width

/-- Record `DecapCell(master, capacitance)` created by `addDecapMaster`. -/
structure DecapCell where
  master : dbMaster
  capacitance : ℚ
deriving DecidableEq, Repr

/-- The eight values of `odb::dbOrientType`. -/
inductive dbOrientType where
  | R0 | R90 | R180 | R270 | MY | MYR90 | MX | MXR90
deriving DecidableEq, Repr

/-- Record `GapInfo(x, orient, width, height)`; `is_filled` starts `false`. -/
structure GapInfo where
  x : Int
  orient : dbOrientType
  width : Int
  height : Int
  is_filled : Bool
deriving DecidableEq, Repr

/-- Global padding, in sites: `padGlobalLeft()` and `padGlobalRight()`. -/
structure Padding where
  padGlobalLeft : Int
  padGlobalRight : Int
deriving DecidableEq, Repr

/-- Modelled from the spec: `gridToDbu` is declared outside the sources at hand;
it converts a slot count to physical units by scaling with the site size. -/
def gridToDbu (x : Int) (scale : Int) : Int := x * scale

/-- The instance created by `insertDecapInPos`: `name` is the number `n` of the
name `DECAP_n`; placement status `PLACED` and source type `DIST` are the same
for every instance and are left out. -/
structure dbInst where
  name : Int
  master : dbMaster
  orient : dbOrientType
  x : Int
  y : Int
deriving DecidableEq, Repr

/-- The fields of a grid `Pixel` the scan reads; `cell = none` is `nullptr`. -/
structure Pixel where
  cell : Option Nat
  is_valid : Bool
  orient_ : dbOrientType
deriving DecidableEq, Repr

/-- An `odb::Rect`, used for the core area. -/
structure Rect where
  xMin : Int
  yMin : Int
  xMax : Int
  yMax : Int
deriving DecidableEq, Repr

/-- Accessor `Rect::dx()`. -/
def Rect.dx (r : Rect) : Int := r.xMax - r.xMin

/-- The part of `odb::dbSite` the scan reads: `getHeight()` cast to `int`. -/
structure dbSite where
  height : Int
deriving DecidableEq, Repr

/-- A grid flavor: `getRowCount()`, `getGridIndex()`, `getSites()`, `isHybrid()`. -/
structure GridInfo where
  row_count : Int
  grid_index : Int
  sites : List dbSite
  is_hybrid : Bool
deriving DecidableEq, Repr

/-- The placement grid: `getSiteWidth()`, `getCore()`, `getInfoMap()` (in key
order) and `gridPixel(grid_index, x, y)`. -/
structure Grid where
  site_width : Int
  core : Rect
  info_map : List (Int × GridInfo)
  gridPixel : Int → Int → Int → Pixel

/-- An entry `IRDrop(position, value)` of the ranked drop list. -/
structure IRDrop where
  x : Int
  y : Int
  value : ℚ
deriving DecidableEq, Repr

/-- Ghost record of one call of `insertDecapInRow`: its arguments, the index of
the gap it marked filled (if any) and the instances it created. The code keeps
no such record; nothing in the model reads it. -/
structure InsertCall where
  gap_y : Int
  irdrop_x : Int
  irdrop_y : Int
  filled : Option Nat
  placed : List dbInst
deriving DecidableEq, Repr

/-- The members of `Opendp` the pass reads and writes. `block_` lists the
instances created in the block, oldest first; `calls_` is the ghost call log. -/
structure Opendp where
  decap_masters_ : List DecapCell
  padding_ : Padding
  grid_ : Grid
  gaps_ : List (Int × List GapInfo)
  decap_count_ : Int
  have_fillers_ : Bool
  block_ : List dbInst
  calls_ : List InsertCall

/-- Failures of the pass: the two `logger_->error` calls, `std::map::at` on a
missing key, reading the first element of an empty vector or an element past the
end, and running out of fuel. -/
inductive DplError where
  | fillersPresent
  | gapsNotFound
  | outOfRange
  | undefinedBehavior
  | outOfFuel
deriving DecidableEq, Repr

/-! ## `std::map` and `std::lower_bound` -/

/-- Position of `key` in the map (`gaps_.find(key)` as an offset from `begin()`);
the length of the map stands for `end()`. -/
def mapFind {α : Type} : List (Int × α) → Int → Nat
  | [], _ => 0
  | (k, _) :: rest, key => if k = key then 0 else mapFind rest key + 1

/-- The statement `gaps_[key].emplace_back(g)`: appends to the row of `key`,
creating the row at its place in key order when the key is new. -/
def mapPush : List (Int × List GapInfo) → Int → GapInfo → List (Int × List GapInfo)
  | [], key, g => [(key, [g])]
  | (k, row) :: rest, key, g =>
    if key < k then (key, [g]) :: (k, row) :: rest
    else if key = k then (k, row ++ [g]) :: rest
    else (k, row) :: mapPush rest key g

/-- Sets `is_filled` of the gap at position `idx` of a row. -/
def markRow (row : List GapInfo) (idx : Nat) : List GapInfo :=
  match row[idx]? with
  | some g => row.set idx { g with is_filled := true }
  | none => row

/-- The statement `gaps_[key][idx]->is_filled = true` for a key of the map. -/
def setFilled : List (Int × List GapInfo) → Int → Nat → List (Int × List GapInfo)
  | [], _, _ => []
  | (k, row) :: rest, key, idx =>
    if k = key then (k, markRow row idx) :: rest
    else (k, row) :: setFilled rest key idx

/-- The halving loop of `std::lower_bound` with the comparator
`elem->x < value`, on the range `[first, first + len)`. -/
def lowerBoundLoop (gaps : List GapInfo) (value : Int) : Nat → Nat → Nat → Nat
  | 0, first, _ => first
  | fuel + 1, first, len =>
    if len = 0 then first
    else
      let half := len / 2
      let middle := first + half
      match gaps[middle]? with
      | some elem =>
        if elem.x < value then lowerBoundLoop gaps value fuel (middle + 1) (len - half - 1)
        else lowerBoundLoop gaps value fuel first half
      | none => first

/-- Offset from `gaps.begin()` of `std::lower_bound(gaps.begin(), gaps.end(),
value, comp)`; the length of `gaps` stands for `gaps.end()`. -/
def lower_bound (gaps : List GapInfo) (value : Int) : Nat :=
  lowerBoundLoop gaps value gaps.length 0 gaps.length

/-! ## The selector -/

/-- `Opendp::addDecapMaster(decap_master, decap_cap)`, on the catalog. -/
def addDecapMaster (decap_masters_ : List DecapCell) (decap_master : dbMaster)
    (decap_cap : ℚ) : List DecapCell :=
  decap_masters_ ++ [{ master := decap_master, capacitance := decap_cap }]

/-- Loop variables of `findDecapCellIndices`. -/
structure SelState where
  id_masters : List Nat
  cap_acum : ℚ
  width_acum : Int
deriving DecidableEq, Repr

/-- The `while` loop of `findDecapCellIndices` for master `i` (lines 74-82).
The Boolean of the result is `true` when the loop left through the
`return id_masters` of line 80. The sums and the difference of `int`s wrap;
the capacitances are added and compared exactly. -/
def whileAccept (i : Nat) (master_width : Int) (master_cap : ℚ)
    (gap_width min_space : Int) (current target : ℚ) :
    Nat → SelState → Option (Bool × SelState)
  | 0, _ => none
  | fuel + 1, s =>
    if machine.wrapInt (s.width_acum + master_width) ≤ machine.wrapInt (gap_width - min_space)
        ∧ s.cap_acum + master_cap ≤ target - current then
      let s1 : SelState :=
        { id_masters := s.id_masters ++ [i]
          cap_acum := s.cap_acum + master_cap
          width_acum := machine.wrapInt (s.width_acum + master_width) }
      if s1.width_acum = gap_width then some (true, s1)
      else whileAccept i master_width master_cap gap_width min_space current target fuel s1
    else some (false, s)

/-- The `for` loop of `findDecapCellIndices` (lines 71-83) over the masters
from index `i` on. -/
def forMasters (fuel : Nat) (gap_width min_space : Int) (current target : ℚ) :
    List DecapCell → Nat → SelState → Option (List Nat)
  | [], _, s => some s.id_masters
  | c :: rest, i, s =>
    match whileAccept i c.master.getWidth c.capacitance gap_width min_space current target
        fuel s with
    | none => none
    | some (true, s1) => some s1.id_masters
    | some (false, s1) => forMasters fuel gap_width min_space current target rest (i + 1) s1

/-- Local `min_space` of `findDecapCellIndices` (lines 68-70). -/
def Opendp.min_space (self : Opendp) : Int :=
  gridToDbu (self.padding_.padGlobalRight + self.padding_.padGlobalLeft) self.grid_.site_width

/-- `Opendp::findDecapCellIndices(gap_width, current, target)`; `fuel` bounds the
iterations of each `while` loop. -/
def findDecapCellIndices (self : Opendp) (fuel : Nat) (gap_width : Int) (current target : ℚ) :
    Option (List Nat) :=
  forMasters fuel gap_width self.min_space current target self.decap_masters_ 0
    { id_masters := [], cap_acum := 0, width_acum := 0 }

/-- The `while` loop of `findDecapCellIndices` (lines 74-82) with every `double`
operation followed by the rounding `round`: the sum `cap_acum + master_cap`,
the difference `target - current` and the update `cap_acum += master_cap`.
`whileAccept` is the case of a rounding that changes nothing. -/
def whileAcceptRounded (round : ℚ → ℚ) (i : Nat) (master_width : Int) (master_cap : ℚ)
    (gap_width min_space : Int) (current target : ℚ) :
    Nat → SelState → Option (Bool × SelState)
  | 0, _ => none
  | fuel + 1, s =>
    if machine.wrapInt (s.width_acum + master_width) ≤ machine.wrapInt (gap_width - min_space)
        ∧ round (s.cap_acum + master_cap) ≤ round (target - current) then
      let s1 : SelState :=
        { id_masters := s.id_masters ++ [i]
          cap_acum := round (s.cap_acum + master_cap)
          width_acum := machine.wrapInt (s.width_acum + master_width) }
      if s1.width_acum = gap_width then some (true, s1)
      else whileAcceptRounded round i master_width master_cap gap_width min_space current target
        fuel s1
    else some (false, s)

/-- The `for` loop of `findDecapCellIndices` (lines 71-83) over the rounded
`while` loop. -/
def forMastersRounded (round : ℚ → ℚ) (fuel : Nat) (gap_width min_space : Int)
    (current target : ℚ) : List DecapCell → Nat → SelState → Option (List Nat)
  | [], _, s => some s.id_masters
  | c :: rest, i, s =>
    match whileAcceptRounded round i c.master.getWidth c.capacitance gap_width min_space current
        target fuel s with
    | none => none
    | some (true, s1) => some s1.id_masters
    | some (false, s1) =>
      forMastersRounded round fuel gap_width min_space current target rest (i + 1) s1

/-- `Opendp::findDecapCellIndices(gap_width, current, target)` with every
`double` operation followed by the rounding `round`. -/
def findDecapCellIndicesRounded (round : ℚ → ℚ) (self : Opendp) (fuel : Nat) (gap_width : Int)
    (current target : ℚ) : Option (List Nat) :=
  forMastersRounded round fuel gap_width self.min_space current target self.decap_masters_ 0
    { id_masters := [], cap_acum := 0, width_acum := 0 }

/-! ## Row-local insertion -/

/-- `Opendp::insertDecapInPos(master, orient, pos_x, pos_y)`: creates the
instance `DECAP_<decap_count_>` in the block. -/
def insertDecapInPos (self : Opendp) (master : dbMaster) (orient : dbOrientType)
    (pos_x pos_y : Int) : Opendp :=
  { self with
    block_ := self.block_ ++
      [{ name := self.decap_count_, master := master, orient := orient, x := pos_x, y := pos_y }] }

/-- The `for` loop of `insertDecapInRow` over the selected indices (lines
213-221), with the cursor `gap_x` and the running `total`. -/
def placeDecaps (orient : dbOrientType) (gap_y : Int) :
    List Nat → Opendp → Int → ℚ → Except DplError (Opendp × Int × ℚ)
  | [], self, gap_x, total => .ok (self, gap_x, total)
  | it_decap :: rest, self, gap_x, total =>
    match self.decap_masters_[it_decap]? with
    | none => .error .undefinedBehavior
    | some c =>
      let self1 := insertDecapInPos self c.master orient gap_x gap_y
      placeDecaps orient gap_y rest { self1 with decap_count_ := self1.decap_count_ + 1 }
        (gap_x + c.master.getWidth) (total + c.capacitance)

/-- Appends a record to the ghost call log. -/
def logCall (self : Opendp) (c : InsertCall) : Opendp :=
  { self with calls_ := self.calls_ ++ [c] }

/-- `Opendp::insertDecapInRow(gaps, gap_y, irdrop_x, irdrop_y, total, target)`.
Returns the new state and the new value of the reference `total`. Both callers
pass the row stored under `gap_y`, so the gap written at line 210 is the gap
`*find_gap` read at lines 206-216. -/
def insertDecapInRow (self : Opendp) (fuel : Nat) (gaps : List GapInfo)
    (gap_y irdrop_x irdrop_y : Int) (total target : ℚ) : Except DplError (Opendp × ℚ) :=
  let find_gap := lower_bound gaps irdrop_x
  match gaps[find_gap]? with
  | none => .ok (logCall self ⟨gap_y, irdrop_x, irdrop_y, none, []⟩, total)
  | some g =>
    if g.x + g.width ≥ irdrop_x ∧ g.is_filled = false then
      match findDecapCellIndices self fuel g.width total target with
      | none => .error .outOfFuel
      | some ids =>
        let self1 :=
          if ids ≠ [] then { self with gaps_ := setFilled self.gaps_ gap_y find_gap } else self
        match placeDecaps g.orient gap_y ids self1 g.x total with
        | .error e => .error e
        | .ok (self2, _, total2) =>
          .ok (logCall self2 ⟨gap_y, irdrop_x, irdrop_y,
                if ids ≠ [] then some find_gap else none,
                self2.block_.drop self.block_.length⟩, total2)
    else .ok (logCall self ⟨gap_y, irdrop_x, irdrop_y, none, []⟩, total)

/-! ## The insertion driver -/

/-- Body of the loop over the ranked drop points (lines 156-181). The iterator
`it_gapY` is an offset into the map; the map's length is `gaps_.end()`. -/
def insertDecapPoint (fuel : Nat) (target : ℚ) (self : Opendp) (total_cap : ℚ)
    (irdrop_it : IRDrop) : Except DplError (Opendp × ℚ) :=
  let it_gapY := mapFind self.gaps_ irdrop_it.y
  let own : Except DplError (Opendp × ℚ) :=
    match self.gaps_[it_gapY]? with
    | some (first, second) =>
      insertDecapInRow self fuel second first irdrop_it.x irdrop_it.y total_cap target
    | none => .ok (self, total_cap)
  match own with
  | .error e => .error e
  | .ok (self1, total1) =>
    if it_gapY ≠ 0 then
      match self1.gaps_[it_gapY - 1]? with
      | none => .error .undefinedBehavior
      | some (first, second) =>
        match second.head? with
        | none => .error .undefinedBehavior
        | some g0 =>
          if first + g0.height ≤ irdrop_it.y then
            insertDecapInRow self1 fuel second first irdrop_it.x irdrop_it.y total1 target
          else .ok (self1, total1)
    else .ok (self1, total1)

/-- The loop over the ranked drop points (lines 155-182). -/
def insertDecapLoop (fuel : Nat) (target : ℚ) :
    List IRDrop → Opendp → ℚ → Except DplError (Opendp × ℚ)
  | [], self, total_cap => .ok (self, total_cap)
  | irdrop_it :: rest, self, total_cap =>
    match insertDecapPoint fuel target self total_cap irdrop_it with
    | .error e => .error e
    | .ok (self1, total1) => insertDecapLoop fuel target rest self1 total1

/-! ## The gap scanner -/

/-- Modelled from the spec: `divFloor` is declared outside the sources at hand;
it is the integer quotient rounded down. -/
def divFloor (a b : Int) : Int := Int.fdiv a b

/-- A run of slots `[j, k)` found by the row scan, with the orientation of the
pixel at slot `j`. -/
structure GapSpan where
  j : Int
  k : Int
  orient : dbOrientType
deriving DecidableEq, Repr

/-- The test of lines 286 and 289-291: the pixel at slot `x` of the row holds no
cell and is valid. -/
def slotFree (grid : Grid) (grid_index row x : Int) : Bool :=
  (grid.gridPixel grid_index x row).cell.isNone && (grid.gridPixel grid_index x row).is_valid

/-- The inner `while` loop of `findGapsInRow` (lines 288-293): advances `k` over
free slots. Called with `fuel = row_site_count - k`, which the loop cannot
outrun. -/
def scanFree (grid : Grid) (grid_index row row_site_count : Int) : Nat → Int → Int
  | 0, k => k
  | fuel + 1, k =>
    if k < row_site_count ∧ slotFree grid grid_index row k = true then
      scanFree grid grid_index row row_site_count fuel (k + 1)
    else k

/-- The outer `while` loop of `findGapsInRow` (lines 283-306), returning the
runs in discovery order. -/
def scanRow (grid : Grid) (grid_index row row_site_count : Int) : Nat → Int → List GapSpan
  | 0, _ => []
  | fuel + 1, j =>
    if j < row_site_count then
      if slotFree grid grid_index row j = true then
        let k := scanFree grid grid_index row row_site_count (row_site_count - j).toNat j
        { j := j, k := k, orient := (grid.gridPixel grid_index j row).orient_ }
          :: scanRow grid grid_index row row_site_count fuel (j + (k - j))
      else scanRow grid grid_index row row_site_count fuel (j + 1)
    else []

/-- Local `row_site_count` of `findGapsInRow` (line 282). -/
def rowSiteCount (grid : Grid) : Int := divFloor grid.core.dx grid.site_width

/-- The runs of free slots of a row, as `findGapsInRow` discovers them. -/
def rowSpans (grid : Grid) (grid_index row : Int) : List GapSpan :=
  scanRow grid grid_index row (rowSiteCount grid) (rowSiteCount grid).toNat 0

/-- Lines 294-300 for one run: the key `gap_y` and the `GapInfo` stored. -/
def spanGap (grid : Grid) (row row_height : Int) (sp : GapSpan) : Int × GapInfo :=
  (grid.core.yMin + gridToDbu row row_height,
   { x := grid.core.xMin + gridToDbu sp.j grid.site_width
     orient := sp.orient
     width := gridToDbu sp.k grid.site_width - gridToDbu sp.j grid.site_width
     height := row_height
     is_filled := false })

/-- `Opendp::findGapsInRow(row, row_height, grid_info)`: every run found by the
scan is appended to `gaps_` under the row's key. -/
def findGapsInRow (self : Opendp) (row row_height : Int) (grid_info : GridInfo) : Opendp :=
  (rowSpans self.grid_ grid_info.grid_index row).foldl
    (fun s sp =>
      { s with gaps_ := mapPush s.gaps_ (spanGap self.grid_ row row_height sp).1
                          (spanGap self.grid_ row row_height sp).2 })
    self

/-- The constant `std::numeric_limits<int>::max()`. -/
def INT_MAX : Int := 2147483647

/-- The first loop of `findGaps` (lines 248-255) with its variables `min_height`
and `chosen_grid_key`. -/
def chooseGrid : List (Int × GridInfo) → Int → Int → Except DplError (Int × Int)
  | [], min_height, chosen_grid_key => .ok (min_height, chosen_grid_key)
  | (grid_idx, itr_grid_info) :: rest, min_height, chosen_grid_key =>
    match itr_grid_info.sites.head? with
    | none => .error .undefinedBehavior
    | some site =>
      if itr_grid_info.is_hybrid = false ∧ site.height < min_height then
        chooseGrid rest site.height grid_idx
      else chooseGrid rest min_height chosen_grid_key

/-- The lookup `getInfoMap().at(key)`. -/
def mapAt : List (Int × GridInfo) → Int → Option GridInfo
  | [], _ => none
  | (k, v) :: rest, key => if k = key then some v else mapAt rest key

/-- The row loop of the uniform branch of `findGaps` (lines 260-262). -/
def findGapsUniform (site_height : Int) (grid_info : GridInfo) : List Nat → Opendp → Opendp
  | [], self => self
  | row :: rest, self =>
    findGapsUniform site_height grid_info rest (findGapsInRow self row site_height grid_info)

/-- The row loop of the hybrid branch of `findGaps` (lines 266-271). -/
def findGapsHybrid (grid_info : GridInfo) : List Nat → Opendp → Except DplError Opendp
  | [], self => .ok self
  | row :: rest, self =>
    if grid_info.sites.length = 0 then .error .undefinedBehavior
    else
      match grid_info.sites[row % grid_info.sites.length]? with
      | none => .error .undefinedBehavior
      | some site =>
        findGapsHybrid grid_info rest (findGapsInRow self row site.height grid_info)

/-- `Opendp::findGaps()`. -/
def findGaps (self : Opendp) : Except DplError Opendp :=
  match chooseGrid self.grid_.info_map INT_MAX 0 with
  | .error e => .error e
  | .ok (min_height, chosen_grid_key) =>
    match mapAt self.grid_.info_map chosen_grid_key with
    | none => .error .outOfRange
    | some chosen_grid_info =>
      let rows := List.range chosen_grid_info.row_count.toNat
      if chosen_grid_info.is_hybrid = false then
        .ok (findGapsUniform min_height chosen_grid_info rows self)
      else findGapsHybrid chosen_grid_info rows self

/-! ## Preparation and the pass -/

/-- The sort of lines 106-110: descending by capacitance. `std::sort` leaves the
order of equal elements open; the model keeps their input order. -/
def sortDecaps (l : List DecapCell) : List DecapCell :=
  l.insertionSort (fun decap1 decap2 => decap2.capacitance ≤ decap1.capacitance)

/-- The sort of lines 117-121: ascending by `x`; equal elements keep their
input order. -/
def sortGaps (l : List GapInfo) : List GapInfo :=
  l.insertionSort (fun gap1 gap2 => gap1.x ≤ gap2.x)

/-- `Opendp::prepareDecapAndGaps()`. -/
def prepareDecapAndGaps (self : Opendp) : Except DplError Opendp :=
  match findGaps { self with decap_masters_ := sortDecaps self.decap_masters_ } with
  | .error e => .error e
  | .ok self1 =>
    let self2 := { self1 with gaps_ := self1.gaps_.map (fun it => (it.1, sortGaps it.2)) }
    let gaps_count : Nat := (self2.gaps_.map (fun it => it.2.length)).sum
    if gaps_count = 0 then .error .gapsNotFound else .ok self2

/-- `Opendp::mapToVectorIRDrops(psm_ir_drops, ir_drops)`; `psm_ir_drops` lists the
entries of the map in iteration order. Descending by value; equal elements keep
their order. -/
def mapToVectorIRDrops (psm_ir_drops : List IRDrop) (ir_drops : List IRDrop) : List IRDrop :=
  (ir_drops ++ psm_ir_drops).insertionSort
    (fun ir_drop1 ir_drop2 => ir_drop2.value ≤ ir_drop1.value)

/-- `Opendp::insertDecapCells(target, psm_ir_drops)`, returning the final state
and `total_cap`. The calls `importDb`, `initGrid` and `setGridCells` are outside
the sources at hand: `self` is the state they leave behind. -/
def insertDecapCells (self : Opendp) (fuel : Nat) (target : ℚ) (psm_ir_drops : List IRDrop) :
    Except DplError (Opendp × ℚ) :=
  let total_cap : ℚ := 0
  let self0 := { self with decap_count_ := 0 }
  if self0.have_fillers_ = true then .error .fillersPresent
  else if self0.grid_.info_map.isEmpty = false then
    match prepareDecapAndGaps self0 with
    | .error e => .error e
    | .ok self1 =>
      insertDecapLoop fuel target (mapToVectorIRDrops psm_ir_drops []) self1 total_cap
  else .ok (self0, total_cap)

/-! ## A small design used to run the definitions -/

/-- A grid with one flavor, one row at `y = 0` and four free slots of width 10
starting at `x = 100`. -/
def scenarioGrid : Grid :=
  { site_width := 10
    core := ⟨100, 0, 140, 10⟩
    info_map := [(0, ⟨1, 0, [⟨10⟩], false⟩)]
    gridPixel := fun _ _ _ => ⟨none, true, .R0⟩ }

/-- The design of the end-to-end scenario: masters A (width 10, capacitance 5)
and B (width 20, capacitance 7), zero padding, nothing placed yet. -/
def scenario : Opendp :=
  { decap_masters_ := [⟨⟨0, 10⟩, 5⟩, ⟨⟨1, 20⟩, 7⟩]
    padding_ := ⟨0, 0⟩
    grid_ := scenarioGrid
    gaps_ := []
    decap_count_ := 0
    have_fillers_ := false
    block_ := []
    calls_ := [] }

/-- The scenario design after preparation: catalog sorted to B, A and the one
gap `[100, 140]` of row `y = 0` found, not yet filled. -/
def scenarioPrepared : Opendp :=
  { scenario with
    decap_masters_ := [⟨⟨1, 20⟩, 7⟩, ⟨⟨0, 10⟩, 5⟩]
    gaps_ := [(0, [⟨100, .R0, 40, 10, false⟩])] }

/-- A prepared design whose gap map has the rows `y = 0` and `y = 30` of height
10: the rows at `y = 10` and `y = 20` between them hold no gap. -/
def twoRows : Opendp :=
  { scenarioPrepared with
    gaps_ := [(0, [⟨100, .R0, 40, 10, false⟩]), (30, [⟨200, .R0, 40, 10, false⟩])] }

/-- What a run leaves behind, without the grid: gap map, created instances,
counter, ghost call log and running total. -/
structure PassView where
  gaps_ : List (Int × List GapInfo)
  block_ : List dbInst
  decap_count_ : Int
  calls_ : List InsertCall
  total : ℚ
deriving DecidableEq, Repr

/-- The view of a result; `none` when the run failed. -/
def passView : Except DplError (Opendp × ℚ) → Option PassView
  | .ok (s, total) =>
    some { gaps_ := s.gaps_, block_ := s.block_, decap_count_ := s.decap_count_,
           calls_ := s.calls_, total := total }
  | .error _ => none

/-- The gap of the prepared scenario. -/
def scenarioGap : GapInfo := ⟨100, .R0, 40, 10, false⟩

/-- The view of the prepared scenario after its gap was filled with B at
`x = 100` and A at `x = 120`, by a call for the drop point `(irdrop_x, 0)`. -/
def scenarioFilledView (irdrop_x : Int) : PassView :=
  { gaps_ := [(0, [⟨100, .R0, 40, 10, true⟩])]
    block_ := [⟨0, ⟨1, 20⟩, .R0, 100, 0⟩, ⟨1, ⟨0, 10⟩, .R0, 120, 0⟩]
    decap_count_ := 2
    calls_ := [⟨0, irdrop_x, 0, some 0,
                [⟨0, ⟨1, 20⟩, .R0, 100, 0⟩, ⟨1, ⟨0, 10⟩, .R0, 120, 0⟩]⟩]
    total := 12 }

/-- The view of the prepared scenario after a pass with target 30 over the drop
points `(95, 0)` and `(100, 0)`: the first fills the gap with two B, the second
finds it filled. -/
def scenarioPassView : PassView :=
  { gaps_ := [(0, [⟨100, .R0, 40, 10, true⟩])]
    block_ := [⟨0, ⟨1, 20⟩, .R0, 100, 0⟩, ⟨1, ⟨1, 20⟩, .R0, 120, 0⟩]
    decap_count_ := 2
    calls_ := [⟨0, 95, 0, some 0, [⟨0, ⟨1, 20⟩, .R0, 100, 0⟩, ⟨1, ⟨1, 20⟩, .R0, 120, 0⟩]⟩,
               ⟨0, 100, 0, none, []⟩]
    total := 14 }

/-- A prepared design with two gaps `[100, 140]` and `[200, 240]` in the row
`y = 0`. -/
def twoGaps : Opendp :=
  { scenarioPrepared with
    gaps_ := [(0, [⟨100, .R0, 40, 10, false⟩, ⟨200, .R0, 40, 10, false⟩])] }

/-- The view of `twoGaps` after a pass with target 30 over the drop points
`(100, 0)` and `(150, 0)`: two B in each gap. -/
def twoGapsView : PassView :=
  { gaps_ := [(0, [⟨100, .R0, 40, 10, true⟩, ⟨200, .R0, 40, 10, true⟩])]
    block_ := [⟨0, ⟨1, 20⟩, .R0, 100, 0⟩, ⟨1, ⟨1, 20⟩, .R0, 120, 0⟩,
               ⟨2, ⟨1, 20⟩, .R0, 200, 0⟩, ⟨3, ⟨1, 20⟩, .R0, 220, 0⟩]
    decap_count_ := 4
    calls_ := [⟨0, 100, 0, some 0, [⟨0, ⟨1, 20⟩, .R0, 100, 0⟩, ⟨1, ⟨1, 20⟩, .R0, 120, 0⟩]⟩,
               ⟨0, 150, 0, some 1, [⟨2, ⟨1, 20⟩, .R0, 200, 0⟩, ⟨3, ⟨1, 20⟩, .R0, 220, 0⟩]⟩]
    total := 28 }

/-- The view of `twoGaps` after one call of `insertDecapInRow` for the drop
point `(150, 0)` with target 12: B and A in the gap at `x = 200`. -/
def secondGapView : PassView :=
  { gaps_ := [(0, [⟨100, .R0, 40, 10, false⟩, ⟨200, .R0, 40, 10, true⟩])]
    block_ := [⟨0, ⟨1, 20⟩, .R0, 200, 0⟩, ⟨1, ⟨0, 10⟩, .R0, 220, 0⟩]
    decap_count_ := 2
    calls_ := [⟨0, 150, 0, some 1, [⟨0, ⟨1, 20⟩, .R0, 200, 0⟩, ⟨1, ⟨0, 10⟩, .R0, 220, 0⟩]⟩]
    total := 12 }

/-- The prepared scenario with one site of padding on each side: site width 10,
so `min_space = 20` and a gap of width 40 has usable width 20. -/
def paddedDesign : Opendp :=
  { scenarioPrepared with padding_ := ⟨1, 1⟩ }

/-- The padded design with a catalog of B (width 20, capacitance 7) and a master
Z of width 0 and capacitance 1. -/
def paddedZeroWidth : Opendp :=
  { paddedDesign with decap_masters_ := [⟨⟨1, 20⟩, 7⟩, ⟨⟨2, 0⟩, 1⟩] }

/-- The gap map a scan leaves behind; `none` when the scan failed. -/
def gapsView : Except DplError Opendp → Option (List (Int × List GapInfo))
  | .ok s => some s.gaps_
  | .error _ => none

/-- A design with one hybrid flavor of four rows whose site pattern has the
heights 3 and 2; every row has one free slot of width 10. -/
def hybridDesign : Opendp :=
  { scenario with
    grid_ :=
      { site_width := 10
        core := ⟨0, 0, 10, 10⟩
        info_map := [(0, ⟨4, 0, [⟨3⟩, ⟨2⟩], true⟩)]
        gridPixel := fun _ _ _ => ⟨none, true, .R0⟩ } }

/-- A hybrid flavor of one row with site height 5. -/
def flavorH : GridInfo := ⟨1, 0, [⟨5⟩], true⟩

/-- A uniform flavor of one row whose site height is `INT_MAX`. -/
def flavorN : GridInfo := ⟨1, 1, [⟨INT_MAX⟩], false⟩

/-- A design with the flavors `flavorH` under key 0 and `flavorN` under key 1;
every row has one free slot of width 10. -/
def maxHeightDesign : Opendp :=
  { scenario with
    grid_ :=
      { site_width := 10
        core := ⟨0, 0, 10, 10⟩
        info_map := [(0, flavorH), (1, flavorN)]
        gridPixel := fun _ _ _ => ⟨none, true, .R0⟩ } }

/-- The scenario design with no flavor registered in the grid. -/
def noFlavorDesign : Opendp :=
  { scenario with grid_ := { scenarioGrid with info_map := [] } }

/-- The scenario design with a cell on every slot. -/
def fullDesign : Opendp :=
  { scenario with
    grid_ := { scenarioGrid with gridPixel := fun _ _ _ => ⟨some 7, true, .R0⟩ } }


/-- The scenario design with a catalog of one master of width `2^30` and
capacitance 1; the padding is zero. -/
def wideMaster : Opendp :=
  { scenario with decap_masters_ := [⟨⟨0, 1073741824⟩, 1⟩] }

/-- The design `wideMaster` with one gap `[0, 3 * 2^29]` in the row `y = 0`. -/
def wideGap : Opendp :=
  { wideMaster with gaps_ := [(0, [⟨0, .R0, 1610612736, 10, false⟩])] }

/-- The scenario design with a catalog of one master of width `2^30` and
capacitance 0. -/
def wideZeroCap : Opendp :=
  { scenario with decap_masters_ := [⟨⟨0, 1073741824⟩, 0⟩] }

/-- The scenario design with a catalog of one master of width 1 whose
capacitance is the `double` nearest to one tenth. -/
def tenthDesign : Opendp :=
  { scenario with decap_masters_ := [⟨⟨0, 1⟩, machine.roundBinary64 (1 / 10)⟩] }

/-- A design with one hybrid flavor of four rows whose site pattern has the
heights 3 and 2, on a row of three slots of width 10. Row 2 is free on the slots
0 and 1, row 3 on the slots 1 and 2; every other slot holds a cell. -/
def hybridOverlap : Opendp :=
  { scenario with
    grid_ :=
      { site_width := 10
        core := ⟨0, 0, 30, 10⟩
        info_map := [(0, ⟨4, 0, [⟨3⟩, ⟨2⟩], true⟩)]
        gridPixel := fun _ x y =>
          if (y = 2 ∧ x < 2) ∨ (y = 3 ∧ 1 ≤ x) then ⟨none, true, .R0⟩
          else ⟨some 7, true, .R0⟩ } }

/-- A design whose only flavor is the hybrid flavor `flavorH`, registered under
the key 1. -/
def shiftedHybridDesign : Opendp :=
  { scenario with
    grid_ :=
      { site_width := 10
        core := ⟨0, 0, 10, 10⟩
        info_map := [(1, flavorH)]
        gridPixel := fun _ _ _ => ⟨none, true, .R0⟩ } }

/-- The scenario design with two uniform flavors: the flavor of key 0 with site
height 10, whose grid holds a cell on every slot, and the flavor of key 1 with
site height 20, whose grid is free. -/
def otherFlavorFree : Opendp :=
  { scenario with
    grid_ :=
      { scenarioGrid with
        info_map := [(0, ⟨1, 0, [⟨10⟩], false⟩), (1, ⟨1, 1, [⟨20⟩], false⟩)]
        gridPixel := fun grid_index _ _ =>
          if grid_index = 0 then ⟨some 7, true, .R0⟩ else ⟨none, true, .R0⟩ } }

/-- The instance `inst` was created from the catalog cell at index `i`. -/
def FromCell (cat : List DecapCell) (inst : dbInst) (i : Nat) : Prop :=
  ∃ c, cat[i]? = some c ∧ inst.master = c.master

/-! ## Measures used in the statements -/

/-- Width of the master at index `i` of the catalog (`0` outside it). -/
def widthAt (cat : List DecapCell) (i : Nat) : Int :=
  match cat[i]? with
  | some c => c.master.getWidth
  | none => 0

/-- Capacitance of the master at index `i` of the catalog (`0` outside it). -/
def capAt (cat : List DecapCell) (i : Nat) : ℚ :=
  match cat[i]? with
  | some c => c.capacitance
  | none => 0

/-- Total width of the masters named by `ids`. -/
def sumWidths (cat : List DecapCell) (ids : List Nat) : Int :=
  (ids.map (widthAt cat)).sum

/-- Total capacitance of the masters named by `ids`. -/
def sumCaps (cat : List DecapCell) (ids : List Nat) : ℚ :=
  (ids.map (capAt cat)).sum

/-- The master `c` cannot be appended to the selection `ids`: the total width
would pass the usable width or the total capacitance the budget. -/
def Blocked (cat : List DecapCell) (gap_width min_space : Int) (current target : ℚ)
    (ids : List Nat) (c : DecapCell) : Prop :=
  gap_width - min_space < sumWidths cat ids + c.master.getWidth
    ∨ target - current < sumCaps cat ids + c.capacitance

/-- Loop invariant of `findDecapCellIndices`: the accumulators are the sums over
the accepted indices (the width as an `int`), every accepted index is in the
catalog, and once something was accepted both accumulators are within their
limits (the width within the `int` value of the usable width). -/
def SelInv (cat : List DecapCell) (gap_width min_space : Int) (current target : ℚ)
    (s : SelState) : Prop :=
  machine.wrapInt (sumWidths cat s.id_masters) = s.width_acum
    ∧ sumCaps cat s.id_masters = s.cap_acum
    ∧ (∀ i ∈ s.id_masters, i < cat.length)
    ∧ (s.id_masters ≠ [] →
        s.width_acum ≤ machine.wrapInt (gap_width - min_space)
          ∧ s.cap_acum ≤ target - current)

/-- No `int` operation of the selector can leave the range of `int`: the usable
width is an `int`, no master width is negative, and neither a master width nor
the usable width plus a master width passes `INT_MAX`. -/
def FitsInt (cat : List DecapCell) (gap_width min_space : Int) : Prop :=
  -2147483648 ≤ gap_width - min_space ∧ gap_width - min_space ≤ INT_MAX
    ∧ ∀ c ∈ cat, 0 ≤ c.master.getWidth ∧ c.master.getWidth ≤ INT_MAX
        ∧ gap_width - min_space + c.master.getWidth ≤ INT_MAX

/-- Invariant of the selector when no `int` operation overflows: the width
accumulator is the exact total width, it is not negative, and it is within the
usable width once something was accepted. -/
def SelExact (cat : List DecapCell) (gap_width min_space : Int) (s : SelState) : Prop :=
  sumWidths cat s.id_masters = s.width_acum ∧ 0 ≤ s.width_acum
    ∧ (s.id_masters ≠ [] → s.width_acum ≤ gap_width - min_space)

/-- The row stored under `key`, if the map has the key. -/
def lookupRow : List (Int × List GapInfo) → Int → Option (List GapInfo)
  | [], _ => none
  | (k, row) :: rest, key => if k = key then some row else lookupRow rest key

/-- The gap at position `i` of the row stored under `key`. -/
def gapAt (m : List (Int × List GapInfo)) (key : Int) (i : Nat) : Option GapInfo :=
  match lookupRow m key with
  | some row => row[i]?
  | none => none

/-- The invariant of `std::map`: keys strictly increasing in iteration order. -/
def MapWF (m : List (Int × List GapInfo)) : Prop :=
  (m.map Prod.fst).Pairwise (fun a b => a < b)

/-- Two gaps of a row share no interior point. -/
def gapsDisjoint (g h : GapInfo) : Prop :=
  g.x + g.width ≤ h.x ∨ h.x + h.width ≤ g.x

/-- Two instances share no interior point on the x-axis. -/
def instsDisjoint (a b : dbInst) : Prop :=
  a.x + a.master.getWidth ≤ b.x ∨ b.x + b.master.getWidth ≤ a.x

/-- The instances the placement loop creates for the indices `ids`, starting at
the cursor `gap_x` with the counter at `n`. -/
def placedInsts (cat : List DecapCell) (orient : dbOrientType) (gap_y : Int) :
    List Nat → Int → Int → List dbInst
  | [], _, _ => []
  | i :: rest, gap_x, n =>
    match cat[i]? with
    | some c =>
      { name := n, master := c.master, orient := orient, x := gap_x, y := gap_y }
        :: placedInsts cat orient gap_y rest (gap_x + c.master.getWidth) (n + 1)
    | none => []

/-- The gaps marked by the calls of a log, as (row key, position) pairs. -/
def fills (cs : List InsertCall) : List (Int × Nat) :=
  cs.filterMap (fun c => c.filled.map (fun i => (c.gap_y, i)))

/-- The state `insertDecapInRow` leaves when it fills the gap `g` at position
`find_gap` with the masters `ids`. -/
def filledState (self : Opendp) (gap_y irdrop_x irdrop_y : Int) (find_gap : Nat) (g : GapInfo)
    (ids : List Nat) : Opendp :=
  { self with
    gaps_ := setFilled self.gaps_ gap_y find_gap
    block_ := self.block_ ++
      placedInsts self.decap_masters_ g.orient gap_y ids g.x self.decap_count_
    decap_count_ := self.decap_count_ + ids.length
    calls_ := self.calls_ ++
      [⟨gap_y, irdrop_x, irdrop_y, some find_gap,
        placedInsts self.decap_masters_ g.orient gap_y ids g.x self.decap_count_⟩] }

/-- Invariant of the call log along a pass: no gap is marked by two calls, every
marked gap has its flag set, and a call marks a gap exactly when it creates
instances. -/
def LogInv (s : Opendp) (cs : List InsertCall) : Prop :=
  (fills cs).Nodup
    ∧ (∀ p ∈ fills cs, ∃ g, gapAt s.gaps_ p.1 p.2 = some g ∧ g.is_filled = true)
    ∧ ∀ c ∈ cs, (c.placed ≠ [] ↔ c.filled ≠ none)

/-- Any two gaps stored at different positions of one row are disjoint. -/
def RowsDisjoint (m : List (Int × List GapInfo)) : Prop :=
  ∀ (y : Int) (i j : Nat) (g h : GapInfo), i ≠ j →
    gapAt m y i = some g → gapAt m y j = some h → gapsDisjoint g h

/-- The instance lies inside a filled gap of its row. -/
def InFilledGap (m : List (Int × List GapInfo)) (inst : dbInst) : Prop :=
  ∃ (i : Nat) (g : GapInfo), gapAt m inst.y i = some g ∧ g.is_filled = true
    ∧ g.x ≤ inst.x ∧ inst.x + inst.master.getWidth ≤ g.x + g.width

/-- Invariant of the block along a pass: instances of one row are pairwise
disjoint and each lies inside a filled gap of its row. -/
def BlockInv (s : Opendp) (placed : List dbInst) : Prop :=
  placed.Pairwise (fun a b => a.y = b.y → instsDisjoint a b)
    ∧ ∀ inst ∈ placed, InFilledGap s.gaps_ inst

/-- Invariant of the accounts along a pass started with the running total
`total0` in the state `base`. -/
def Accounts (base : Opendp) (total0 target : ℚ) (s : Opendp) (t : ℚ) : Prop :=
  s.decap_masters_ = base.decap_masters_
    ∧ ∃ (placed : List dbInst) (ids : List Nat), s.block_ = base.block_ ++ placed
      ∧ List.Forall₂ (FromCell base.decap_masters_) placed ids
      ∧ t = total0 + sumCaps base.decap_masters_ ids
      ∧ s.decap_count_ = base.decap_count_ + placed.length
      ∧ t ≤ target

end dpl

/-!
# Network connections (`src/psm/src/connection.cpp`)

A `Node*` is an `Option (Node T)`, `none` for `nullptr`; equality of node
references is equality of the records, whose field `id` stands for the address.
`T` is the type of `Node::CompareInformation`. The class `Node` is declared
outside the sources at hand, so `Node::compare` is an argument of the functions
that call it, and so are the dummy tuple, the upper layer of a layer and the
constant `kResistance`. The three derived classes are the three cases of
`Variant`, a virtual call is a match on it, and a `dynamic_cast` to a derived
class succeeds on a non-null connection of that case. A `double` is a `Double`:
a rational or one of the values that a division by zero or an overflow produces.
`getResistance`, `getConductance` and `mergeWith` compute in exact arithmetic;
`getResistanceRounded` and `getConductanceRounded` follow every `double`
operation by a rounding, which is `Double.ieee` on the machine, and
`mergeWithWrapped` adds `int`s as the machine does.
-/

namespace psm

/-- The part of `psm::Node` the connections use: the identity of the object, the
layer of `getLayer()` and the value of `compareTuple()`. -/
structure Node (T : Type) where
  id : Nat
  layer : Nat
  compareTuple : T
deriving DecidableEq, Repr

/-- The data members of the three classes derived from `Connection`. -/
inductive Variant where
  | layer (length_ width_ : Int)
  | via (cuts_ : Int)
  | term
deriving DecidableEq, Repr

/-- A `Connection` object: the two endpoints and the data of its variant. -/
structure Connection (T : Type) where
  node0_ : Option (Node T)
  node1_ : Option (Node T)
  variant : Variant
deriving DecidableEq, Repr

/-- Modelled from the spec: `Node::compare` is declared outside the sources at
hand; the spec makes it the total order of the nodes that goes with their
comparison tuples. The spec is silent on a null argument, for which the model
answers `true`. -/
def Node.compare {T : Type} [LT T] [DecidableRel (fun a b : T => a < b)] (self : Node T)
    (other : Option (Node T)) : Bool :=
  match other with
  | some o => decide (self.compareTuple < o.compareTuple)
  | none => true

/-- `Connection::ensureNodeOrder()`, with `Node::compare` as an argument. -/
def Connection.ensureNodeOrder {T : Type} (compare : Node T → Option (Node T) → Bool)
    (self : Connection T) : Connection T :=
  match self.node0_ with
  | some node0 =>
    if compare node0 self.node1_ = false then
      { self with node0_ := self.node1_, node1_ := some node0 }
    else self
  | none => self

/-- The constructor `Connection::Connection(node0, node1)`, as the constructors
of the three variants call it. -/
def Connection.construct {T : Type} (compare : Node T → Option (Node T) → Bool)
    (node0 node1 : Option (Node T)) (variant : Variant) : Connection T :=
  Connection.ensureNodeOrder compare { node0_ := node0, node1_ := node1, variant := variant }

/-- `Connection::compareTuple()`, with `Node::dummyCompareTuple()` as the
argument `dummy`. -/
def Connection.compareTuple {T : Type} (dummy : T) (self : Connection T) : T × T :=
  let node0_info :=
    match self.node0_ with
    | some node0 => node0.compareTuple
    | none => dummy
  let node1_info :=
    match self.node1_ with
    | some node1 => node1.compareTuple
    | none => dummy
  (node0_info, node1_info)

/-- Three nodes with the comparison tuples 1, 2 and 3. -/
def nodeA : Node Int := ⟨0, 1, 1⟩

/-- The node with comparison tuple 2. -/
def nodeB : Node Int := ⟨1, 1, 2⟩

/-- Failures of the resistance functions: `std::map::at` on a missing key, and a
call through a null `node0_`. -/
inductive PsmError where
  | outOfRange
  | nullDereference
deriving DecidableEq, Repr

/-- A `double`: a rational number, or one of the values a division by zero or
an overflow produces. The sign of zero is not modelled. -/
inductive Double where
  | fin (q : ℚ)
  | posInf
  | negInf
  | nan
deriving DecidableEq, Repr

/-- Equality of results is decidable, so that results can be evaluated. -/
instance instDecidableEqResult : DecidableEq (Except PsmError Double)
  | .ok a, .ok b => if h : a = b then isTrue (by rw [h]) else isFalse (by simp [h])
  | .error a, .error b => if h : a = b then isTrue (by rw [h]) else isFalse (by simp [h])
  | .ok _, .error _ => isFalse (by simp)
  | .error _, .ok _ => isFalse (by simp)

/-- The conversion `static_cast<double>(n)` of an `int`. -/
def Double.ofInt (n : Int) : Double := .fin n

/-- Division of `double`s before rounding; a zero divisor counts as `+0`. -/
def Double.div : Double → Double → Double
  | .nan, _ => .nan
  | _, .nan => .nan
  | .fin a, .fin b =>
    if b = 0 then (if a = 0 then .nan else if 0 < a then .posInf else .negInf)
    else .fin (a / b)
  | .fin _, .posInf => .fin 0
  | .fin _, .negInf => .fin 0
  | .posInf, .fin b => if 0 ≤ b then .posInf else .negInf
  | .negInf, .fin b => if 0 ≤ b then .negInf else .posInf
  | .posInf, .posInf => .nan
  | .posInf, .negInf => .nan
  | .negInf, .posInf => .nan
  | .negInf, .negInf => .nan

/-- Multiplication of `double`s before rounding. -/
def Double.mul : Double → Double → Double
  | .nan, _ => .nan
  | _, .nan => .nan
  | .fin a, .fin b => .fin (a * b)
  | .fin a, .posInf => if a = 0 then .nan else if 0 < a then .posInf else .negInf
  | .fin a, .negInf => if a = 0 then .nan else if 0 < a then .negInf else .posInf
  | .posInf, .fin b => if b = 0 then .nan else if 0 < b then .posInf else .negInf
  | .negInf, .fin b => if b = 0 then .nan else if 0 < b then .negInf else .posInf
  | .posInf, .posInf => .posInf
  | .posInf, .negInf => .negInf
  | .negInf, .posInf => .negInf
  | .negInf, .negInf => .posInf

/-- What the connections take from outside the sources at hand:
`odb::dbTechLayer::getUpperLayer()` on layer identities (`none` for `nullptr`)
and the constant `TermConnection::kResistance` of `connection.h`. -/
structure Tech where
  getUpperLayer : Nat → Option Nat
  kResistance : ℚ

/-- The type `ResistanceMap`, a `std::map` from `odb::dbTechLayer*` to `double`,
as the list of its entries; the key `none` is `nullptr`. -/
abbrev ResistanceMap := List (Option Nat × ℚ)

/-- The lookup `res_map.at(key)`, which throws `std::out_of_range` on a missing
key. -/
def mapAt : ResistanceMap → Option Nat → Option ℚ
  | [], _ => none
  | (k, v) :: rest, key => if k = key then some v else mapAt rest key

/-- `Connection::getOtherNode(node)`. -/
def Connection.getOtherNode {T : Type} [DecidableEq T] (self : Connection T)
    (node : Option (Node T)) : Option (Node T) :=
  if node = self.node0_ then self.node1_ else self.node0_

/-- The virtual `getResistance(res_map)`: `LayerConnection::getResistance`,
`ViaConnection::getResistance` and `TermConnection::getResistance`, in exact
arithmetic. -/
def Connection.getResistance {T : Type} (tech : Tech) (self : Connection T)
    (res_map : ResistanceMap) : Except PsmError Double :=
  match self.variant with
  | .layer length_ width_ =>
    let squares := Double.div (Double.ofInt length_) (Double.ofInt width_)
    match self.node0_ with
    | none => .error .nullDereference
    | some node0 =>
      match mapAt res_map (some node0.layer) with
      | none => .error .outOfRange
      | some r => .ok (Double.mul squares (.fin r))
  | .via cuts_ =>
    match self.node0_ with
    | none => .error .nullDereference
    | some node0 =>
      let via_layer := tech.getUpperLayer node0.layer
      match mapAt res_map via_layer with
      | none => .error .outOfRange
      | some r => .ok (Double.div (.fin r) (Double.ofInt cuts_))
  | .term => .ok (.fin tech.kResistance)

/-- `Connection::getConductance(res_map)`, in exact arithmetic. -/
def Connection.getConductance {T : Type} (tech : Tech) (self : Connection T)
    (res_map : ResistanceMap) : Except PsmError Double :=
  match self.getResistance tech res_map with
  | .error e => .error e
  | .ok res => if res = .fin 0 then .ok .posInf else .ok (Double.div (.fin 1) res)

/-- The virtual `isValid()`: `LayerConnection::isValid` and
`ViaConnection::isValid`. Modelled from the spec for the terminal variant, whose
`isValid` is outside the sources at hand: always valid. -/
def Connection.isValid {T : Type} (self : Connection T) : Bool :=
  match self.variant with
  | .layer length_ width_ => decide (0 < width_) && decide (0 < length_)
  | .via cuts_ => decide (0 < cuts_)
  | .term => true

/-- The virtual `mergeWith(other)`: `LayerConnection::mergeWith` and
`ViaConnection::mergeWith`, in exact arithmetic; a `dynamic_cast` succeeds when
`other` is not null and has the variant asked for. `TermConnection::mergeWith`
is outside the sources at hand; the terminal variant has no data and is left as
it is. -/
def Connection.mergeWith {T : Type} (self : Connection T) (other : Option (Connection T)) :
    Connection T :=
  match self.variant with
  | .layer length_ width_ =>
    match other with
    | none => self
    | some layer_other =>
      match layer_other.variant with
      | .layer _ other_width => { self with variant := .layer length_ (width_ + other_width) }
      | _ => self
  | .via cuts_ =>
    match other with
    | none => self
    | some via_other =>
      match via_other.variant with
      | .via other_cuts => { self with variant := .via (cuts_ + other_cuts) }
      | _ => self
  | .term => self

/-- The comparison `operator<` of two pairs of node tuples. -/
def tupleLt {T : Type} [LT T] (p q : T × T) : Prop :=
  p.1 < q.1 ∨ (¬ q.1 < p.1 ∧ p.2 < q.2)

instance {T : Type} [LT T] [DecidableRel (fun a b : T => a < b)] (p q : T × T) :
    Decidable (tupleLt p q) := by
  unfold tupleLt
  infer_instance

/-- `Connection::compare(other)` for a non-null `other`, with
`Node::dummyCompareTuple()` as the argument `dummy`. -/
def Connection.compare {T : Type} [LT T] [DecidableRel (fun a b : T => a < b)] (dummy : T)
    (self other : Connection T) : Bool :=
  decide (tupleLt (self.compareTuple dummy) (other.compareTuple dummy))

/-- A technology in which layer `n` below 5 has the upper layer `n + 1`, and a
terminal resistance of one thousandth. -/
def exampleTech : Tech :=
  { getUpperLayer := fun n => if n < 5 then some (n + 1) else none
    kResistance := 1 / 1000 }

/-- A resistance table with the layers 1 and 2. -/
def exampleMap : ResistanceMap := [(some 1, 2), (some 2, 4)]

/-! ## Machine arithmetic of the connections -/

/-- The `double` that the exact result `q` of an operation is rounded to: the
nearest binary64 value, or an infinity when that value is out of range. -/
def Double.ieee (q : ℚ) : Double :=
  if 2 ^ 1024 ≤ machine.roundBinary64 q then .posInf
  else if machine.roundBinary64 q ≤ -2 ^ 1024 then .negInf
  else .fin (machine.roundBinary64 q)

/-- The result of a `double` operation after the rounding `round` of a finite
exact result. -/
def Double.rounded (round : ℚ → Double) : Double → Double
  | .fin q => round q
  | .posInf => .posInf
  | .negInf => .negInf
  | .nan => .nan

/-- The virtual `getResistance(res_map)` with every `double` operation followed
by the rounding `round`. -/
def Connection.getResistanceRounded {T : Type} (round : ℚ → Double) (tech : Tech)
    (self : Connection T) (res_map : ResistanceMap) : Except PsmError Double :=
  match self.variant with
  | .layer length_ width_ =>
    let squares := (Double.div (Double.ofInt length_) (Double.ofInt width_)).rounded round
    match self.node0_ with
    | none => .error .nullDereference
    | some node0 =>
      match mapAt res_map (some node0.layer) with
      | none => .error .outOfRange
      | some r => .ok ((Double.mul squares (.fin r)).rounded round)
  | .via cuts_ =>
    match self.node0_ with
    | none => .error .nullDereference
    | some node0 =>
      let via_layer := tech.getUpperLayer node0.layer
      match mapAt res_map via_layer with
      | none => .error .outOfRange
      | some r => .ok ((Double.div (.fin r) (Double.ofInt cuts_)).rounded round)
  | .term => .ok (.fin tech.kResistance)

/-- `Connection::getConductance(res_map)` with every `double` operation followed
by the rounding `round`. -/
def Connection.getConductanceRounded {T : Type} (round : ℚ → Double) (tech : Tech)
    (self : Connection T) (res_map : ResistanceMap) : Except PsmError Double :=
  match self.getResistanceRounded round tech res_map with
  | .error e => .error e
  | .ok res =>
    if res = .fin 0 then .ok .posInf else .ok ((Double.div (.fin 1) res).rounded round)

/-- The virtual `mergeWith(other)` with the `int` additions `width_ +=` and
`cuts_ +=` of the machine, which wrap on 32 bits. -/
def Connection.mergeWithWrapped {T : Type} (self : Connection T)
    (other : Option (Connection T)) : Connection T :=
  match self.variant with
  | .layer length_ width_ =>
    match other with
    | none => self
    | some layer_other =>
      match layer_other.variant with
      | .layer _ other_width =>
        { self with variant := .layer length_ (machine.wrapInt (width_ + other_width)) }
      | _ => self
  | .via cuts_ =>
    match other with
    | none => self
    | some via_other =>
      match via_other.variant with
      | .via other_cuts => { self with variant := .via (machine.wrapInt (cuts_ + other_cuts)) }
      | _ => self
  | .term => self

/-- A resistance table in which the via layer 2 has the resistance 49. -/
def map49 : ResistanceMap := [(some 2, 49)]

/-- A resistance table in which the via layer 2 has the least positive `double`,
`2^-1074`, as its resistance. -/
def mapTiny : ResistanceMap := [(some 2, 1 / 2 ^ 1074)]

end psm

namespace machine

/-! ## Wrapping of `int` -/

theorem wrapInt_of_fits (n : Int) (hlo : -2147483648 ≤ n) (hhi : n ≤ 2147483647) :
    wrapInt n = n := by
  unfold wrapInt; omega

theorem wrapInt_add_left (a b : Int) : wrapInt (wrapInt a + b) = wrapInt (a + b) := by
  unfold wrapInt; omega

theorem wrapInt_le_self (n : Int) (h : 0 ≤ n) : wrapInt n ≤ n := by
  unfold wrapInt; omega

theorem wrapInt_bounds (n : Int) : -2147483648 ≤ wrapInt n ∧ wrapInt n ≤ 2147483647 := by
  unfold wrapInt; omega

end machine

namespace dpl

/-! ## Selector lemmas -/

theorem sumWidths_append (cat : List DecapCell) (a b : List Nat) :
    sumWidths cat (a ++ b) = sumWidths cat a + sumWidths cat b := by
  simp [sumWidths]

theorem sumCaps_append (cat : List DecapCell) (a b : List Nat) :
    sumCaps cat (a ++ b) = sumCaps cat a + sumCaps cat b := by
  simp [sumCaps]

theorem selInv_init (cat : List DecapCell) (gap_width min_space : Int) (current target : ℚ) :
    SelInv cat gap_width min_space current target
      { id_masters := [], cap_acum := 0, width_acum := 0 } := by
  simp [SelInv, sumWidths, sumCaps, machine.wrapInt]

theorem whileAccept_inv (cat : List DecapCell) (i : Nat) (c : DecapCell)
    (hc : cat[i]? = some c) (gap_width min_space : Int) (current target : ℚ) :
    ∀ (fuel : Nat) (s : SelState) (b : Bool) (s1 : SelState),
      whileAccept i c.master.getWidth c.capacitance gap_width min_space current target fuel s
        = some (b, s1) →
      SelInv cat gap_width min_space current target s →
      SelInv cat gap_width min_space current target s1 := by
  intro fuel
  induction fuel with
  | zero => intro s b s1 h; simp [whileAccept] at h
  | succ n ih =>
    intro s b s1 h hinv
    rw [whileAccept] at h
    split at h
    · rename_i hcond
      have hlt : i < cat.length := by
        rcases List.getElem?_eq_some_iff.mp hc with ⟨hlt, _⟩
        exact hlt
      have hinv1 : SelInv cat gap_width min_space current target
          { id_masters := s.id_masters ++ [i]
            cap_acum := s.cap_acum + c.capacitance
            width_acum := machine.wrapInt (s.width_acum + c.master.getWidth) } := by
        obtain ⟨hw, hcap, hidx, _⟩ := hinv
        refine ⟨?_, ?_, ?_, fun _ => hcond⟩
        · show machine.wrapInt (sumWidths cat (s.id_masters ++ [i]))
            = machine.wrapInt (s.width_acum + c.master.getWidth)
          rw [sumWidths_append, ← hw, machine.wrapInt_add_left]
          simp [sumWidths, widthAt, hc]
        · show sumCaps cat (s.id_masters ++ [i]) = s.cap_acum + c.capacitance
          rw [sumCaps_append, hcap]; simp [sumCaps, capAt, hc]
        · intro k hk
          rcases List.mem_append.mp hk with hk | hk
          · exact hidx k hk
          · simp at hk; omega
      simp only at h
      split at h
      · simp only [Option.some.injEq, Prod.mk.injEq] at h
        rw [← h.2]; exact hinv1
      · exact ih _ b s1 h hinv1
    · simp only [Option.some.injEq, Prod.mk.injEq] at h
      rw [← h.2]; exact hinv

theorem forMasters_inv (cat : List DecapCell) (fuel : Nat) (gap_width min_space : Int)
    (current target : ℚ) :
    ∀ (rest : List DecapCell) (i : Nat) (s : SelState) (ids : List Nat),
      (∀ k c, rest[k]? = some c → cat[i + k]? = some c) →
      SelInv cat gap_width min_space current target s →
      forMasters fuel gap_width min_space current target rest i s = some ids →
      ∃ s1, SelInv cat gap_width min_space current target s1 ∧ s1.id_masters = ids := by
  intro rest
  induction rest with
  | nil =>
    intro i s ids _ hinv h
    simp only [forMasters, Option.some.injEq] at h
    exact ⟨s, hinv, h⟩
  | cons c rest ih =>
    intro i s ids hsuf hinv h
    have hc : cat[i]? = some c := by simpa using hsuf 0 c (by simp)
    rw [forMasters] at h
    split at h
    · simp at h
    · rename_i s1 hw
      simp only [Option.some.injEq] at h
      exact ⟨s1, whileAccept_inv cat i c hc gap_width min_space current target fuel s true s1 hw hinv, h⟩
    · rename_i s1 hw
      have hinv1 := whileAccept_inv cat i c hc gap_width min_space current target fuel s false s1 hw hinv
      refine ih (i + 1) s1 ids ?_ hinv1 h
      intro k c1 hk
      have := hsuf (k + 1) c1 (by simpa using hk)
      rw [show i + 1 + k = i + (k + 1) by omega]; exact this

/-- Whatever `findDecapCellIndices` returns satisfies the loop invariant. -/
theorem findDecapCellIndices_inv (self : Opendp) (fuel : Nat) (gap_width : Int)
    (current target : ℚ) (ids : List Nat)
    (h : findDecapCellIndices self fuel gap_width current target = some ids) :
    ∃ s1, SelInv self.decap_masters_ gap_width self.min_space current target s1
      ∧ s1.id_masters = ids := by
  refine forMasters_inv self.decap_masters_ fuel gap_width self.min_space current target
    self.decap_masters_ 0 _ ids ?_ (selInv_init _ _ _ _ _) h
  intro k c hk; simpa using hk

/-! ## The selector when no `int` operation overflows -/

theorem selExact_init (cat : List DecapCell) (gap_width min_space : Int) :
    SelExact cat gap_width min_space { id_masters := [], cap_acum := 0, width_acum := 0 } := by
  simp [SelExact, sumWidths]

/-- In a state of `SelExact` the sum tested by the loop does not wrap. -/
theorem wrapInt_step (cat : List DecapCell) (gap_width min_space : Int)
    (hfit : FitsInt cat gap_width min_space) (c : DecapCell) (hc : c ∈ cat) (s : SelState)
    (hex : SelExact cat gap_width min_space s) :
    machine.wrapInt (s.width_acum + c.master.getWidth) = s.width_acum + c.master.getWidth
      ∧ machine.wrapInt (gap_width - min_space) = gap_width - min_space := by
  obtain ⟨hlo, hhi, hall⟩ := hfit
  obtain ⟨hw0, hwmax, hsum⟩ := hall c hc
  obtain ⟨hs, hnn, hle⟩ := hex
  unfold INT_MAX at hhi hwmax hsum
  have hwa : s.width_acum = 0 ∨ s.width_acum ≤ gap_width - min_space := by
    by_cases hnil : s.id_masters = []
    · left; rw [← hs, hnil]; simp [sumWidths]
    · right; exact hle hnil
  constructor
  · apply machine.wrapInt_of_fits <;> omega
  · apply machine.wrapInt_of_fits <;> omega

theorem whileAccept_exact (cat : List DecapCell) (i : Nat) (c : DecapCell)
    (hc : cat[i]? = some c) (gap_width min_space : Int)
    (hfit : FitsInt cat gap_width min_space) (current target : ℚ) :
    ∀ (fuel : Nat) (s : SelState) (b : Bool) (s1 : SelState),
      whileAccept i c.master.getWidth c.capacitance gap_width min_space current target fuel s
        = some (b, s1) →
      SelExact cat gap_width min_space s →
      SelExact cat gap_width min_space s1 := by
  have hcm : c ∈ cat := List.getElem?_mem hc
  intro fuel
  induction fuel with
  | zero => intro s b s1 h; simp [whileAccept] at h
  | succ n ih =>
    intro s b s1 h hex
    obtain ⟨hstep, husable⟩ := wrapInt_step cat gap_width min_space hfit c hcm s hex
    rw [whileAccept, hstep, husable] at h
    split at h
    · rename_i hcond
      have hex1 : SelExact cat gap_width min_space
          { id_masters := s.id_masters ++ [i]
            cap_acum := s.cap_acum + c.capacitance
            width_acum := s.width_acum + c.master.getWidth } := by
        obtain ⟨hs, hnn, _⟩ := hex
        have hw0 := (hfit.2.2 c hcm).1
        refine ⟨?_, ?_, fun _ => hcond.1⟩
        · show sumWidths cat (s.id_masters ++ [i]) = s.width_acum + c.master.getWidth
          rw [sumWidths_append, hs]; simp [sumWidths, widthAt, hc]
        · show 0 ≤ s.width_acum + c.master.getWidth
          omega
      simp only at h
      split at h
      · simp only [Option.some.injEq, Prod.mk.injEq] at h
        rw [← h.2]; exact hex1
      · exact ih _ b s1 h hex1
    · simp only [Option.some.injEq, Prod.mk.injEq] at h
      rw [← h.2]; exact hex

theorem forMasters_exact (cat : List DecapCell) (fuel : Nat) (gap_width min_space : Int)
    (hfit : FitsInt cat gap_width min_space) (current target : ℚ) :
    ∀ (rest : List DecapCell) (i : Nat) (s : SelState) (ids : List Nat),
      (∀ k c, rest[k]? = some c → cat[i + k]? = some c) →
      SelExact cat gap_width min_space s →
      forMasters fuel gap_width min_space current target rest i s = some ids →
      ∃ s1, SelExact cat gap_width min_space s1 ∧ s1.id_masters = ids := by
  intro rest
  induction rest with
  | nil =>
    intro i s ids _ hex h
    simp only [forMasters, Option.some.injEq] at h
    exact ⟨s, hex, h⟩
  | cons c rest ih =>
    intro i s ids hsuf hex h
    have hc : cat[i]? = some c := by simpa using hsuf 0 c (by simp)
    rw [forMasters] at h
    split at h
    · simp at h
    · rename_i s1 hw
      simp only [Option.some.injEq] at h
      exact ⟨s1, whileAccept_exact cat i c hc gap_width min_space hfit current target fuel s true
        s1 hw hex, h⟩
    · rename_i s1 hw
      have hex1 := whileAccept_exact cat i c hc gap_width min_space hfit current target fuel s
        false s1 hw hex
      refine ih (i + 1) s1 ids ?_ hex1 h
      intro k c1 hk
      have := hsuf (k + 1) c1 (by simpa using hk)
      rw [show i + 1 + k = i + (k + 1) by omega]; exact this

/-- When no `int` operation of the selector overflows, the total width of a
non-empty result is within the usable width. -/
theorem findDecapCellIndices_exact (self : Opendp) (fuel : Nat) (gap_width : Int)
    (current target : ℚ) (ids : List Nat)
    (hfit : FitsInt self.decap_masters_ gap_width self.min_space)
    (h : findDecapCellIndices self fuel gap_width current target = some ids) :
    0 ≤ sumWidths self.decap_masters_ ids
      ∧ (ids ≠ [] → sumWidths self.decap_masters_ ids ≤ gap_width - self.min_space) := by
  obtain ⟨s1, ⟨hs, hnn, hle⟩, hid⟩ :=
    forMasters_exact self.decap_masters_ fuel gap_width self.min_space hfit current target
      self.decap_masters_ 0 _ ids (by intro k c hk; simpa using hk) (selExact_init _ _ _) h
  rw [← hid, hs]
  exact ⟨hnn, hle⟩

/-- With a master of positive width and no overflow the `while` loop ends within
`usable width - width_acum + 1` iterations. -/
theorem whileAccept_isSome (cat : List DecapCell) (i : Nat) (c : DecapCell) (hcm : c ∈ cat)
    (gap_width min_space : Int) (hfit : FitsInt cat gap_width min_space) (current target : ℚ)
    (hw : 0 < c.master.getWidth) :
    ∀ (fuel : Nat) (s : SelState), (gap_width - min_space - s.width_acum).toNat < fuel →
      (s.width_acum = 0 ∨ s.width_acum ≤ gap_width - min_space) → 0 ≤ s.width_acum →
      ∃ b s1, whileAccept i c.master.getWidth c.capacitance gap_width min_space current target
          fuel s = some (b, s1) ∧ s.width_acum ≤ s1.width_acum
        ∧ (s1.width_acum = 0 ∨ s1.width_acum ≤ gap_width - min_space) := by
  obtain ⟨hlo, hhi, hall⟩ := hfit
  obtain ⟨hw0, hwmax, hsum⟩ := hall c hcm
  unfold INT_MAX at hhi hwmax hsum
  have husable : machine.wrapInt (gap_width - min_space) = gap_width - min_space := by
    apply machine.wrapInt_of_fits <;> omega
  intro fuel
  induction fuel with
  | zero => intro s h; omega
  | succ f ih =>
    intro s h hs hnn
    have hstep : machine.wrapInt (s.width_acum + c.master.getWidth)
        = s.width_acum + c.master.getWidth := by
      apply machine.wrapInt_of_fits <;> omega
    rw [whileAccept, hstep, husable]
    split
    · rename_i hcond
      simp only
      split
      · exact ⟨true, _, rfl, by show s.width_acum ≤ s.width_acum + c.master.getWidth; omega,
          Or.inr hcond.1⟩
      · obtain ⟨b, s1, h1, h2, h3⟩ := ih
          { id_masters := s.id_masters ++ [i]
            cap_acum := s.cap_acum + c.capacitance
            width_acum := s.width_acum + c.master.getWidth }
          (by
            show (gap_width - min_space - (s.width_acum + c.master.getWidth)).toNat < f
            have := hcond.1
            omega)
          (Or.inr hcond.1)
          (by show 0 ≤ s.width_acum + c.master.getWidth; omega)
        exact ⟨b, s1, h1, by
          have : s.width_acum + c.master.getWidth ≤ s1.width_acum := h2
          omega, h3⟩
    · exact ⟨false, s, rfl, le_refl _, hs⟩

theorem forMasters_isSome (cat : List DecapCell) (fuel : Nat) (gap_width min_space : Int)
    (hfit : FitsInt cat gap_width min_space) (current target : ℚ)
    (hf : (gap_width - min_space).toNat < fuel) :
    ∀ (rest : List DecapCell) (i : Nat) (s : SelState),
      (∀ c ∈ rest, c ∈ cat ∧ 0 < c.master.getWidth) → 0 ≤ s.width_acum →
      (s.width_acum = 0 ∨ s.width_acum ≤ gap_width - min_space) →
      ∃ ids, forMasters fuel gap_width min_space current target rest i s = some ids := by
  intro rest
  induction rest with
  | nil => intro i s _ _ _; exact ⟨_, rfl⟩
  | cons c rest ih =>
    intro i s hpos hs hle
    obtain ⟨b, s1, h1, h2, h3⟩ := whileAccept_isSome cat i c (hpos c (by simp)).1 gap_width
      min_space hfit current target (hpos c (by simp)).2 fuel s (by omega) hle hs
    rw [forMasters, h1]
    cases b with
    | true => exact ⟨_, rfl⟩
    | false =>
      exact ih (i + 1) s1 (fun c1 hc1 => hpos c1 (List.mem_cons_of_mem _ hc1)) (by omega) h3

/-- When every master has positive width and no `int` operation overflows,
`findDecapCellIndices` returns with any fuel above the usable width. -/
theorem findDecapCellIndices_isSome (self : Opendp) (fuel : Nat) (gap_width : Int)
    (current target : ℚ) (hpos : ∀ c ∈ self.decap_masters_, 0 < c.master.getWidth)
    (hfit : FitsInt self.decap_masters_ gap_width self.min_space)
    (hf : (gap_width - self.min_space).toNat < fuel) :
    ∃ ids, findDecapCellIndices self fuel gap_width current target = some ids :=
  forMasters_isSome self.decap_masters_ fuel gap_width self.min_space hfit current target hf
    self.decap_masters_ 0 _ (fun c hc => ⟨hc, hpos c hc⟩) (le_refl _) (Or.inl rfl)

/-- The halving loop keeps its range inside the list and ends at the end of the
list or at an element that does not compare below `value`. -/
theorem lowerBoundLoop_spec (gaps : List GapInfo) (value : Int) :
    ∀ (fuel first len : Nat), len ≤ fuel → first + len ≤ gaps.length →
      (∀ g, gaps[first + len]? = some g → value ≤ g.x) →
      lowerBoundLoop gaps value fuel first len ≤ gaps.length
        ∧ ∀ g, gaps[lowerBoundLoop gaps value fuel first len]? = some g → value ≤ g.x := by
  intro fuel
  induction fuel with
  | zero =>
    intro first len hl hb hend
    have : len = 0 := by omega
    subst this
    simp only [lowerBoundLoop]
    exact ⟨by omega, by simpa using hend⟩
  | succ f ih =>
    intro first len hl hb hend
    rw [lowerBoundLoop]
    split
    · rename_i hz
      subst hz
      exact ⟨by omega, by simpa using hend⟩
    · rename_i hz
      simp only
      have hhalf : len / 2 < len := Nat.div_lt_self (by omega) (by omega)
      split
      · rename_i elem hget
        split
        · refine ih (first + len / 2 + 1) (len - len / 2 - 1) (by omega) (by omega) ?_
          have : first + len / 2 + 1 + (len - len / 2 - 1) = first + len := by omega
          rw [this]; exact hend
        · rename_i hnlt
          refine ih first (len / 2) (by omega) (by omega) ?_
          intro g hg
          rw [hget] at hg
          simp only [Option.some.injEq] at hg
          subst hg
          omega
      · rename_i hget
        have hlt : first + len / 2 < gaps.length := by omega
        rw [List.getElem?_eq_getElem hlt] at hget
        simp at hget

/-- The gap `std::lower_bound` locates never starts left of `value`. -/
theorem lower_bound_ge (gaps : List GapInfo) (value : Int) (g : GapInfo)
    (h : gaps[lower_bound gaps value]? = some g) : value ≤ g.x := by
  refine (lowerBoundLoop_spec gaps value gaps.length 0 gaps.length (le_refl _) (by simp)
    ?_).2 g h
  intro g1 hg1
  simp at hg1

/-! ## Lemmas on the gap map -/

theorem length_markRow (row : List GapInfo) (idx : Nat) : (markRow row idx).length = row.length := by
  unfold markRow; split <;> simp

theorem getElem?_markRow (row : List GapInfo) (idx i : Nat) :
    (markRow row idx)[i]? =
      (row[i]?).map (fun g => if i = idx then { g with is_filled := true } else g) := by
  unfold markRow
  split
  · rename_i g hg
    by_cases h : i = idx
    · subst h
      have hlt : i < row.length := (List.getElem?_eq_some_iff.mp hg).1
      simp [List.getElem?_set, hg, hlt]
    · have h1 : idx ≠ i := fun e => h e.symm
      simp [List.getElem?_set, h, h1]
  · rename_i hg
    by_cases h : i = idx
    · subst h; simp [hg]
    · cases hi : row[i]? <;> simp [h]

theorem keys_setFilled (m : List (Int × List GapInfo)) (key : Int) (idx : Nat) :
    (setFilled m key idx).map Prod.fst = m.map Prod.fst := by
  induction m with
  | nil => rfl
  | cons a rest ih =>
    obtain ⟨k, row⟩ := a
    unfold setFilled
    split <;> simp [ih]

theorem length_setFilled (m : List (Int × List GapInfo)) (key : Int) (idx : Nat) :
    (setFilled m key idx).length = m.length := by
  have := congrArg List.length (keys_setFilled m key idx)
  simpa using this

theorem lookupRow_setFilled (m : List (Int × List GapInfo)) (key : Int) (idx : Nat) (y : Int) :
    lookupRow (setFilled m key idx) y =
      (lookupRow m y).map (fun row => if y = key then markRow row idx else row) := by
  induction m with
  | nil => rfl
  | cons a rest ih =>
    obtain ⟨k, row⟩ := a
    unfold setFilled
    by_cases hk : k = key
    · subst hk
      by_cases hy : k = y
      · subst hy; simp [lookupRow]
      · have hy1 : ¬ y = k := fun e => hy e.symm
        simp only [if_true, lookupRow, hy, if_false]
        cases lookupRow rest y <;> simp [hy1]
    · simp only [hk, if_false, lookupRow]
      by_cases hy : k = y
      · subst hy; simp [hk]
      · simp [hy, ih]

theorem gapAt_setFilled (m : List (Int × List GapInfo)) (key : Int) (idx : Nat) (y : Int)
    (i : Nat) :
    gapAt (setFilled m key idx) y i =
      (gapAt m y i).map (fun g => if y = key ∧ i = idx then { g with is_filled := true } else g) := by
  unfold gapAt
  rw [lookupRow_setFilled]
  cases hrow : lookupRow m y with
  | none => rfl
  | some row =>
    by_cases hy : y = key
    · simp only [Option.map_some', hy, if_true, getElem?_markRow, true_and]
    · simp [hy]

theorem mapFind_le {α : Type} (m : List (Int × α)) (y : Int) : mapFind m y ≤ m.length := by
  induction m with
  | nil => simp [mapFind]
  | cons a rest ih =>
    obtain ⟨k, v⟩ := a
    unfold mapFind
    split
    · simp
    · simp; omega

theorem lookupRow_of_getElem? (m : List (Int × List GapInfo)) (hwf : MapWF m) (j : Nat)
    (k : Int) (row : List GapInfo) (h : m[j]? = some (k, row)) : lookupRow m k = some row := by
  induction m generalizing j with
  | nil => simp at h
  | cons a rest ih =>
    obtain ⟨k0, row0⟩ := a
    unfold MapWF at hwf
    simp only [List.map_cons, List.pairwise_cons] at hwf
    cases j with
    | zero =>
      simp only [List.getElem?_cons_zero, Option.some.injEq, Prod.mk.injEq] at h
      simp [lookupRow, h.1, h.2]
    | succ j =>
      simp only [List.getElem?_cons_succ] at h
      have hmem : k ∈ rest.map Prod.fst :=
        List.mem_map.mpr ⟨(k, row), List.getElem?_mem h, rfl⟩
      have hlt := hwf.1 k hmem
      have hne : ¬ k0 = k := by omega
      simpa [lookupRow, hne] using ih hwf.2 j h

theorem lookupRow_mem (m : List (Int × List GapInfo)) (k : Int) (row : List GapInfo)
    (h : lookupRow m k = some row) : (k, row) ∈ m := by
  induction m with
  | nil => simp [lookupRow] at h
  | cons a rest ih =>
    obtain ⟨k0, row0⟩ := a
    unfold lookupRow at h
    split at h
    · rename_i hk
      simp only [Option.some.injEq] at h
      simp [← hk, h]
    · exact List.mem_cons_of_mem _ (ih h)

/-! ## Lemmas on row-local insertion -/

theorem placeDecaps_eq (orient : dbOrientType) (gap_y : Int) :
    ∀ (ids : List Nat) (self : Opendp) (gap_x : Int) (total : ℚ),
      (∀ i ∈ ids, i < self.decap_masters_.length) →
      placeDecaps orient gap_y ids self gap_x total =
        .ok ({ self with
                block_ := self.block_ ++
                  placedInsts self.decap_masters_ orient gap_y ids gap_x self.decap_count_
                decap_count_ := self.decap_count_ + ids.length },
             gap_x + sumWidths self.decap_masters_ ids,
             total + sumCaps self.decap_masters_ ids) := by
  intro ids
  induction ids with
  | nil => intro self gap_x total _; simp [placeDecaps, placedInsts, sumWidths, sumCaps]
  | cons i rest ih =>
    intro self gap_x total hidx
    have hi : i < self.decap_masters_.length := hidx i (by simp)
    have hc : self.decap_masters_[i]? = some self.decap_masters_[i] :=
      List.getElem?_eq_getElem hi
    rw [placeDecaps, hc]
    simp only
    rw [ih]
    · simp only [insertDecapInPos, placedInsts, hc, sumWidths, sumCaps, widthAt, capAt,
        List.map_cons, List.sum_cons, List.length_cons, List.append_assoc, List.singleton_append,
        Nat.cast_add, Nat.cast_one]
      congr 2
      · congr 1; ring
      · congr 1
        · ring
        · ring
    · intro k hk
      exact hidx k (List.mem_cons_of_mem _ hk)

theorem findDecapCellIndices_lt (self : Opendp) (fuel : Nat) (gap_width : Int)
    (current target : ℚ) (ids : List Nat)
    (h : findDecapCellIndices self fuel gap_width current target = some ids) :
    ∀ i ∈ ids, i < self.decap_masters_.length := by
  obtain ⟨s1, ⟨_, _, hidx, _⟩, rfl⟩ :=
    findDecapCellIndices_inv self fuel gap_width current target ids h
  exact hidx

/-- The two ways a call of `insertDecapInRow` can end: nothing placed, or the
located gap filled with a non-empty selection. -/
theorem insertDecapInRow_cases (self : Opendp) (fuel : Nat) (gaps : List GapInfo)
    (gap_y irdrop_x irdrop_y : Int) (total target : ℚ) (s1 : Opendp) (t1 : ℚ)
    (h : insertDecapInRow self fuel gaps gap_y irdrop_x irdrop_y total target = .ok (s1, t1)) :
    (s1 = logCall self ⟨gap_y, irdrop_x, irdrop_y, none, []⟩ ∧ t1 = total
      ∧ ∀ g ids, gaps[lower_bound gaps irdrop_x]? = some g → g.is_filled = false →
          irdrop_x ≤ g.x + g.width →
          findDecapCellIndices self fuel g.width total target = some ids → ids = [])
    ∨ ∃ g ids, gaps[lower_bound gaps irdrop_x]? = some g ∧ irdrop_x ≤ g.x + g.width
        ∧ g.is_filled = false
        ∧ findDecapCellIndices self fuel g.width total target = some ids ∧ ids ≠ []
        ∧ s1 = filledState self gap_y irdrop_x irdrop_y (lower_bound gaps irdrop_x) g ids
        ∧ t1 = total + sumCaps self.decap_masters_ ids := by
  unfold insertDecapInRow at h
  simp only at h
  split at h
  · rename_i hg
    simp only [Except.ok.injEq, Prod.mk.injEq] at h
    refine Or.inl ⟨h.1.symm, h.2.symm, ?_⟩
    intro g ids hg1; rw [hg] at hg1; simp at hg1
  · rename_i g hg
    split at h
    · rename_i hcond
      split at h
      · simp at h
      · rename_i ids hsel
        have hidx := findDecapCellIndices_lt self fuel g.width total target ids hsel
        by_cases hnil : ids = []
        · subst hnil
          simp only [ne_eq, not_true_eq_false, if_false, placeDecaps, List.drop_length] at h
          simp only [Except.ok.injEq, Prod.mk.injEq] at h
          refine Or.inl ⟨h.1.symm, h.2.symm, ?_⟩
          intro g1 ids1 hg1 _ _ hsel1
          rw [hg] at hg1
          simp only [Option.some.injEq] at hg1
          subst hg1
          rw [hsel] at hsel1
          simpa using hsel1.symm
        · simp only [ne_eq, hnil, not_false_eq_true, if_true] at h
          rw [placeDecaps_eq g.orient gap_y ids
            { self with gaps_ := setFilled self.gaps_ gap_y (lower_bound gaps irdrop_x) }
            g.x total hidx] at h
          simp only [Except.ok.injEq, Prod.mk.injEq] at h
          refine Or.inr ⟨g, ids, hg, hcond.1, hcond.2, hsel, hnil, ?_, h.2.symm⟩
          rw [← h.1]
          simp [filledState, logCall]
    · rename_i hcond
      simp only [Except.ok.injEq, Prod.mk.injEq] at h
      refine Or.inl ⟨h.1.symm, h.2.symm, ?_⟩
      intro g1 ids1 hg1 hf hx _
      rw [hg] at hg1
      simp only [Option.some.injEq] at hg1
      subst hg1
      exact absurd ⟨hx, hf⟩ hcond

theorem passView_eq_some (r : Except DplError (Opendp × ℚ)) (v : PassView)
    (h : passView r = some v) :
    ∃ s t, r = .ok (s, t) ∧ v = ⟨s.gaps_, s.block_, s.decap_count_, s.calls_, t⟩ := by
  cases r with
  | error e => simp [passView] at h
  | ok a =>
    obtain ⟨s, t⟩ := a
    simp only [passView, Option.some.injEq] at h
    exact ⟨s, t, rfl, h.symm⟩

theorem widthAt_nonneg (cat : List DecapCell) (hpos : ∀ c ∈ cat, 0 ≤ c.master.getWidth)
    (i : Nat) : 0 ≤ widthAt cat i := by
  unfold widthAt
  split
  · rename_i c hc
    exact hpos c (List.getElem?_mem hc)
  · exact le_refl 0

theorem sumWidths_nonneg (cat : List DecapCell) (hpos : ∀ c ∈ cat, 0 ≤ c.master.getWidth)
    (ids : List Nat) : 0 ≤ sumWidths cat ids := by
  induction ids with
  | nil => simp [sumWidths]
  | cons i rest ih =>
    have := widthAt_nonneg cat hpos i
    simp only [sumWidths, List.map_cons, List.sum_cons] at ih ⊢
    omega

theorem sumWidths_cons (cat : List DecapCell) (i : Nat) (rest : List Nat) :
    sumWidths cat (i :: rest) = widthAt cat i + sumWidths cat rest := by
  simp [sumWidths]

/-- Every instance of `placedInsts` lies between the cursor and the cursor plus
the total width, in the row `gap_y`, when no master has negative width. -/
theorem placedInsts_bounds (cat : List DecapCell) (hpos : ∀ c ∈ cat, 0 ≤ c.master.getWidth)
    (orient : dbOrientType) (gap_y : Int) :
    ∀ (ids : List Nat) (gap_x n : Int), ∀ inst ∈ placedInsts cat orient gap_y ids gap_x n,
      gap_x ≤ inst.x ∧ inst.x + inst.master.getWidth ≤ gap_x + sumWidths cat ids
        ∧ inst.y = gap_y := by
  intro ids
  induction ids with
  | nil => intro gap_x n inst h; simp [placedInsts] at h
  | cons i rest ih =>
    intro gap_x n inst h
    rw [placedInsts] at h
    split at h
    · rename_i c hc
      have hw : widthAt cat i = c.master.getWidth := by simp [widthAt, hc]
      have hc0 : 0 ≤ c.master.getWidth := hpos c (List.getElem?_mem hc)
      have hrest := sumWidths_nonneg cat hpos rest
      rw [sumWidths_cons, hw]
      rcases List.mem_cons.mp h with h | h
      · subst h
        simp only [and_true]
        constructor <;> omega
      · obtain ⟨h1, h2, h3⟩ := ih _ _ inst h
        exact ⟨by omega, by omega, h3⟩
    · simp at h

theorem placedInsts_pairwise (cat : List DecapCell) (hpos : ∀ c ∈ cat, 0 ≤ c.master.getWidth)
    (orient : dbOrientType) (gap_y : Int) :
    ∀ (ids : List Nat) (gap_x n : Int),
      (placedInsts cat orient gap_y ids gap_x n).Pairwise instsDisjoint := by
  intro ids
  induction ids with
  | nil => intro gap_x n; simp [placedInsts]
  | cons i rest ih =>
    intro gap_x n
    rw [placedInsts]
    split
    · rename_i c hc
      refine List.pairwise_cons.mpr ⟨?_, ih _ _⟩
      intro b hb
      have := (placedInsts_bounds cat hpos orient gap_y rest _ _ b hb).1
      exact Or.inl this
    · exact List.Pairwise.nil

theorem length_placedInsts (cat : List DecapCell) (orient : dbOrientType) (gap_y : Int) :
    ∀ (ids : List Nat) (gap_x n : Int), (∀ i ∈ ids, i < cat.length) →
      (placedInsts cat orient gap_y ids gap_x n).length = ids.length := by
  intro ids
  induction ids with
  | nil => intro gap_x n _; simp [placedInsts]
  | cons i rest ih =>
    intro gap_x n hidx
    have hi : i < cat.length := hidx i (by simp)
    rw [placedInsts, List.getElem?_eq_getElem hi]
    simp only [List.length_cons]
    rw [ih _ _ (fun k hk => hidx k (List.mem_cons_of_mem _ hk))]

/-- The instance at position `i` of `placedInsts`: master `ids[i]`, cursor
advanced by the widths of the masters before it. -/
theorem getElem?_placedInsts (cat : List DecapCell) (orient : dbOrientType) (gap_y : Int) :
    ∀ (ids : List Nat) (gap_x n : Int), (∀ i ∈ ids, i < cat.length) →
      ∀ (i k : Nat), ids[i]? = some k →
        ∃ c, cat[k]? = some c ∧
          (placedInsts cat orient gap_y ids gap_x n)[i]? =
            some { name := n + i, master := c.master, orient := orient,
                   x := gap_x + sumWidths cat (ids.take i), y := gap_y } := by
  intro ids
  induction ids with
  | nil => intro gap_x n _ i k h; simp at h
  | cons i0 rest ih =>
    intro gap_x n hidx i k h
    have hi : i0 < cat.length := hidx i0 (by simp)
    have hc : cat[i0]? = some cat[i0] := List.getElem?_eq_getElem hi
    rw [placedInsts, hc]
    cases i with
    | zero =>
      simp only [List.getElem?_cons_zero, Option.some.injEq] at h
      subst h
      exact ⟨cat[i0], hc, by simp [sumWidths]⟩
    | succ i =>
      simp only [List.getElem?_cons_succ] at h
      obtain ⟨c, hck, hget⟩ :=
        ih (gap_x + cat[i0].master.getWidth) (n + 1)
          (fun k hk => hidx k (List.mem_cons_of_mem _ hk)) i k h
      refine ⟨c, hck, ?_⟩
      simp only [List.getElem?_cons_succ, hget, List.take_succ_cons, sumWidths_cons,
        Option.some.injEq, dbInst.mk.injEq, true_and, and_true, Nat.cast_add, Nat.cast_one]
      have hw : widthAt cat i0 = cat[i0].master.getWidth := by simp [widthAt, hc]
      rw [hw]
      constructor <;> ring

/-- A property of the state and the running total that every call of
`insertDecapInRow` on a row of the current map preserves is preserved by the
loop body. -/
theorem insertDecapPoint_induct (fuel : Nat) (target : ℚ) (P : Opendp → ℚ → Prop)
    (hstep : ∀ (s : Opendp) (row : List GapInfo) (key x y : Int) (total : ℚ) (s1 : Opendp)
      (t1 : ℚ), P s total → (key, row) ∈ s.gaps_ →
      insertDecapInRow s fuel row key x y total target = .ok (s1, t1) → P s1 t1)
    (self : Opendp) (total : ℚ) (d : IRDrop) (s1 : Opendp) (t1 : ℚ) (h0 : P self total)
    (h : insertDecapPoint fuel target self total d = .ok (s1, t1)) : P s1 t1 := by
  unfold insertDecapPoint at h
  simp only at h
  split at h
  · simp at h
  · rename_i sa ta hown
    have hPa : P sa ta := by
      split at hown
      · rename_i first second hget
        exact hstep self second first d.x d.y total sa ta h0 (List.getElem?_mem hget) hown
      · simp only [Except.ok.injEq, Prod.mk.injEq] at hown
        rw [← hown.1, ← hown.2]; exact h0
    split at h
    · split at h
      · simp at h
      · rename_i first second hget
        split at h
        · simp at h
        · split at h
          · exact hstep sa second first d.x d.y ta s1 t1 hPa (List.getElem?_mem hget) h
          · simp only [Except.ok.injEq, Prod.mk.injEq] at h
            rw [← h.1, ← h.2]; exact hPa
    · simp only [Except.ok.injEq, Prod.mk.injEq] at h
      rw [← h.1, ← h.2]; exact hPa

/-- The same for the whole loop over the drop points. -/
theorem insertDecapLoop_induct (fuel : Nat) (target : ℚ) (P : Opendp → ℚ → Prop)
    (hstep : ∀ (s : Opendp) (row : List GapInfo) (key x y : Int) (total : ℚ) (s1 : Opendp)
      (t1 : ℚ), P s total → (key, row) ∈ s.gaps_ →
      insertDecapInRow s fuel row key x y total target = .ok (s1, t1) → P s1 t1) :
    ∀ (drops : List IRDrop) (self : Opendp) (total : ℚ) (s1 : Opendp) (t1 : ℚ),
      P self total → insertDecapLoop fuel target drops self total = .ok (s1, t1) → P s1 t1 := by
  intro drops
  induction drops with
  | nil =>
    intro self total s1 t1 h0 h
    simp only [insertDecapLoop, Except.ok.injEq, Prod.mk.injEq] at h
    rw [← h.1, ← h.2]; exact h0
  | cons d rest ih =>
    intro self total s1 t1 h0 h
    rw [insertDecapLoop] at h
    split at h
    · simp at h
    · rename_i sa ta hpt
      exact ih sa ta s1 t1 (insertDecapPoint_induct fuel target P hstep self total d sa ta h0 hpt) h

theorem lookupRow_of_mem (m : List (Int × List GapInfo)) (hwf : MapWF m) (k : Int)
    (row : List GapInfo) (h : (k, row) ∈ m) : lookupRow m k = some row := by
  obtain ⟨j, hj⟩ := List.getElem?_of_mem h
  exact lookupRow_of_getElem? m hwf j k row hj

theorem mapWF_setFilled (m : List (Int × List GapInfo)) (key : Int) (idx : Nat)
    (hwf : MapWF m) : MapWF (setFilled m key idx) := by
  unfold MapWF at hwf ⊢
  rw [keys_setFilled]; exact hwf

theorem placedInsts_ne_nil (cat : List DecapCell) (orient : dbOrientType) (gap_y : Int)
    (ids : List Nat) (gap_x n : Int) (hidx : ∀ i ∈ ids, i < cat.length) (hne : ids ≠ []) :
    placedInsts cat orient gap_y ids gap_x n ≠ [] := by
  intro h
  have := length_placedInsts cat orient gap_y ids gap_x n hidx
  rw [h] at this
  exact hne (List.length_eq_zero.mp this.symm)

theorem fills_append_none (cs : List InsertCall) (c : InsertCall) (h : c.filled = none) :
    fills (cs ++ [c]) = fills cs := by
  simp [fills, List.filterMap_append, h]

theorem fills_append_some (cs : List InsertCall) (c : InsertCall) (i : Nat)
    (h : c.filled = some i) : fills (cs ++ [c]) = fills cs ++ [(c.gap_y, i)] := by
  simp [fills, List.filterMap_append, h]

theorem insertDecapInRow_logInv (base : List InsertCall) (fuel : Nat) (target : ℚ)
    (s : Opendp) (row : List GapInfo) (key x y : Int) (total : ℚ) (s1 : Opendp) (t1 : ℚ)
    (h0 : MapWF s.gaps_ ∧ ∃ cs, s.calls_ = base ++ cs ∧ LogInv s cs)
    (hmem : (key, row) ∈ s.gaps_)
    (h : insertDecapInRow s fuel row key x y total target = .ok (s1, t1)) :
    MapWF s1.gaps_ ∧ ∃ cs, s1.calls_ = base ++ cs ∧ LogInv s1 cs := by
  obtain ⟨hwf, cs, hcs, hnd, hflag, hiff⟩ := h0
  have hrow := lookupRow_of_mem s.gaps_ hwf key row hmem
  rcases insertDecapInRow_cases s fuel row key x y total target s1 t1 h
    with ⟨hs, _, _⟩ | ⟨g, ids, hg, _, hfree, hsel, hne, hs, _⟩
  · subst hs
    refine ⟨hwf, cs ++ [⟨key, x, y, none, []⟩], by simp [logCall, hcs], ?_, ?_, ?_⟩
    · rw [fills_append_none _ _ rfl]; exact hnd
    · rw [fills_append_none _ _ rfl]; exact hflag
    · intro c hc
      rcases List.mem_append.mp hc with hc | hc
      · exact hiff c hc
      · simp only [List.mem_singleton] at hc
        subst hc; simp
  · have hidx := findDecapCellIndices_lt s fuel g.width total target ids hsel
    have hgap : gapAt s.gaps_ key (lower_bound row x) = some g := by
      simp [gapAt, hrow, hg]
    subst hs
    refine ⟨mapWF_setFilled _ _ _ hwf,
      cs ++ [⟨key, x, y, some (lower_bound row x),
        placedInsts s.decap_masters_ g.orient key ids g.x s.decap_count_⟩],
      by simp [filledState, hcs], ?_, ?_, ?_⟩
    · rw [fills_append_some _ _ _ rfl]
      refine List.nodup_append.mpr ⟨hnd, List.nodup_singleton _, ?_⟩
      intro p hp hp1
      simp only [List.mem_singleton] at hp1
      subst hp1
      obtain ⟨g1, hg1, hf1⟩ := hflag _ hp
      simp only at hg1
      rw [hgap] at hg1
      simp only [Option.some.injEq] at hg1
      subst hg1
      rw [hfree] at hf1
      exact Bool.noConfusion hf1
    · rw [fills_append_some _ _ _ rfl]
      intro p hp
      simp only [filledState]
      rw [gapAt_setFilled]
      rcases List.mem_append.mp hp with hp | hp
      · obtain ⟨g1, hg1, hf1⟩ := hflag p hp
        rw [hg1]
        refine ⟨_, rfl, ?_⟩
        split
        · rfl
        · exact hf1
      · simp only [List.mem_singleton] at hp
        subst hp
        simp only [hgap, Option.map_some', and_self, if_true]
        exact ⟨_, rfl, rfl⟩
    · intro c hc
      rcases List.mem_append.mp hc with hc | hc
      · exact hiff c hc
      · simp only [List.mem_singleton] at hc
        subst hc
        have := placedInsts_ne_nil s.decap_masters_ g.orient key ids g.x s.decap_count_ hidx hne
        simp [this]

theorem gapsDisjoint_symm (g h : GapInfo) (hd : gapsDisjoint g h) : gapsDisjoint h g :=
  Or.symm hd

theorem rowsDisjoint_of_mem (m : List (Int × List GapInfo))
    (hd : ∀ key row, (key, row) ∈ m → row.Pairwise gapsDisjoint) : RowsDisjoint m := by
  intro y i j g h hij hg hh
  unfold gapAt at hg hh
  cases hrow : lookupRow m y with
  | none => simp [hrow] at hg
  | some row =>
    simp only [hrow] at hg hh
    have hp := hd y row (lookupRow_mem m y row hrow)
    obtain ⟨hi, hgi⟩ := List.getElem?_eq_some_iff.mp hg
    obtain ⟨hj, hhj⟩ := List.getElem?_eq_some_iff.mp hh
    rw [List.pairwise_iff_getElem] at hp
    rcases Nat.lt_or_gt_of_ne hij with hlt | hlt
    · have := hp i j hi hj hlt
      rw [hgi, hhj] at this; exact this
    · have := hp j i hj hi hlt
      rw [hgi, hhj] at this; exact gapsDisjoint_symm _ _ this

theorem rowsDisjoint_setFilled (m : List (Int × List GapInfo)) (key : Int) (idx : Nat)
    (hd : RowsDisjoint m) : RowsDisjoint (setFilled m key idx) := by
  intro y i j g h hij hg hh
  rw [gapAt_setFilled] at hg hh
  cases hg0 : gapAt m y i with
  | none => simp [hg0] at hg
  | some g0 =>
    cases hh0 : gapAt m y j with
    | none => simp [hh0] at hh
    | some h0 =>
      have hd0 := hd y i j g0 h0 hij hg0 hh0
      simp only [hg0, Option.map_some', Option.some.injEq] at hg
      simp only [hh0, Option.map_some', Option.some.injEq] at hh
      have hgx : g.x = g0.x ∧ g.width = g0.width := by
        rw [← hg]; split <;> exact ⟨rfl, rfl⟩
      have hhx : h.x = h0.x ∧ h.width = h0.width := by
        rw [← hh]; split <;> exact ⟨rfl, rfl⟩
      unfold gapsDisjoint at hd0 ⊢
      rw [hgx.1, hgx.2, hhx.1, hhx.2]; exact hd0

theorem inFilledGap_setFilled (m : List (Int × List GapInfo)) (key : Int) (idx : Nat)
    (inst : dbInst) (h : InFilledGap m inst) : InFilledGap (setFilled m key idx) inst := by
  obtain ⟨i, g, hg, hf, hx, hw⟩ := h
  refine ⟨i, if inst.y = key ∧ i = idx then { g with is_filled := true } else g, ?_, ?_, ?_, ?_⟩
  · rw [gapAt_setFilled, hg]; rfl
  · split
    · rfl
    · exact hf
  · split <;> exact hx
  · split <;> exact hw

/-- A call of `insertDecapInRow` on a row of a well-formed map with disjoint
rows, none of whose gaps lets the selector overflow, keeps the block
invariant. -/
theorem insertDecapInRow_blockInv (base : Opendp) (fuel : Nat) (target : ℚ)
    (hpad : 0 ≤ base.min_space) (hpos : ∀ c ∈ base.decap_masters_, 0 ≤ c.master.getWidth)
    (s : Opendp) (row : List GapInfo) (key x y : Int) (total : ℚ) (s1 : Opendp) (t1 : ℚ)
    (h0 : (MapWF s.gaps_ ∧ RowsDisjoint s.gaps_ ∧ s.decap_masters_ = base.decap_masters_
            ∧ s.padding_ = base.padding_ ∧ s.grid_ = base.grid_
            ∧ ∀ (k : Int) (i : Nat) (g : GapInfo), gapAt s.gaps_ k i = some g →
                FitsInt base.decap_masters_ g.width base.min_space)
          ∧ ∃ placed, s.block_ = base.block_ ++ placed ∧ BlockInv s placed)
    (hmem : (key, row) ∈ s.gaps_)
    (h : insertDecapInRow s fuel row key x y total target = .ok (s1, t1)) :
    (MapWF s1.gaps_ ∧ RowsDisjoint s1.gaps_ ∧ s1.decap_masters_ = base.decap_masters_
        ∧ s1.padding_ = base.padding_ ∧ s1.grid_ = base.grid_
        ∧ ∀ (k : Int) (i : Nat) (g : GapInfo), gapAt s1.gaps_ k i = some g →
            FitsInt base.decap_masters_ g.width base.min_space)
      ∧ ∃ placed, s1.block_ = base.block_ ++ placed ∧ BlockInv s1 placed := by
  obtain ⟨⟨hwf, hdisj, hcat, hpd, hgrid, hfits⟩, placed, hblock, hpw, hin⟩ := h0
  have hrow := lookupRow_of_mem s.gaps_ hwf key row hmem
  rcases insertDecapInRow_cases s fuel row key x y total target s1 t1 h
    with ⟨hs, _, _⟩ | ⟨g, ids, hg, _, hfree, hsel, hne, hs, _⟩
  · subst hs
    exact ⟨⟨hwf, hdisj, hcat, hpd, hgrid, hfits⟩, placed, hblock, hpw, hin⟩
  · have hgap : gapAt s.gaps_ key (lower_bound row x) = some g := by
      simp [gapAt, hrow, hg]
    have hms : s.min_space = base.min_space := by
      simp [Opendp.min_space, hpd, hgrid]
    have hpos1 : ∀ c ∈ s.decap_masters_, 0 ≤ c.master.getWidth := by rw [hcat]; exact hpos
    have hw : sumWidths s.decap_masters_ ids ≤ g.width - s.min_space := by
      have hfit := hfits key (lower_bound row x) g hgap
      rw [← hcat, ← hms] at hfit
      exact (findDecapCellIndices_exact s fuel g.width total target ids hfit hsel).2 hne
    have hnew := placedInsts_bounds s.decap_masters_ hpos1 g.orient key ids g.x s.decap_count_
    subst hs
    have hfits1 : ∀ (k : Int) (i : Nat) (g1 : GapInfo),
        gapAt (setFilled s.gaps_ key (lower_bound row x)) k i = some g1 →
          FitsInt base.decap_masters_ g1.width base.min_space := by
      intro k i g1 hg1
      rw [gapAt_setFilled] at hg1
      cases hga : gapAt s.gaps_ k i with
      | none => rw [hga] at hg1; simp at hg1
      | some g0 =>
        rw [hga] at hg1
        simp only [Option.map_some', Option.some.injEq] at hg1
        have := hfits k i g0 hga
        rw [← hg1]
        split <;> exact this
    refine ⟨⟨mapWF_setFilled _ _ _ hwf, rowsDisjoint_setFilled _ _ _ hdisj, hcat, hpd, hgrid,
        hfits1⟩,
      placed ++ placedInsts s.decap_masters_ g.orient key ids g.x s.decap_count_,
      by simp [filledState, hblock], ?_, ?_⟩
    · refine List.pairwise_append.mpr ⟨hpw, ?_, ?_⟩
      · refine List.Pairwise.imp ?_ (placedInsts_pairwise s.decap_masters_ hpos1 g.orient key
          ids g.x s.decap_count_)
        intro a b hab _
        exact hab
      · intro a ha b hb hy
        obtain ⟨hb1, hb2, hb3⟩ := hnew b hb
        obtain ⟨i, g1, hg1, hf1, hx1, hw1⟩ := hin a ha
        rw [hy, hb3] at hg1
        have hne1 : i ≠ lower_bound row x := by
          intro e
          rw [e, hgap] at hg1
          simp only [Option.some.injEq] at hg1
          rw [hg1, hf1] at hfree
          exact Bool.noConfusion hfree
        have hd := hdisj key i (lower_bound row x) g1 g hne1 hg1 hgap
        unfold gapsDisjoint at hd
        unfold instsDisjoint
        rcases hd with hd | hd
        · left; omega
        · right; omega
    · intro inst hinst
      rcases List.mem_append.mp hinst with hinst | hinst
      · exact inFilledGap_setFilled _ _ _ inst (hin inst hinst)
      · obtain ⟨hb1, hb2, hb3⟩ := hnew inst hinst
        refine ⟨lower_bound row x, { g with is_filled := true }, ?_, rfl, hb1, ?_⟩
        · simp only [filledState]
          rw [gapAt_setFilled, hb3, hgap]
          simp
        · show inst.x + inst.master.getWidth ≤ g.x + g.width
          omega

/-! ## Lemmas on the row scan -/

/-- Whenever a call of `insertDecapInRow` creates an instance, the gap it fills
is the located one, was unfilled, and starts at or right of the drop point. -/
theorem insertDecapInRow_located_ge (self : Opendp) (fuel : Nat) (gaps : List GapInfo)
    (gap_y irdrop_x irdrop_y : Int) (total target : ℚ) (s1 : Opendp) (t1 : ℚ)
    (h : insertDecapInRow self fuel gaps gap_y irdrop_x irdrop_y total target = .ok (s1, t1))
    (hne : s1.block_ ≠ self.block_) :
    ∃ g, gaps[lower_bound gaps irdrop_x]? = some g ∧ g.is_filled = false ∧ irdrop_x ≤ g.x := by
  rcases insertDecapInRow_cases self fuel gaps gap_y irdrop_x irdrop_y total target s1 t1 h
    with ⟨hs, _, _⟩ | ⟨g, ids, hg, _, hfree, _, _, _, _⟩
  · subst hs
    exact absurd rfl hne
  · exact ⟨g, hg, hfree, lower_bound_ge gaps irdrop_x g hg⟩

/-- On a row sorted by `x`, every gap before the position the halving loop
returns compares below `value`. -/
theorem lowerBoundLoop_lt (gaps : List GapInfo) (value : Int)
    (hs : gaps.Pairwise (fun a b => a.x ≤ b.x)) :
    ∀ (fuel first len : Nat), len ≤ fuel → first + len ≤ gaps.length →
      (∀ (i : Nat) (g : GapInfo), i < first → gaps[i]? = some g → g.x < value) →
      ∀ (i : Nat) (g : GapInfo), i < lowerBoundLoop gaps value fuel first len →
        gaps[i]? = some g → g.x < value := by
  intro fuel
  induction fuel with
  | zero =>
    intro first len _ _ hpre i g hi hg
    simp only [lowerBoundLoop] at hi
    exact hpre i g hi hg
  | succ f ih =>
    intro first len hl hb hpre i g hi hg
    rw [lowerBoundLoop] at hi
    split at hi
    · exact hpre i g hi hg
    · rename_i hz
      simp only at hi
      have hhalf : len / 2 < len := Nat.div_lt_self (by omega) (by omega)
      split at hi
      · rename_i elem hget
        split at hi
        · rename_i hlt
          refine ih (first + len / 2 + 1) (len - len / 2 - 1) (by omega) (by omega) ?_ i g hi hg
          intro i1 g1 hi1 hg1
          rcases Nat.lt_or_ge i1 (first + len / 2) with h | h
          · obtain ⟨h1, e1⟩ := List.getElem?_eq_some_iff.mp hg1
            obtain ⟨h2, e2⟩ := List.getElem?_eq_some_iff.mp hget
            have := (List.pairwise_iff_getElem.mp hs) i1 (first + len / 2) h1 h2 h
            rw [e1, e2] at this
            omega
          · have : i1 = first + len / 2 := by omega
            rw [this, hget] at hg1
            simp only [Option.some.injEq] at hg1
            rw [← hg1]; exact hlt
        · exact ih first (len / 2) (by omega) (by omega) hpre i g hi hg
      · exact hpre i g hi hg

/-- On a row sorted by `x`, `std::lower_bound` returns the position of the first
gap with `x ≥ value`: every gap before it starts left of `value`. -/
theorem lower_bound_lt (gaps : List GapInfo) (value : Int)
    (hs : gaps.Pairwise (fun a b => a.x ≤ b.x)) (i : Nat) (g : GapInfo)
    (hi : i < lower_bound gaps value) (hg : gaps[i]? = some g) : g.x < value := by
  refine lowerBoundLoop_lt gaps value hs gaps.length 0 gaps.length (le_refl _) (by simp) ?_
    i g hi hg
  intro i1 g1 h1; omega

/-! ## Lemmas on the flavor selection and the scan of all rows -/

theorem mapAt_of_mem (m : List (Int × GridInfo))
    (hwf : (m.map Prod.fst).Pairwise (fun a b => a < b)) (k : Int) (info : GridInfo)
    (h : (k, info) ∈ m) : mapAt m k = some info := by
  induction m with
  | nil => simp at h
  | cons a rest ih =>
    obtain ⟨k0, v0⟩ := a
    simp only [List.map_cons, List.pairwise_cons] at hwf
    rcases List.mem_cons.mp h with h | h
    · simp only [Prod.mk.injEq] at h
      simp [mapAt, h.1, h.2]
    · have hmem : k ∈ rest.map Prod.fst := List.mem_map.mpr ⟨(k, info), h, rfl⟩
      have := hwf.1 k hmem
      have hne : ¬ k0 = k := by omega
      simpa [mapAt, hne] using ih hwf.2 h

theorem mapAt_mem (m : List (Int × GridInfo)) (k : Int) (info : GridInfo)
    (h : mapAt m k = some info) : (k, info) ∈ m := by
  induction m with
  | nil => simp [mapAt] at h
  | cons a rest ih =>
    obtain ⟨k0, v0⟩ := a
    unfold mapAt at h
    split at h
    · rename_i hk
      simp only [Option.some.injEq] at h
      simp [← hk, h]
    · exact List.mem_cons_of_mem _ (ih h)

/-- The first loop of `findGaps`: either no uniform flavor is below the running
minimum and the variables are unchanged, or the result is the first uniform
flavor of least site height, which is below the running minimum. -/
theorem chooseGrid_spec :
    ∀ (m : List (Int × GridInfo)) (min_height chosen_grid_key : Int),
      (∀ p ∈ m, p.2.sites ≠ []) →
      ∃ mh ck, chooseGrid m min_height chosen_grid_key = .ok (mh, ck)
        ∧ (∀ p ∈ m, p.2.is_hybrid = false → ∀ site, p.2.sites.head? = some site →
            mh ≤ site.height)
        ∧ mh ≤ min_height
        ∧ ((mh = min_height ∧ ck = chosen_grid_key)
          ∨ (mh < min_height ∧ ∃ info site, (ck, info) ∈ m ∧ info.is_hybrid = false
              ∧ info.sites.head? = some site ∧ site.height = mh)) := by
  intro m
  induction m with
  | nil =>
    intro mh ck _
    exact ⟨mh, ck, rfl, by simp, le_refl _, Or.inl ⟨rfl, rfl⟩⟩
  | cons a rest ih =>
    intro mh0 ck0 hsites
    obtain ⟨k0, info0⟩ := a
    have hs0 : info0.sites ≠ [] := hsites (k0, info0) (by simp)
    have hrest : ∀ p ∈ rest, p.2.sites ≠ [] := fun p hp => hsites p (List.mem_cons_of_mem _ hp)
    obtain ⟨site0, hhead⟩ : ∃ site0, info0.sites.head? = some site0 := by
      cases hsl : info0.sites with
      | nil => exact absurd hsl hs0
      | cons x xs => exact ⟨x, rfl⟩
    rw [chooseGrid, hhead]
    simp only
    split
    · rename_i hcond
      obtain ⟨mh, ck, hok, hmin, hle, hcase⟩ := ih site0.height k0 hrest
      refine ⟨mh, ck, hok, ?_, by omega, Or.inr ⟨by omega, ?_⟩⟩
      · intro p hp hnh site hsite
        rcases List.mem_cons.mp hp with hp | hp
        · subst hp
          simp only at hsite
          rw [hhead] at hsite
          simp only [Option.some.injEq] at hsite
          rw [← hsite]; exact hle
        · exact hmin p hp hnh site hsite
      · rcases hcase with ⟨h1, h2⟩ | ⟨_, info, site, h1, h2, h3, h4⟩
        · exact ⟨info0, site0, by simp [h2], hcond.1, hhead, h1.symm⟩
        · exact ⟨info, site, List.mem_cons_of_mem _ h1, h2, h3, h4⟩
    · rename_i hcond
      obtain ⟨mh, ck, hok, hmin, hle, hcase⟩ := ih mh0 ck0 hrest
      refine ⟨mh, ck, hok, ?_, hle, ?_⟩
      · intro p hp hnh site hsite
        rcases List.mem_cons.mp hp with hp | hp
        · subst hp
          simp only at hsite hnh
          rw [hhead] at hsite
          simp only [Option.some.injEq] at hsite
          subst hsite
          have : ¬ site0.height < mh0 := fun h => hcond ⟨hnh, h⟩
          omega
        · exact hmin p hp hnh site hsite
      · rcases hcase with h | ⟨h0, info, site, h1, h2, h3, h4⟩
        · exact Or.inl h
        · exact Or.inr ⟨h0, info, site, List.mem_cons_of_mem _ h1, h2, h3, h4⟩

theorem findGapsInRow_of_no_span (self : Opendp) (row row_height : Int) (grid_info : GridInfo)
    (h : rowSpans self.grid_ grid_info.grid_index row = []) :
    findGapsInRow self row row_height grid_info = self := by
  simp [findGapsInRow, h]

theorem findGapsUniform_of_no_span (site_height : Int) (grid_info : GridInfo) (self : Opendp) :
    ∀ (rows : List Nat),
      (∀ row ∈ rows, rowSpans self.grid_ grid_info.grid_index (row : Int) = []) →
      findGapsUniform site_height grid_info rows self = self := by
  intro rows
  induction rows with
  | nil => intro _; rfl
  | cons row rest ih =>
    intro h
    rw [findGapsUniform, findGapsInRow_of_no_span self row site_height grid_info (h row (by simp))]
    exact ih (fun r hr => h r (List.mem_cons_of_mem _ hr))

theorem findGapsHybrid_of_no_span (grid_info : GridInfo) (self : Opendp) :
    ∀ (rows : List Nat),
      (∀ row ∈ rows, rowSpans self.grid_ grid_info.grid_index (row : Int) = []) →
      ∀ s1, findGapsHybrid grid_info rows self = .ok s1 → s1 = self := by
  intro rows
  induction rows with
  | nil =>
    intro _ s1 h
    simp only [findGapsHybrid, Except.ok.injEq] at h
    exact h.symm
  | cons row rest ih =>
    intro h s1 hok
    rw [findGapsHybrid] at hok
    split at hok
    · simp at hok
    · split at hok
      · simp at hok
      · rename_i site _
        rw [findGapsInRow_of_no_span self row site.height grid_info (h row (by simp))] at hok
        exact ih (fun r hr => h r (List.mem_cons_of_mem _ hr)) s1 hok

/-- When no row of any flavor holds a run of free slots, a successful scan
leaves the state as it was. -/
theorem findGaps_of_no_span (self : Opendp)
    (hnone : ∀ p ∈ self.grid_.info_map, ∀ row : Nat, (row : Int) < p.2.row_count →
      rowSpans self.grid_ p.2.grid_index (row : Int) = [])
    (s1 : Opendp) (h : findGaps self = .ok s1) : s1 = self := by
  unfold findGaps at h
  split at h
  · simp at h
  · rename_i mh ck _
    split at h
    · simp at h
    · rename_i info hat
      have hmem := mapAt_mem _ _ _ hat
      have hrows : ∀ row ∈ List.range info.row_count.toNat,
          rowSpans self.grid_ info.grid_index (row : Int) = [] := by
        intro row hrow
        have hlt := List.mem_range.mp hrow
        exact hnone (ck, info) hmem row (by show (row : Int) < info.row_count; omega)
      simp only at h
      split at h
      · simp only [Except.ok.injEq] at h
        rw [← h]
        exact findGapsUniform_of_no_span mh info self _ hrows
      · exact findGapsHybrid_of_no_span info self _ hrows s1 h

/-- The flavor chosen by the first loop of `findGaps` is the first, in key
order, of the uniform flavors of least site height. -/
theorem chooseGrid_first :
    ∀ (m : List (Int × GridInfo)) (min_height chosen_grid_key mh ck : Int),
      (m.map Prod.fst).Pairwise (fun a b => a < b) →
      (∀ p ∈ m, p.2.sites ≠ []) →
      chooseGrid m min_height chosen_grid_key = .ok (mh, ck) → mh < min_height →
      ∀ p ∈ m, p.2.is_hybrid = false → ∀ site, p.2.sites.head? = some site →
        site.height = mh → ck ≤ p.1 := by
  intro m
  induction m with
  | nil => intro _ _ _ _ _ _ _ _ p hp; simp at hp
  | cons a rest ih =>
    intro mh0 ck0 mh ck hwf hsites hok hlt p hp hnh site hsite hheight
    obtain ⟨k0, info0⟩ := a
    simp only [List.map_cons, List.pairwise_cons] at hwf
    have hrest : ∀ q ∈ rest, q.2.sites ≠ [] := fun q hq => hsites q (List.mem_cons_of_mem _ hq)
    rw [chooseGrid] at hok
    split at hok
    · simp at hok
    · rename_i site0 hhead
      split at hok
      · rename_i hcond
        obtain ⟨mh1, ck1, hok1, _, hle1, hcase1⟩ := chooseGrid_spec rest site0.height k0 hrest
        rw [hok1] at hok
        simp only [Except.ok.injEq, Prod.mk.injEq] at hok
        obtain ⟨e1, e2⟩ := hok
        subst e1 e2
        rcases hcase1 with ⟨h1, h2⟩ | ⟨h1, _⟩
        · rw [h2]
          rcases List.mem_cons.mp hp with hp | hp
          · rw [hp]
          · have := hwf.1 p.1 (List.mem_map.mpr ⟨p, hp, rfl⟩)
            omega
        · rcases List.mem_cons.mp hp with hp | hp
          · subst hp
            simp only at hsite
            rw [hhead] at hsite
            simp only [Option.some.injEq] at hsite
            rw [← hsite] at hheight
            omega
          · exact ih site0.height k0 mh1 ck1 hwf.2 hrest hok1 h1 p hp hnh site hsite hheight
      · rename_i hcond
        rcases List.mem_cons.mp hp with hp | hp
        · subst hp
          simp only at hsite hnh
          rw [hhead] at hsite
          simp only [Option.some.injEq] at hsite
          rw [← hsite] at hheight
          exact absurd ⟨hnh, by omega⟩ hcond
        · exact ih mh0 ck0 mh ck hwf.2 hrest hok hlt p hp hnh site hsite hheight

/-- The first loop of `findGaps` ends normally only when every flavor has a
first site. -/
theorem chooseGrid_ok_sites :
    ∀ (m : List (Int × GridInfo)) (min_height chosen_grid_key : Int) (r : Int × Int),
      chooseGrid m min_height chosen_grid_key = .ok r → ∀ p ∈ m, p.2.sites ≠ [] := by
  intro m
  induction m with
  | nil => intro _ _ _ _ p hp; simp at hp
  | cons a rest ih =>
    intro mh0 ck0 r hok p hp
    obtain ⟨k0, info0⟩ := a
    rw [chooseGrid] at hok
    split at hok
    · simp at hok
    · rename_i site0 hhead
      rcases List.mem_cons.mp hp with hp | hp
      · subst hp
        intro hnil
        simp only at hnil
        rw [hnil] at hhead
        simp at hhead
      · split at hok
        · exact ih _ _ r hok p hp
        · exact ih _ _ r hok p hp

/-- The hybrid row loop over rows without a run of free slots ends normally and
leaves the state as it was, when the flavor has a site. -/
theorem findGapsHybrid_ok_of_no_span (grid_info : GridInfo) (self : Opendp)
    (hs : grid_info.sites ≠ []) :
    ∀ (rows : List Nat),
      (∀ row ∈ rows, rowSpans self.grid_ grid_info.grid_index (row : Int) = []) →
      findGapsHybrid grid_info rows self = .ok self := by
  have hlen : 0 < grid_info.sites.length := List.length_pos.mpr hs
  intro rows
  induction rows with
  | nil => intro _; rfl
  | cons row rest ih =>
    intro h
    rw [findGapsHybrid, if_neg (by omega)]
    have hlt : row % grid_info.sites.length < grid_info.sites.length := Nat.mod_lt _ hlen
    rw [List.getElem?_eq_getElem hlt]
    simp only
    rw [findGapsInRow_of_no_span self row _ grid_info (h row (by simp))]
    exact ih (fun r hr => h r (List.mem_cons_of_mem _ hr))

/-- A gap map whose rows are all empty holds no gap. -/
theorem sum_length_of_rows_empty (m : List (Int × List GapInfo))
    (h : ∀ key row, (key, row) ∈ m → row = []) : (m.map (fun it => it.2.length)).sum = 0 := by
  induction m with
  | nil => rfl
  | cons a rest ih =>
    obtain ⟨k, row⟩ := a
    have h0 : row = [] := h k row (by simp)
    have := ih (fun key r hr => h key r (List.mem_cons_of_mem _ hr))
    simp [h0, this]

/-- In a uniform scan with positive site height two rows have different keys. -/
theorem spanGap_key_injective (grid : Grid) (row row1 row_height : Int) (sp sp1 : GapSpan)
    (hh : 0 < row_height)
    (h : (spanGap grid row row_height sp).1 = (spanGap grid row1 row_height sp1).1) :
    row = row1 := by
  simp only [spanGap, gridToDbu, add_right_inj] at h
  exact Int.eq_of_mul_eq_mul_right (by omega) h

/-! ## Lemmas on maximality, counting and accounting -/

/-- More fuel does not change what the `while` loop returns. -/
theorem whileAccept_fuel_mono (i : Nat) (master_width : Int) (master_cap : ℚ)
    (gap_width min_space : Int) (current target : ℚ) :
    ∀ (fuel : Nat) (s : SelState) (r : Bool × SelState),
      whileAccept i master_width master_cap gap_width min_space current target fuel s = some r →
      ∀ extra : Nat,
        whileAccept i master_width master_cap gap_width min_space current target (fuel + extra) s
          = some r := by
  intro fuel
  induction fuel with
  | zero => intro s r h; simp [whileAccept] at h
  | succ f ih =>
    intro s r h extra
    rw [show f + 1 + extra = (f + extra) + 1 by omega, whileAccept]
    rw [whileAccept] at h
    by_cases hcond : machine.wrapInt (s.width_acum + master_width)
          ≤ machine.wrapInt (gap_width - min_space)
        ∧ s.cap_acum + master_cap ≤ target - current
    · rw [if_pos hcond] at h ⊢
      simp only at h ⊢
      by_cases heq : machine.wrapInt (s.width_acum + master_width) = gap_width
      · rw [if_pos heq] at h ⊢
        exact h
      · rw [if_neg heq] at h ⊢
        exact ih _ r h extra
    · rw [if_neg hcond] at h ⊢
      exact h

theorem forMasters_fuel_mono (gap_width min_space : Int) (current target : ℚ) (fuel : Nat) :
    ∀ (rest : List DecapCell) (i : Nat) (s : SelState) (ids : List Nat),
      forMasters fuel gap_width min_space current target rest i s = some ids →
      ∀ extra : Nat,
        forMasters (fuel + extra) gap_width min_space current target rest i s = some ids := by
  intro rest
  induction rest with
  | nil => intro i s ids h extra; simpa [forMasters] using h
  | cons c rest ih =>
    intro i s ids h extra
    rw [forMasters] at h ⊢
    split at h
    · simp at h
    · rename_i s1 hw
      rw [whileAccept_fuel_mono _ _ _ _ _ _ _ fuel s _ hw extra]
      exact h
    · rename_i s1 hw
      rw [whileAccept_fuel_mono _ _ _ _ _ _ _ fuel s _ hw extra]
      exact ih (i + 1) s1 ids h extra

/-- Two runs of `findDecapCellIndices` that both return, return the same. -/
theorem findDecapCellIndices_fuel_unique (self : Opendp) (gap_width : Int) (current target : ℚ)
    (fuel1 fuel2 : Nat) (ids1 ids2 : List Nat)
    (h1 : findDecapCellIndices self fuel1 gap_width current target = some ids1)
    (h2 : findDecapCellIndices self fuel2 gap_width current target = some ids2) :
    ids1 = ids2 := by
  unfold findDecapCellIndices at h1 h2
  have e1 := forMasters_fuel_mono gap_width self.min_space current target fuel1 _ _ _ _ h1 fuel2
  have e2 := forMasters_fuel_mono gap_width self.min_space current target fuel2 _ _ _ _ h2 fuel1
  rw [Nat.add_comm] at e2
  rw [e1] at e2
  exact Option.some.inj e2

/-- One accepted master keeps the loop invariant. -/
theorem selInv_step (cat : List DecapCell) (i : Nat) (c : DecapCell) (hc : cat[i]? = some c)
    (gap_width min_space : Int) (current target : ℚ) (s : SelState)
    (hinv : SelInv cat gap_width min_space current target s)
    (hcond : machine.wrapInt (s.width_acum + c.master.getWidth)
          ≤ machine.wrapInt (gap_width - min_space)
        ∧ s.cap_acum + c.capacitance ≤ target - current) :
    SelInv cat gap_width min_space current target
      { id_masters := s.id_masters ++ [i]
        cap_acum := s.cap_acum + c.capacitance
        width_acum := machine.wrapInt (s.width_acum + c.master.getWidth) } := by
  have hlt : i < cat.length := (List.getElem?_eq_some_iff.mp hc).1
  obtain ⟨hw, hcap, hidx, _⟩ := hinv
  refine ⟨?_, ?_, ?_, fun _ => hcond⟩
  · show machine.wrapInt (sumWidths cat (s.id_masters ++ [i]))
      = machine.wrapInt (s.width_acum + c.master.getWidth)
    rw [sumWidths_append, ← hw, machine.wrapInt_add_left]
    simp [sumWidths, widthAt, hc]
  · show sumCaps cat (s.id_masters ++ [i]) = s.cap_acum + c.capacitance
    rw [sumCaps_append, hcap]; simp [sumCaps, capAt, hc]
  · intro k hk
    rcases List.mem_append.mp hk with hk | hk
    · exact hidx k hk
    · simp at hk; omega

/-- The `while` loop only adds to the selection; when it falls through, its
master is blocked, and when it leaves through the `return`, the total width has
reached the gap width. The usable width is an `int`. -/
theorem whileAccept_blocked (cat : List DecapCell)
    (hposall : ∀ c ∈ cat, 0 ≤ c.master.getWidth) (i : Nat) (c : DecapCell)
    (hci : cat[i]? = some c) (hw : 0 < c.master.getWidth)
    (hc : 0 ≤ c.capacitance) (gap_width min_space : Int)
    (husable : machine.wrapInt (gap_width - min_space) = gap_width - min_space)
    (current target : ℚ) :
    ∀ (fuel : Nat) (s : SelState) (b : Bool) (s1 : SelState),
      whileAccept i c.master.getWidth c.capacitance gap_width min_space current target fuel s
        = some (b, s1) →
      SelInv cat gap_width min_space current target s →
      sumWidths cat s.id_masters ≤ sumWidths cat s1.id_masters
        ∧ sumCaps cat s.id_masters ≤ sumCaps cat s1.id_masters
        ∧ (b = false → Blocked cat gap_width min_space current target s1.id_masters c)
        ∧ (b = true → gap_width ≤ sumWidths cat s1.id_masters) := by
  have hwi : widthAt cat i = c.master.getWidth := by simp [widthAt, hci]
  have hcapi : capAt cat i = c.capacitance := by simp [capAt, hci]
  intro fuel
  induction fuel with
  | zero => intro s b s1 h; simp [whileAccept] at h
  | succ f ih =>
    intro s b s1 h hinv
    rw [whileAccept] at h
    split at h
    · rename_i hcond
      have hinv1 := selInv_step cat i c hci gap_width min_space current target s hinv hcond
      have hws : sumWidths cat (s.id_masters ++ [i])
          = sumWidths cat s.id_masters + c.master.getWidth := by
        rw [sumWidths_append]; simp [sumWidths, hwi]
      have hcs : sumCaps cat (s.id_masters ++ [i])
          = sumCaps cat s.id_masters + c.capacitance := by
        rw [sumCaps_append]; simp [sumCaps, hcapi]
      simp only at h
      split at h
      · rename_i heq
        simp only [Option.some.injEq, Prod.mk.injEq] at h
        obtain ⟨hb, hs⟩ := h
        subst hb hs
        refine ⟨?_, ?_, ?_, fun _ => ?_⟩
        · show sumWidths cat s.id_masters ≤ sumWidths cat (s.id_masters ++ [i])
          omega
        · show sumCaps cat s.id_masters ≤ sumCaps cat (s.id_masters ++ [i])
          linarith
        · intro hf; exact Bool.noConfusion hf
        · show gap_width ≤ sumWidths cat (s.id_masters ++ [i])
          have h1 : machine.wrapInt (sumWidths cat (s.id_masters ++ [i]))
              = machine.wrapInt (s.width_acum + c.master.getWidth) := hinv1.1
          have h2 : machine.wrapInt (s.width_acum + c.master.getWidth) = gap_width := heq
          have h3 := machine.wrapInt_le_self _
            (sumWidths_nonneg cat hposall (s.id_masters ++ [i]))
          omega
      · obtain ⟨h1, h2, h3, h4⟩ := ih _ b s1 h hinv1
        refine ⟨?_, ?_, h3, h4⟩
        · have : sumWidths cat (s.id_masters ++ [i]) ≤ sumWidths cat s1.id_masters := h1
          omega
        · have : sumCaps cat (s.id_masters ++ [i]) ≤ sumCaps cat s1.id_masters := h2
          linarith
    · rename_i hcond
      simp only [Option.some.injEq, Prod.mk.injEq] at h
      obtain ⟨hb, hs⟩ := h
      subst hb hs
      refine ⟨le_refl _, le_refl _, ?_, fun hf => Bool.noConfusion hf⟩
      intro _
      unfold Blocked
      obtain ⟨hwa, hca, _, _⟩ := hinv
      by_cases hwd : machine.wrapInt (s.width_acum + c.master.getWidth)
          ≤ machine.wrapInt (gap_width - min_space)
      · right
        by_contra hn
        rw [hca] at hn
        exact hcond ⟨hwd, not_lt.mp hn⟩
      · left
        rw [← hwa, machine.wrapInt_add_left, husable] at hwd
        have h3 := machine.wrapInt_le_self (sumWidths cat s.id_masters + c.master.getWidth)
          (by have := sumWidths_nonneg cat hposall s.id_masters; omega)
        omega

theorem blocked_mono (cat : List DecapCell) (gap_width min_space : Int) (current target : ℚ)
    (ids ids1 : List Nat) (c : DecapCell)
    (hw : sumWidths cat ids ≤ sumWidths cat ids1) (hc : sumCaps cat ids ≤ sumCaps cat ids1)
    (h : Blocked cat gap_width min_space current target ids c) :
    Blocked cat gap_width min_space current target ids1 c := by
  unfold Blocked at h ⊢
  rcases h with h | h
  · left; omega
  · right; linarith

/-- When the `for` loop returns, every master of the catalog is blocked. -/
theorem forMasters_blocked (cat : List DecapCell)
    (hpos : ∀ c ∈ cat, 0 < c.master.getWidth) (hcap : ∀ c ∈ cat, 0 ≤ c.capacitance)
    (fuel : Nat) (gap_width min_space : Int) (hpad : 0 ≤ min_space)
    (husable : machine.wrapInt (gap_width - min_space) = gap_width - min_space)
    (current target : ℚ) :
    ∀ (rest : List DecapCell) (i : Nat) (s : SelState) (ids : List Nat),
      (∀ k c, rest[k]? = some c → cat[i + k]? = some c) →
      i + rest.length = cat.length →
      (∀ k c, k < i → cat[k]? = some c →
        Blocked cat gap_width min_space current target s.id_masters c) →
      SelInv cat gap_width min_space current target s →
      forMasters fuel gap_width min_space current target rest i s = some ids →
      ∀ c ∈ cat, Blocked cat gap_width min_space current target ids c := by
  have hposall : ∀ c ∈ cat, 0 ≤ c.master.getWidth := fun c hc => le_of_lt (hpos c hc)
  intro rest
  induction rest with
  | nil =>
    intro i s ids _ hlen hdone hinv h
    simp only [forMasters, Option.some.injEq] at h
    intro c hc
    obtain ⟨k, hk⟩ := List.getElem?_of_mem hc
    have hlt : k < cat.length := (List.getElem?_eq_some_iff.mp hk).1
    simp only [List.length_nil, Nat.add_zero] at hlen
    rw [← h]
    exact hdone k c (by omega) hk
  | cons c rest ih =>
    intro i s ids hsuf hlen hdone hinv h
    have hci : cat[i]? = some c := by simpa using hsuf 0 c (by simp)
    have hcm : c ∈ cat := List.getElem?_mem hci
    rw [forMasters] at h
    split at h
    · simp at h
    · rename_i s1 hw
      simp only [Option.some.injEq] at h
      obtain ⟨_, _, _, hret⟩ := whileAccept_blocked cat hposall i c hci (hpos c hcm)
        (hcap c hcm) gap_width min_space husable current target fuel s true s1 hw hinv
      intro c1 hc1
      have := hpos c1 hc1
      have hgw := hret rfl
      rw [h] at hgw
      left
      omega
    · rename_i s1 hw
      have hinv1 := whileAccept_inv cat i c hci gap_width min_space current target fuel s false
        s1 hw hinv
      obtain ⟨hm1, hm2, hbl, _⟩ := whileAccept_blocked cat hposall i c hci (hpos c hcm)
        (hcap c hcm) gap_width min_space husable current target fuel s false s1 hw hinv
      refine ih (i + 1) s1 ids ?_ ?_ ?_ hinv1 h
      · intro k c1 hk
        have := hsuf (k + 1) c1 (by simpa using hk)
        rw [show i + 1 + k = i + (k + 1) by omega]; exact this
      · simp only [List.length_cons] at hlen
        omega
      · intro k c1 hk hck
        rcases Nat.lt_or_ge k i with hlt | hge
        · exact blocked_mono cat _ _ _ _ s.id_masters s1.id_masters c1 hm1 hm2
            (hdone k c1 hlt hck)
        · have hki : k = i := by omega
          rw [hki, hci] at hck
          simp only [Option.some.injEq] at hck
          rw [← hck]
          exact hbl rfl

/-- The total width of valid indices is at least their number times any lower
bound of the master widths. -/
theorem length_mul_le_sumWidths (cat : List DecapCell) (wmin : Int)
    (hmin : ∀ c ∈ cat, wmin ≤ c.master.getWidth) :
    ∀ ids : List Nat, (∀ i ∈ ids, i < cat.length) →
      (ids.length : Int) * wmin ≤ sumWidths cat ids := by
  intro ids
  induction ids with
  | nil => intro _; simp [sumWidths]
  | cons i rest ih =>
    intro hidx
    have hi : i < cat.length := hidx i (by simp)
    have hw : wmin ≤ widthAt cat i := by
      simp only [widthAt, List.getElem?_eq_getElem hi]
      exact hmin _ (List.getElem_mem hi)
    have hrest := ih (fun k hk => hidx k (List.mem_cons_of_mem _ hk))
    rw [sumWidths_cons]
    simp only [List.length_cons, Nat.cast_add, Nat.cast_one]
    linarith

theorem placedInsts_fromCell (cat : List DecapCell) (orient : dbOrientType) (gap_y : Int) :
    ∀ (ids : List Nat) (gap_x n : Int), (∀ i ∈ ids, i < cat.length) →
      List.Forall₂ (FromCell cat) (placedInsts cat orient gap_y ids gap_x n) ids := by
  intro ids
  induction ids with
  | nil => intro gap_x n _; simp [placedInsts]
  | cons i rest ih =>
    intro gap_x n hidx
    have hi : i < cat.length := hidx i (by simp)
    have hc : cat[i]? = some cat[i] := List.getElem?_eq_getElem hi
    rw [placedInsts, hc]
    exact List.Forall₂.cons ⟨cat[i], hc, rfl⟩
      (ih _ _ (fun k hk => hidx k (List.mem_cons_of_mem _ hk)))

theorem insertDecapInRow_accounts (base : Opendp) (total0 target : ℚ) (fuel : Nat)
    (s : Opendp) (row : List GapInfo) (key x y : Int) (total : ℚ) (s1 : Opendp) (t1 : ℚ)
    (h0 : Accounts base total0 target s total)
    (h : insertDecapInRow s fuel row key x y total target = .ok (s1, t1)) :
    Accounts base total0 target s1 t1 := by
  obtain ⟨hcat, placed, ids, hblock, hrel, htot, hcnt, hle⟩ := h0
  rcases insertDecapInRow_cases s fuel row key x y total target s1 t1 h
    with ⟨hs, ht, _⟩ | ⟨g, ids1, _, _, _, hsel, hne, hs, ht⟩
  · subst hs ht
    exact ⟨hcat, placed, ids, hblock, hrel, htot, hcnt, hle⟩
  · have hidx := findDecapCellIndices_lt s fuel g.width total target ids1 hsel
    obtain ⟨sel, ⟨_, hcs, _, hb⟩, hid⟩ :=
      findDecapCellIndices_inv s fuel g.width total target ids1 hsel
    have hbud : sumCaps s.decap_masters_ ids1 ≤ target - total := by
      rw [← hid] at hne ⊢
      rw [hcs]; exact (hb hne).2
    subst hs ht
    refine ⟨hcat, placed ++ placedInsts s.decap_masters_ g.orient key ids1 g.x s.decap_count_,
      ids ++ ids1, by simp [filledState, hblock], ?_, ?_, ?_, by linarith⟩
    · refine List.rel_append hrel ?_
      rw [← hcat]
      exact placedInsts_fromCell s.decap_masters_ g.orient key ids1 g.x s.decap_count_ hidx
    · rw [sumCaps_append, htot, hcat]; ring
    · simp only [filledState, List.length_append]
      rw [length_placedInsts _ _ _ ids1 _ _ hidx, hcnt,
        (List.Forall₂.length_eq hrel)]
      push_cast
      ring

/-! ## Selector: budgets -/

/-- C1, as stated, fails when the `int` sum `width_acum + master_width` wraps:
for the gap width `INT_MAX`, zero padding, one master of width `2^30` and
capacitance 1 and the budget 5, `findDecapCellIndices` returns the master five
times, a total width of `5 * 2^30`, above the usable width `INT_MAX`. -/
theorem findDecapCellIndices_width_wraps :
    findDecapCellIndices wideMaster 10 2147483647 0 5 = some [0, 0, 0, 0, 0]
      ∧ ¬ (sumWidths wideMaster.decap_masters_ [0, 0, 0, 0, 0]
            ≤ 2147483647 - wideMaster.min_space) := by
  decide!

/-- C1, amended: the total width of the masters returned by
`findDecapCellIndices`, reduced to an `int` as the code accumulates it, is at
most the `int` value of the usable width when the result is non-empty; and when
no `int` operation of the selector can overflow (`FitsInt`), the exact total
width is at most the usable width `gap_width - min_space`, whenever the result
is non-empty or the usable width is non-negative. -/
theorem findDecapCellIndices_width_le (self : Opendp) (fuel : Nat) (gap_width : Int)
    (current target : ℚ) (ids : List Nat)
    (h : findDecapCellIndices self fuel gap_width current target = some ids) :
    (ids ≠ [] → machine.wrapInt (sumWidths self.decap_masters_ ids)
        ≤ machine.wrapInt (gap_width - self.min_space))
      ∧ (FitsInt self.decap_masters_ gap_width self.min_space →
          ids ≠ [] ∨ 0 ≤ gap_width - self.min_space →
          sumWidths self.decap_masters_ ids ≤ gap_width - self.min_space) := by
  constructor
  · intro hne
    obtain ⟨s1, ⟨hw, _, _, hb⟩, rfl⟩ :=
      findDecapCellIndices_inv self fuel gap_width current target ids h
    rw [hw]; exact (hb hne).1
  · intro hfit hne
    by_cases hnil : ids = []
    · rcases hne with hne | hne
      · exact absurd hnil hne
      · rw [hnil]; simpa [sumWidths] using hne
    · exact (findDecapCellIndices_exact self fuel gap_width current target ids hfit h).2 hnil

/-- Witness of C1 on the scenario design: gap width 40, nothing accumulated,
target 12. -/
theorem findDecapCellIndices_width_le_witness :
    findDecapCellIndices scenario 10 40 0 12 = some [0, 0]
      ∧ FitsInt scenario.decap_masters_ 40 scenario.min_space
      ∧ sumWidths scenario.decap_masters_ [0, 0] ≤ 40 - scenario.min_space :=
  ⟨by decide!, by unfold FitsInt; decide,
   (findDecapCellIndices_width_le scenario 10 40 0 12 [0, 0] (by decide!)).2
    (by unfold FitsInt; decide) (Or.inl (by decide))⟩

/-- C2: in exact arithmetic, `current` plus the capacitances of the masters
returned by `findDecapCellIndices` never exceeds `target`, whenever the result is
non-empty or `current ≤ target`. -/
theorem findDecapCellIndices_cap_le (self : Opendp) (fuel : Nat) (gap_width : Int)
    (current target : ℚ) (ids : List Nat)
    (h : findDecapCellIndices self fuel gap_width current target = some ids)
    (hne : ids ≠ [] ∨ current ≤ target) :
    current + sumCaps self.decap_masters_ ids ≤ target := by
  obtain ⟨s1, ⟨_, hc, _, hb⟩, rfl⟩ := findDecapCellIndices_inv self fuel gap_width current target ids h
  by_cases hnil : s1.id_masters = []
  · rcases hne with hne | hne
    · exact absurd hnil hne
    · rw [hnil]; simpa [sumCaps] using hne
  · rw [hc]; have := (hb hnil).2; linarith

/-- Witness of C2 on the scenario design with 3 already accumulated and target
12. -/
theorem findDecapCellIndices_cap_le_witness :
    findDecapCellIndices scenario 10 40 3 12 = some [0]
      ∧ (3 : ℚ) + sumCaps scenario.decap_masters_ [0] ≤ 12 :=
  ⟨by decide!,
   findDecapCellIndices_cap_le scenario 10 40 3 12 [0] (by decide!) (Or.inl (by decide))⟩

/-! ## Evaluations -/

/-- C3: on the end-to-end scenario (one row at `y = 0`, one gap `[100, 140]`,
catalog A and B, drop point `(105, 0)`, target 12) `insertDecapCells` finds the
gap but creates no instance: the total stays 0, the counter 0 and the gap
unfilled, because the search for the first gap with `x ≥ 105` passes the gap at
`x = 100`. With the drop point moved to `(100, 0)` the same run places B at
`x = 100` and A at `x = 120` and ends with total 12. -/
theorem insertDecapCells_scenario_places_nothing :
    passView (insertDecapCells scenario 10 12 [⟨105, 0, 9⟩])
      = some { gaps_ := [(0, [⟨100, .R0, 40, 10, false⟩])]
               block_ := []
               decap_count_ := 0
               calls_ := [⟨0, 105, 0, none, []⟩]
               total := 0 }
      ∧ passView (insertDecapCells scenario 10 12 [⟨100, 0, 9⟩])
          = some (scenarioFilledView 100) := by
  decide!

/-- C4: for the drop point `x = 95` the call fills the gap `[100, 140]`, which
does not span the point (`100 ≤ 95` fails). -/
theorem insertDecapInRow_fills_gap_right_of_point :
    passView (insertDecapInRow scenarioPrepared 10 [⟨100, .R0, 40, 10, false⟩] 0 95 0 0 12)
      = some { gaps_ := [(0, [⟨100, .R0, 40, 10, true⟩])]
               block_ := [⟨0, ⟨1, 20⟩, .R0, 100, 0⟩, ⟨1, ⟨0, 10⟩, .R0, 120, 0⟩]
               decap_count_ := 2
               calls_ := [⟨0, 95, 0, some 0,
                           [⟨0, ⟨1, 20⟩, .R0, 100, 0⟩, ⟨1, ⟨0, 10⟩, .R0, 120, 0⟩]⟩]
               total := 12 }
      ∧ ¬ ((100 : Int) ≤ 95) := by
  decide!

/-- C5: for the drop point `(100, 30)` the preceding row `y = 0` of height 10 is
attempted (second call of the log) although `0 + 10 ≥ 30` fails: the code tests
`0 + 10 ≤ 30`. -/
theorem insertDecapPoint_attempts_row_far_below :
    (passView (insertDecapPoint 10 12 twoRows 0 ⟨100, 30, 9⟩)).map
        (fun v => v.calls_.map (fun c => c.gap_y))
      = some [30, 0]
      ∧ ¬ ((0 : Int) + 10 ≥ 30) := by
  decide!

/-! ## Placement geometry -/

/-- C8, as stated, fails when the selector's `int` sum wraps: for the gap
`[0, 3 * 2^29]`, zero padding, one master of width `2^30` and capacitance 1 and
the target 2, `insertDecapInRow` creates two instances, at `x = 0` and at
`x = 2^30`; the second ends at `2^31`, beyond the end `3 * 2^29` of the gap. -/
theorem insertDecapInRow_leaves_gap_on_wrap :
    (passView (insertDecapInRow wideGap 10 [⟨0, .R0, 1610612736, 10, false⟩] 0 0 0 0 2)).map
        (fun v => v.block_)
      = some [⟨0, ⟨0, 1073741824⟩, .R0, 0, 0⟩, ⟨1, ⟨0, 1073741824⟩, .R0, 1073741824, 0⟩]
      ∧ ¬ ((1073741824 : Int) + 1073741824 ≤ 0 + 1610612736)
      ∧ (0 ≤ wideGap.min_space ∧ ∀ c ∈ wideGap.decap_masters_, 0 ≤ c.master.getWidth) := by
  decide!

/-- C8, amended: when no `int` operation can overflow (the selector's sums fit,
`FitsInt`, the padding is not negative and the gap `g` lies in the range of
`int`) and `insertDecapInRow` fills the located gap `g` with the selection `ids`,
the instance number `i` is created at `x = g.x +` (widths of the masters before
it), `y = gap_y`, with the orientation of `g`, and every created instance lies
between `g.x` and `g.x + g.width`, hence in the range of `int`. -/
theorem insertDecapInRow_positions (self : Opendp) (fuel : Nat) (gaps : List GapInfo)
    (gap_y irdrop_x irdrop_y : Int) (total target : ℚ) (v : PassView) (g : GapInfo)
    (ids : List Nat)
    (hres : passView (insertDecapInRow self fuel gaps gap_y irdrop_x irdrop_y total target)
      = some v)
    (hg : gaps[lower_bound gaps irdrop_x]? = some g)
    (hspan : irdrop_x ≤ g.x + g.width) (hfree : g.is_filled = false)
    (hsel : findDecapCellIndices self fuel g.width total target = some ids)
    (hpad : 0 ≤ self.min_space)
    (hfit : FitsInt self.decap_masters_ g.width self.min_space)
    (hx : -2147483648 ≤ g.x ∧ g.x + g.width ≤ INT_MAX) :
    ∃ placed : List dbInst, v.block_ = self.block_ ++ placed ∧ placed.length = ids.length
      ∧ (∀ i k : Nat, ids[i]? = some k → ∃ c, self.decap_masters_[k]? = some c ∧
          placed[i]? = some { name := self.decap_count_ + i, master := c.master,
                              orient := g.orient,
                              x := g.x + sumWidths self.decap_masters_ (ids.take i),
                              y := gap_y })
      ∧ (∀ inst ∈ placed, g.x ≤ inst.x ∧ inst.x + inst.master.getWidth ≤ g.x + g.width
          ∧ -2147483648 ≤ inst.x ∧ inst.x + inst.master.getWidth ≤ INT_MAX) := by
  obtain ⟨s1, t1, hok, rfl⟩ := passView_eq_some _ v hres
  have hidx := findDecapCellIndices_lt self fuel g.width total target ids hsel
  have hpos : ∀ c ∈ self.decap_masters_, 0 ≤ c.master.getWidth := fun c hc => (hfit.2.2 c hc).1
  rcases insertDecapInRow_cases self fuel gaps gap_y irdrop_x irdrop_y total target s1 t1 hok
    with ⟨hs, _, hnone⟩ | ⟨g1, ids1, hg1, _, _, hsel1, _, hs, _⟩
  · have hnil := hnone g ids hg hfree hspan hsel
    subst hnil
    refine ⟨[], by simp [hs, logCall], rfl, ?_, ?_⟩
    · intro i k h; simp at h
    · intro inst h; simp at h
  · rw [hg] at hg1
    simp only [Option.some.injEq] at hg1
    subst hg1
    rw [hsel] at hsel1
    simp only [Option.some.injEq] at hsel1
    subst hsel1
    refine ⟨placedInsts self.decap_masters_ g.orient gap_y ids g.x self.decap_count_,
      by simp [hs, filledState], length_placedInsts _ _ _ ids _ _ hidx, ?_, ?_⟩
    · intro i k hik
      exact getElem?_placedInsts self.decap_masters_ g.orient gap_y ids g.x self.decap_count_
        hidx i k hik
    · intro inst hinst
      have hb := placedInsts_bounds self.decap_masters_ hpos g.orient gap_y ids g.x
        self.decap_count_ inst hinst
      have hw : sumWidths self.decap_masters_ ids ≤ g.width - self.min_space := by
        by_cases hnil : ids = []
        · subst hnil
          simp [placedInsts] at hinst
        · exact (findDecapCellIndices_exact self fuel g.width total target ids hfit hsel).2 hnil
      obtain ⟨hx1, hx2⟩ := hx
      refine ⟨hb.1, ?_, ?_, ?_⟩ <;> omega

/-- Witness of C8: the prepared scenario, drop point `x = 95`, target 12. -/
theorem insertDecapInRow_positions_witness :
    ∃ placed : List dbInst, (scenarioFilledView 95).block_ = scenarioPrepared.block_ ++ placed
      ∧ placed.length = [0, 1].length
      ∧ (∀ i k : Nat, [0, 1][i]? = some k → ∃ c, scenarioPrepared.decap_masters_[k]? = some c ∧
          placed[i]? = some { name := scenarioPrepared.decap_count_ + i, master := c.master,
                              orient := scenarioGap.orient,
                              x := scenarioGap.x
                                + sumWidths scenarioPrepared.decap_masters_ ([0, 1].take i),
                              y := 0 })
      ∧ (∀ inst ∈ placed, scenarioGap.x ≤ inst.x
          ∧ inst.x + inst.master.getWidth ≤ scenarioGap.x + scenarioGap.width
          ∧ -2147483648 ≤ inst.x ∧ inst.x + inst.master.getWidth ≤ INT_MAX) :=
  insertDecapInRow_positions scenarioPrepared 10 [scenarioGap] 0 95 0 0 12
    (scenarioFilledView 95) scenarioGap [0, 1] (by decide!) (by decide) (by decide) rfl
    (by decide!) (by decide) (by unfold FitsInt; decide) (by decide)

/-! ## Fill flags -/

/-- C7: a call of `insertDecapInRow` on the row stored under `gap_y` sets the
flag of the located gap exactly when it creates at least one instance, changes
no other gap and clears no flag; it creates instances only in a located gap that
was unfilled; when it creates none, the running total, the counter and the gap
map are unchanged, which is the case whenever the located gap is already filled
or the selection is empty. Over a whole pass no gap is marked by two calls, and
a call creates instances exactly when it marks a gap. -/
theorem insertDecapInRow_no_double_fill (fuel : Nat) (target : ℚ) :
    (∀ (self : Opendp) (gaps : List GapInfo) (gap_y irdrop_x irdrop_y : Int) (total : ℚ)
        (v : PassView),
        lookupRow self.gaps_ gap_y = some gaps →
        passView (insertDecapInRow self fuel gaps gap_y irdrop_x irdrop_y total target)
          = some v →
        ∃ placed : List dbInst, v.block_ = self.block_ ++ placed
          ∧ (∀ (key : Int) (i : Nat), gapAt v.gaps_ key i =
              (gapAt self.gaps_ key i).map (fun g =>
                if key = gap_y ∧ i = lower_bound gaps irdrop_x ∧ placed ≠ []
                then { g with is_filled := true } else g))
          ∧ (placed ≠ [] → ∃ g, gapAt self.gaps_ gap_y (lower_bound gaps irdrop_x) = some g
              ∧ g.is_filled = false)
          ∧ (placed = [] → v.total = total ∧ v.decap_count_ = self.decap_count_
              ∧ v.gaps_ = self.gaps_)
          ∧ ((∀ g, gaps[lower_bound gaps irdrop_x]? = some g →
                g.is_filled = true
                  ∨ findDecapCellIndices self fuel g.width total target = some []) →
              placed = []))
    ∧ (∀ (self : Opendp) (drops : List IRDrop) (total : ℚ) (v : PassView),
        MapWF self.gaps_ →
        passView (insertDecapLoop fuel target drops self total) = some v →
        ∃ cs, v.calls_ = self.calls_ ++ cs ∧ (fills cs).Nodup
          ∧ ∀ c ∈ cs, (c.placed ≠ [] ↔ c.filled ≠ none)) := by
  constructor
  · intro self gaps gap_y irdrop_x irdrop_y total v hrow hres
    obtain ⟨s1, t1, hok, rfl⟩ := passView_eq_some _ v hres
    rcases insertDecapInRow_cases self fuel gaps gap_y irdrop_x irdrop_y total target s1 t1 hok
      with ⟨hs, ht, _⟩ | ⟨g, ids, hg, _, hfree, hsel, hne, hs, _⟩
    · subst hs ht
      refine ⟨[], by simp [logCall], ?_, ?_, ?_, ?_⟩
      · intro key i
        show gapAt self.gaps_ key i = _
        cases hga : gapAt self.gaps_ key i <;> simp
      · intro h; exact absurd rfl h
      · intro _; simp [logCall]
      · intro _; rfl
    · have hidx := findDecapCellIndices_lt self fuel g.width total target ids hsel
      have hpl := placedInsts_ne_nil self.decap_masters_ g.orient gap_y ids g.x
        self.decap_count_ hidx hne
      subst hs
      refine ⟨placedInsts self.decap_masters_ g.orient gap_y ids g.x self.decap_count_,
        by simp [filledState], ?_, ?_, ?_, ?_⟩
      · intro key i
        simp only [filledState]
        rw [gapAt_setFilled]
        simp [hpl]
      · intro _
        exact ⟨g, by simp [gapAt, hrow, hg], hfree⟩
      · intro h; exact absurd h hpl
      · intro h
        rcases h g hg with h | h
        · rw [hfree] at h; exact Bool.noConfusion h
        · rw [hsel] at h
          simp only [Option.some.injEq] at h
          exact absurd h hne
  · intro self drops total v hwf hres
    obtain ⟨s1, t1, hok, rfl⟩ := passView_eq_some _ v hres
    have hfin := insertDecapLoop_induct fuel target
      (fun s _ => MapWF s.gaps_ ∧ ∃ cs, s.calls_ = self.calls_ ++ cs ∧ LogInv s cs)
      (fun s row key x y total s1 t1 h0 hmem h =>
        insertDecapInRow_logInv self.calls_ fuel target s row key x y total s1 t1 h0 hmem h)
      drops self total s1 t1
      ⟨hwf, [], by simp, by simp [LogInv, fills]⟩ hok
    obtain ⟨_, cs, hcs, hnd, _, hiff⟩ := hfin
    exact ⟨cs, hcs, hnd, hiff⟩

/-- Witness of C7: one call on the prepared scenario, and a pass over two drop
points that locate the same gap. -/
theorem insertDecapInRow_no_double_fill_witness :
    (∃ placed : List dbInst, (scenarioFilledView 95).block_ = scenarioPrepared.block_ ++ placed
      ∧ (∀ (key : Int) (i : Nat), gapAt (scenarioFilledView 95).gaps_ key i =
          (gapAt scenarioPrepared.gaps_ key i).map (fun g =>
            if key = 0 ∧ i = lower_bound [scenarioGap] 95 ∧ placed ≠ []
            then { g with is_filled := true } else g))
      ∧ (placed ≠ [] → ∃ g, gapAt scenarioPrepared.gaps_ 0 (lower_bound [scenarioGap] 95) = some g
          ∧ g.is_filled = false)
      ∧ (placed = [] → (scenarioFilledView 95).total = 0
          ∧ (scenarioFilledView 95).decap_count_ = scenarioPrepared.decap_count_
          ∧ (scenarioFilledView 95).gaps_ = scenarioPrepared.gaps_)
      ∧ ((∀ g, [scenarioGap][lower_bound [scenarioGap] 95]? = some g →
            g.is_filled = true
              ∨ findDecapCellIndices scenarioPrepared 10 g.width 0 12 = some []) →
          placed = []))
    ∧ (∃ cs, scenarioPassView.calls_ = scenarioPrepared.calls_ ++ cs ∧ (fills cs).Nodup
        ∧ ∀ c ∈ cs, (c.placed ≠ [] ↔ c.filled ≠ none)) :=
  ⟨(insertDecapInRow_no_double_fill 10 12).1 scenarioPrepared [scenarioGap] 0 95 0 0
      (scenarioFilledView 95) (by decide) (by decide!),
   (insertDecapInRow_no_double_fill 10 30).2 scenarioPrepared [⟨95, 0, 9⟩, ⟨100, 0, 8⟩] 0
      scenarioPassView (by unfold MapWF; decide) (by decide!)⟩

/-! ## Rows attempted for a drop point -/

/-- Over a pass on a well-formed gap map whose rows consist of pairwise disjoint
gaps, none of which lets the selector overflow, with non-negative padding and
positive master widths, any two instances created in the same row occupy
disjoint x-intervals. -/
theorem insertDecapLoop_disjoint_of_rows (fuel : Nat) (target : ℚ) (self : Opendp)
    (drops : List IRDrop) (total : ℚ) (v : PassView)
    (hwf : MapWF self.gaps_)
    (hdisj : ∀ key row, (key, row) ∈ self.gaps_ → row.Pairwise gapsDisjoint)
    (hfit : ∀ key row, (key, row) ∈ self.gaps_ → ∀ g ∈ row,
      FitsInt self.decap_masters_ g.width self.min_space)
    (hpad : 0 ≤ self.min_space)
    (hpos : ∀ c ∈ self.decap_masters_, 0 < c.master.getWidth)
    (hres : passView (insertDecapLoop fuel target drops self total) = some v) :
    ∃ placed, v.block_ = self.block_ ++ placed
      ∧ placed.Pairwise (fun a b => a.y = b.y →
          a.x + a.master.getWidth ≤ b.x ∨ b.x + b.master.getWidth ≤ a.x) := by
  obtain ⟨s1, t1, hok, rfl⟩ := passView_eq_some _ v hres
  have hfits : ∀ (k : Int) (i : Nat) (g : GapInfo), gapAt self.gaps_ k i = some g →
      FitsInt self.decap_masters_ g.width self.min_space := by
    intro k i g hg
    unfold gapAt at hg
    cases hrow : lookupRow self.gaps_ k with
    | none => rw [hrow] at hg; simp at hg
    | some row =>
      rw [hrow] at hg
      exact hfit k row (lookupRow_mem _ _ _ hrow) g (List.getElem?_mem hg)
  have hfin := insertDecapLoop_induct fuel target
    (fun s _ => (MapWF s.gaps_ ∧ RowsDisjoint s.gaps_ ∧ s.decap_masters_ = self.decap_masters_
        ∧ s.padding_ = self.padding_ ∧ s.grid_ = self.grid_
        ∧ ∀ (k : Int) (i : Nat) (g : GapInfo), gapAt s.gaps_ k i = some g →
            FitsInt self.decap_masters_ g.width self.min_space)
      ∧ ∃ placed, s.block_ = self.block_ ++ placed ∧ BlockInv s placed)
    (fun s row key x y total s1 t1 h0 hmem h =>
      insertDecapInRow_blockInv self fuel target hpad (fun c hc => le_of_lt (hpos c hc))
        s row key x y total s1 t1 h0 hmem h)
    drops self total s1 t1
    ⟨⟨hwf, rowsDisjoint_of_mem _ hdisj, rfl, rfl, rfl, hfits⟩, [], by simp, by simp [BlockInv]⟩
    hok
  obtain ⟨_, placed, hblock, hpw, _⟩ := hfin
  exact ⟨placed, hblock, hpw⟩

/-- C9: on a design with a hybrid flavor whose rows 2 and 3 share the key 6, the
scan stores the gaps `[0, 20]` of row 2 and `[10, 30]` of row 3 in one list, and
a full pass over the drop points `(0, 6)` and `(5, 6)` creates a master of width
20 at `x = 0` and another at `x = 10` in the row `y = 6`: the two instances
overlap on `[10, 20]`, with zero padding and positive master widths. -/
theorem insertDecapCells_hybrid_overlap :
    (passView (insertDecapCells hybridOverlap 10 100 [⟨0, 6, 9⟩, ⟨5, 6, 8⟩])).map
        (fun v => (v.gaps_, v.block_))
      = some ([(6, [⟨0, .R0, 20, 3, true⟩, ⟨10, .R0, 20, 2, true⟩])],
              [⟨0, ⟨1, 20⟩, .R0, 0, 6⟩, ⟨1, ⟨1, 20⟩, .R0, 10, 6⟩])
      ∧ ¬ ((0 : Int) + 20 ≤ 10 ∨ (10 : Int) + 20 ≤ 0)
      ∧ 0 ≤ hybridOverlap.min_space
      ∧ ∀ c ∈ hybridOverlap.decap_masters_, 0 < c.master.getWidth := by
  decide!

/-! ## Gap coverage -/

/-- C14: when filler cells are present, `insertDecapCells` ends in the fatal
error 54 whatever the grid, the catalog, the fuel, the target and the drop map
are: the run stops before the gap scan, before the drop map is converted and
sorted, and before any call that creates an instance or marks a gap. -/
theorem insertDecapCells_fillers (self : Opendp) (hf : self.have_fillers_ = true)
    (fuel : Nat) (target : ℚ) (psm_ir_drops : List IRDrop) :
    insertDecapCells self fuel target psm_ir_drops = .error .fillersPresent := by
  simp [insertDecapCells, hf]

/-- Witness of C14: the scenario design with fillers present. -/
theorem insertDecapCells_fillers_witness :
    insertDecapCells { scenario with have_fillers_ := true } 10 12 [⟨100, 0, 9⟩]
      = .error .fillersPresent :=
  insertDecapCells_fillers { scenario with have_fillers_ := true } rfl 10 12 [⟨100, 0, 9⟩]

/-- C17: `mapToVectorIRDrops` called with an empty output vector returns a
permutation of the entries of the map, with non-increasing drop values. -/
theorem mapToVectorIRDrops_perm_sorted (psm_ir_drops : List IRDrop) :
    (mapToVectorIRDrops psm_ir_drops []).Perm psm_ir_drops
      ∧ (mapToVectorIRDrops psm_ir_drops []).Pairwise (fun a b => b.value ≤ a.value) := by
  haveI : IsTotal IRDrop (fun ir_drop1 ir_drop2 => ir_drop2.value ≤ ir_drop1.value) :=
    ⟨fun a b => le_total b.value a.value⟩
  haveI : IsTrans IRDrop (fun ir_drop1 ir_drop2 => ir_drop2.value ≤ ir_drop1.value) :=
    ⟨fun a b c hab hbc => le_trans hbc hab⟩
  unfold mapToVectorIRDrops
  simp only [List.nil_append]
  exact ⟨List.perm_insertionSort _ _, List.sorted_insertionSort _ _⟩

/-! ## The gap located for a drop point -/

/-- C15: on a row sorted by x-origin, the position `insertDecapInRow` locates is
that of the first gap with `x ≥ irdrop_x`; every instance the call creates goes
with marking that gap, no gap at another position of the map changes, and when
every gap of the row starts left of `irdrop_x` nothing is created and the gap
map, the counter and the running total are unchanged. -/
theorem insertDecapInRow_first_ge (self : Opendp) (fuel : Nat) (gaps : List GapInfo)
    (gap_y irdrop_x irdrop_y : Int) (total target : ℚ) (v : PassView)
    (hs : gaps.Pairwise (fun a b => a.x ≤ b.x))
    (hres : passView (insertDecapInRow self fuel gaps gap_y irdrop_x irdrop_y total target)
      = some v) :
    (∀ (i : Nat) (g : GapInfo), i < lower_bound gaps irdrop_x → gaps[i]? = some g →
        g.x < irdrop_x)
      ∧ (∀ g, gaps[lower_bound gaps irdrop_x]? = some g → irdrop_x ≤ g.x)
      ∧ (∀ (key : Int) (i : Nat), ¬ (key = gap_y ∧ i = lower_bound gaps irdrop_x) →
          gapAt v.gaps_ key i = gapAt self.gaps_ key i)
      ∧ (v.block_ ≠ self.block_ →
          ∃ g, gaps[lower_bound gaps irdrop_x]? = some g ∧ g.is_filled = false
            ∧ v.gaps_ = setFilled self.gaps_ gap_y (lower_bound gaps irdrop_x))
      ∧ ((∀ g ∈ gaps, g.x < irdrop_x) →
          v.block_ = self.block_ ∧ v.gaps_ = self.gaps_
            ∧ v.decap_count_ = self.decap_count_ ∧ v.total = total) := by
  obtain ⟨s1, t1, hok, rfl⟩ := passView_eq_some _ v hres
  refine ⟨fun i g hi hg => lower_bound_lt gaps irdrop_x hs i g hi hg,
    fun g hg => lower_bound_ge gaps irdrop_x g hg, ?_, ?_, ?_⟩
  · intro key i hne
    rcases insertDecapInRow_cases self fuel gaps gap_y irdrop_x irdrop_y total target s1 t1 hok
      with ⟨hs1, _, _⟩ | ⟨g, ids, _, _, _, _, _, hs1, _⟩
    · subst hs1; rfl
    · subst hs1
      simp only [filledState]
      rw [gapAt_setFilled]
      cases hga : gapAt self.gaps_ key i <;> simp [hne]
  · intro hne
    rcases insertDecapInRow_cases self fuel gaps gap_y irdrop_x irdrop_y total target s1 t1 hok
      with ⟨hs1, _, _⟩ | ⟨g, ids, hg, _, hfree, _, _, hs1, _⟩
    · subst hs1
      exact absurd rfl hne
    · subst hs1
      exact ⟨g, hg, hfree, rfl⟩
  · intro hall
    rcases insertDecapInRow_cases self fuel gaps gap_y irdrop_x irdrop_y total target s1 t1 hok
      with ⟨hs1, ht1, _⟩ | ⟨g, ids, hg, _, _, _, _, _, _⟩
    · subst hs1 ht1
      exact ⟨rfl, rfl, rfl, rfl⟩
    · have h1 := lower_bound_ge gaps irdrop_x g hg
      have h2 := hall g (List.getElem?_mem hg)
      omega

/-- Witness of C15: the two sorted gaps of `twoGaps` and the drop point
`x = 150`, which locates the gap at `x = 200`. -/
theorem insertDecapInRow_first_ge_witness :
    (∀ (i : Nat) (g : GapInfo),
        i < lower_bound [⟨100, .R0, 40, 10, false⟩, ⟨200, .R0, 40, 10, false⟩] 150 →
        [(⟨100, .R0, 40, 10, false⟩ : GapInfo), ⟨200, .R0, 40, 10, false⟩][i]? = some g →
        g.x < 150)
      ∧ (∀ g, [(⟨100, .R0, 40, 10, false⟩ : GapInfo), ⟨200, .R0, 40, 10, false⟩][
            lower_bound [⟨100, .R0, 40, 10, false⟩, ⟨200, .R0, 40, 10, false⟩] 150]? = some g →
          150 ≤ g.x)
      ∧ (∀ (key : Int) (i : Nat),
          ¬ (key = 0
            ∧ i = lower_bound [⟨100, .R0, 40, 10, false⟩, ⟨200, .R0, 40, 10, false⟩] 150) →
          gapAt secondGapView.gaps_ key i = gapAt twoGaps.gaps_ key i)
      ∧ (secondGapView.block_ ≠ twoGaps.block_ →
          ∃ g, [(⟨100, .R0, 40, 10, false⟩ : GapInfo), ⟨200, .R0, 40, 10, false⟩][
              lower_bound [⟨100, .R0, 40, 10, false⟩, ⟨200, .R0, 40, 10, false⟩] 150]? = some g
            ∧ g.is_filled = false
            ∧ secondGapView.gaps_ = setFilled twoGaps.gaps_ 0
                (lower_bound [⟨100, .R0, 40, 10, false⟩, ⟨200, .R0, 40, 10, false⟩] 150))
      ∧ ((∀ g ∈ [(⟨100, .R0, 40, 10, false⟩ : GapInfo), ⟨200, .R0, 40, 10, false⟩],
            g.x < 150) →
          secondGapView.block_ = twoGaps.block_ ∧ secondGapView.gaps_ = twoGaps.gaps_
            ∧ secondGapView.decap_count_ = twoGaps.decap_count_ ∧ secondGapView.total = 0) :=
  insertDecapInRow_first_ge twoGaps 10
    [⟨100, .R0, 40, 10, false⟩, ⟨200, .R0, 40, 10, false⟩] 0 150 0 0 12 secondGapView
    (by simp) (by decide!)

/-! ## The early return of the selector -/

/-- C16: with padding 1 + 1 sites of width 10 a gap of width 40 has usable width
20. After B (width 20) is accepted the accumulated width equals the usable
width, yet the `while` loop is not left through the `return` of line 80 (the
flag is `false`): line 79 compares with the gap width 40. The call still returns
B alone, after testing the remaining masters; with a master of width 0 in the
catalog it goes on to accept that master twice. -/
theorem findDecapCellIndices_no_early_return :
    paddedDesign.min_space = 20
      ∧ whileAccept 0 20 7 40 20 0 100 10 { id_masters := [], cap_acum := 0, width_acum := 0 }
          = some (false, { id_masters := [0], cap_acum := 7, width_acum := 20 })
      ∧ findDecapCellIndices paddedDesign 10 40 0 100 = some [0]
      ∧ findDecapCellIndices paddedZeroWidth 10 40 0 (19 / 2) = some [0, 1, 1] := by
  decide!

/-! ## The scan of all rows -/

/-- C11: in the hybrid design (site pattern of heights 3 and 2, four rows)
`findGaps` stores the gaps of row 2 (height 3, key `2 * 3`) and of row 3 (height
2, key `3 * 2`) under the same key 6: the list of that key holds gaps of two
grid rows. -/
theorem findGaps_hybrid_rows_share_key :
    gapsView (findGaps hybridDesign)
      = some [(0, [⟨0, .R0, 10, 3, false⟩]),
              (2, [⟨0, .R0, 10, 2, false⟩]),
              (6, [⟨0, .R0, 10, 3, false⟩, ⟨0, .R0, 10, 2, false⟩])] := by
  decide!

/-- C12, as stated, fails: in `maxHeightDesign` the uniform flavor `flavorN` is
registered, but its site height `INT_MAX` is not below the initial minimum, so
`findGaps` scans with the hybrid flavor `flavorH` of key 0 and not with
`flavorN`; and in `shiftedHybridDesign`, where no uniform flavor is registered
and the first hybrid flavor has the key 1, `findGaps` looks up the key 0 and
fails. -/
theorem findGaps_skips_flavor_of_max_height :
    ((1, flavorN) ∈ maxHeightDesign.grid_.info_map ∧ flavorN.is_hybrid = false
      ∧ gapsView (findGaps maxHeightDesign)
          = gapsView (findGapsHybrid flavorH [0] maxHeightDesign)
      ∧ gapsView (findGaps maxHeightDesign)
          ≠ gapsView (.ok (findGapsUniform INT_MAX flavorN [0] maxHeightDesign)))
      ∧ (shiftedHybridDesign.grid_.info_map.head? = some (1, flavorH)
          ∧ (∀ p ∈ shiftedHybridDesign.grid_.info_map, p.2.is_hybrid = true)
          ∧ gapsView (findGaps shiftedHybridDesign) = none
          ∧ gapsView (findGapsHybrid flavorH [0] shiftedHybridDesign)
              = some [(0, [⟨0, .R0, 10, 5, false⟩])]) := by
  decide!

/-- C12, amended: on a flavor map in key order whose flavors all have a first
site, if a uniform flavor with site height below `INT_MAX` is registered,
`findGaps` runs the uniform row loop with the uniform flavor of least site
height, the first such flavor in key order; otherwise (no uniform flavor is
registered, or none of site height below `INT_MAX`) it looks up the key 0: it
fails with `out_of_range` when no flavor has that key, runs the hybrid row loop
with the flavor of key 0 when that flavor is hybrid, and the uniform row loop
with it and the row height `INT_MAX` when it is not. -/
theorem findGaps_flavor (self : Opendp)
    (hwf : (self.grid_.info_map.map Prod.fst).Pairwise (fun a b => a < b))
    (hsites : ∀ p ∈ self.grid_.info_map, p.2.sites ≠ []) :
    ((∃ p ∈ self.grid_.info_map, p.2.is_hybrid = false
        ∧ ∃ site, p.2.sites.head? = some site ∧ site.height < INT_MAX) →
      ∃ key info site, (key, info) ∈ self.grid_.info_map ∧ info.is_hybrid = false
        ∧ info.sites.head? = some site
        ∧ (∀ p ∈ self.grid_.info_map, p.2.is_hybrid = false →
            ∀ site1, p.2.sites.head? = some site1 →
              site.height ≤ site1.height ∧ (site1.height = site.height → key ≤ p.1))
        ∧ findGaps self
            = .ok (findGapsUniform site.height info (List.range info.row_count.toNat) self))
    ∧ ((∀ p ∈ self.grid_.info_map, p.2.is_hybrid = false →
          ∀ site, p.2.sites.head? = some site → INT_MAX ≤ site.height) →
        findGaps self
          = match mapAt self.grid_.info_map 0 with
            | none => .error .outOfRange
            | some info =>
              if info.is_hybrid = false then
                .ok (findGapsUniform INT_MAX info (List.range info.row_count.toNat) self)
              else findGapsHybrid info (List.range info.row_count.toNat) self) := by
  obtain ⟨mh, ck, hok, hmin, hle, hcase⟩ := chooseGrid_spec self.grid_.info_map INT_MAX 0 hsites
  constructor
  · rintro ⟨p, hp, hnh, site, hsite, hlt⟩
    have hlt1 : mh < INT_MAX := lt_of_le_of_lt (hmin p hp hnh site hsite) hlt
    rcases hcase with ⟨h1, _⟩ | ⟨_, info, site1, hmem, hnh1, hhead1, hh1⟩
    · omega
    · refine ⟨ck, info, site1, hmem, hnh1, hhead1, ?_, ?_⟩
      · intro p1 hp1 hnh2 site2 hs2
        refine ⟨by rw [hh1]; exact hmin p1 hp1 hnh2 site2 hs2, ?_⟩
        intro heq
        exact chooseGrid_first self.grid_.info_map INT_MAX 0 mh ck hwf hsites hok hlt1 p1 hp1
          hnh2 site2 hs2 (by rw [heq, hh1])
      · unfold findGaps
        rw [hok]
        simp only [mapAt_of_mem _ hwf ck info hmem, hnh1, hh1, if_true]
  · intro hall
    rcases hcase with ⟨h1, h2⟩ | ⟨h0, info1, site1, hmem1, hnh1, hhead1, hh1⟩
    · unfold findGaps
      rw [hok, h1, h2]
    · have := hall (ck, info1) hmem1 hnh1 site1 hhead1
      omega

/-- Witness of C12: the scenario design, whose only flavor is uniform with site
height 10. -/
theorem findGaps_flavor_witness :
    ((∃ p ∈ scenario.grid_.info_map, p.2.is_hybrid = false
        ∧ ∃ site, p.2.sites.head? = some site ∧ site.height < INT_MAX) →
      ∃ key info site, (key, info) ∈ scenario.grid_.info_map ∧ info.is_hybrid = false
        ∧ info.sites.head? = some site
        ∧ (∀ p ∈ scenario.grid_.info_map, p.2.is_hybrid = false →
            ∀ site1, p.2.sites.head? = some site1 →
              site.height ≤ site1.height ∧ (site1.height = site.height → key ≤ p.1))
        ∧ findGaps scenario
            = .ok (findGapsUniform site.height info (List.range info.row_count.toNat)
                scenario))
    ∧ ((∀ p ∈ scenario.grid_.info_map, p.2.is_hybrid = false →
          ∀ site, p.2.sites.head? = some site → INT_MAX ≤ site.height) →
        findGaps scenario
          = match mapAt scenario.grid_.info_map 0 with
            | none => .error .outOfRange
            | some info =>
              if info.is_hybrid = false then
                .ok (findGapsUniform INT_MAX info (List.range info.row_count.toNat) scenario)
              else findGapsHybrid info (List.range info.row_count.toNat) scenario) :=
  findGaps_flavor scenario (by simp [scenario, scenarioGrid])
    (by
      intro p hp
      simp only [scenario, scenarioGrid, List.mem_singleton] at hp
      subst hp
      simp)

/-- C13, as stated, fails: the design without any registered flavor has no
fillers and no gap, and `insertDecapCells` returns normally with nothing placed
instead of failing. -/
theorem insertDecapCells_no_flavor_returns :
    noFlavorDesign.have_fillers_ = false ∧ noFlavorDesign.gaps_ = []
      ∧ noFlavorDesign.grid_.info_map = []
      ∧ passView (insertDecapCells noFlavorDesign 10 12 [⟨105, 0, 9⟩])
          = some { gaps_ := [], block_ := [], decap_count_ := 0, calls_ := [], total := 0 } := by
  decide!

/-- C13, amended: for a design without fillers and with at least one flavor
registered, whenever the scan ends normally with zero gaps in total,
`insertDecapCells` fails with the error 55 (gaps not found) for every fuel,
target and drop map; the error is raised by `prepareDecapAndGaps`, before the
drop map is converted and before any instance is created. This is the case
whenever the gap map holds no gap at the start and the flavor chosen by
`findGaps` has no run of free valid slots in any of its rows (or has no rows),
whatever the other flavors hold. -/
theorem insertDecapCells_no_gaps (self : Opendp) (hnf : self.have_fillers_ = false)
    (hne : self.grid_.info_map ≠ []) :
    (∀ s1, findGaps { self with decap_count_ := 0,
                                decap_masters_ := sortDecaps self.decap_masters_ } = .ok s1 →
        (s1.gaps_.map (fun it => it.2.length)).sum = 0 →
        prepareDecapAndGaps { self with decap_count_ := 0 } = .error .gapsNotFound
          ∧ ∀ (fuel : Nat) (target : ℚ) (psm_ir_drops : List IRDrop),
              insertDecapCells self fuel target psm_ir_drops = .error .gapsNotFound)
      ∧ (∀ (mh ck : Int) (info : GridInfo),
          chooseGrid self.grid_.info_map INT_MAX 0 = .ok (mh, ck) →
          mapAt self.grid_.info_map ck = some info →
          (∀ key row, (key, row) ∈ self.gaps_ → row = []) →
          (∀ row : Nat, (row : Int) < info.row_count →
            rowSpans self.grid_ info.grid_index (row : Int) = []) →
          ∀ (fuel : Nat) (target : ℚ) (psm_ir_drops : List IRDrop),
            insertDecapCells self fuel target psm_ir_drops = .error .gapsNotFound) := by
  have hemp : self.grid_.info_map.isEmpty = false := by
    cases hm : self.grid_.info_map with
    | nil => exact absurd hm hne
    | cons a rest => rfl
  have hgen : ∀ s1,
      findGaps { self with decap_count_ := 0, decap_masters_ := sortDecaps self.decap_masters_ }
        = .ok s1 →
      (s1.gaps_.map (fun it => it.2.length)).sum = 0 →
      prepareDecapAndGaps { self with decap_count_ := 0 } = .error .gapsNotFound
        ∧ ∀ (fuel : Nat) (target : ℚ) (psm_ir_drops : List IRDrop),
            insertDecapCells self fuel target psm_ir_drops = .error .gapsNotFound := by
    intro s1 hscan hzero
    have hprep : prepareDecapAndGaps { self with decap_count_ := 0 } = .error .gapsNotFound := by
      unfold prepareDecapAndGaps
      simp only [hscan]
      rw [if_pos]
      simpa [List.map_map, Function.comp_def, sortGaps, List.length_insertionSort] using hzero
    refine ⟨hprep, ?_⟩
    intro fuel target psm_ir_drops
    unfold insertDecapCells
    simp only
    split
    · rename_i h
      rw [hnf] at h
      exact Bool.noConfusion h
    · simp only [hemp, hprep, if_true]
  refine ⟨hgen, ?_⟩
  intro mh ck info hchoose hat hempty hrows
  have hsites := chooseGrid_ok_sites _ _ _ _ hchoose (ck, info) (mapAt_mem _ _ _ hat)
  have hrange : ∀ row ∈ List.range info.row_count.toNat,
      rowSpans self.grid_ info.grid_index (row : Int) = [] := by
    intro row hrow
    have hlt := List.mem_range.mp hrow
    exact hrows row (by omega)
  have hscan :
      findGaps { self with decap_count_ := 0, decap_masters_ := sortDecaps self.decap_masters_ }
        = .ok { self with decap_count_ := 0, decap_masters_ := sortDecaps self.decap_masters_ } := by
    unfold findGaps
    simp only [hchoose, hat]
    split
    · exact congrArg Except.ok (findGapsUniform_of_no_span mh info _ _ hrange)
    · exact findGapsHybrid_ok_of_no_span info _ hsites _ hrange
  exact (hgen _ hscan (sum_length_of_rows_empty _ hempty)).2

/-- Witness of C13: the design `otherFlavorFree`, in which the flavor chosen by
`findGaps` holds a cell on every slot while the other flavor is free. -/
theorem insertDecapCells_no_gaps_witness :
    ((chooseGrid otherFlavorFree.grid_.info_map INT_MAX 0).toOption = some (10, 0)
        ∧ rowSpans otherFlavorFree.grid_ 1 0 = [⟨0, 4, .R0⟩]
        ∧ passView (insertDecapCells otherFlavorFree 10 12 [⟨105, 0, 9⟩]) = none)
      ∧ ∀ (fuel : Nat) (target : ℚ) (psm_ir_drops : List IRDrop),
          insertDecapCells otherFlavorFree fuel target psm_ir_drops = .error .gapsNotFound :=
  ⟨by decide!,
   (insertDecapCells_no_gaps otherFlavorFree rfl (by simp [otherFlavorFree])).2 10 0
    ⟨1, 0, [⟨10⟩], false⟩ (by rfl) (by decide)
    (by intro key row h; simp [otherFlavorFree, scenario] at h)
    (by
      intro row hrow
      simp only at hrow
      have h0 : row = 0 := by omega
      subst h0
      decide)⟩

/-! ## Maximality and size of the selection -/

/-- With a rounding that changes nothing the rounded `while` loop is
`whileAccept`. -/
theorem whileAcceptRounded_id (i : Nat) (master_width : Int) (master_cap : ℚ)
    (gap_width min_space : Int) (current target : ℚ) :
    ∀ (fuel : Nat) (s : SelState),
      whileAcceptRounded id i master_width master_cap gap_width min_space current target fuel s
        = whileAccept i master_width master_cap gap_width min_space current target fuel s := by
  intro fuel
  induction fuel with
  | zero => intro s; rfl
  | succ f ih =>
    intro s
    rw [whileAcceptRounded, whileAccept]
    simp only [id]
    split
    · split
      · rfl
      · exact ih _
    · rfl

/-- With a rounding that changes nothing the rounded selector is
`findDecapCellIndices`. -/
theorem findDecapCellIndicesRounded_id (self : Opendp) (fuel : Nat) (gap_width : Int)
    (current target : ℚ) :
    findDecapCellIndicesRounded id self fuel gap_width current target
      = findDecapCellIndices self fuel gap_width current target := by
  unfold findDecapCellIndicesRounded findDecapCellIndices
  generalize self.decap_masters_ = cat
  generalize (0 : Nat) = i
  generalize ({ id_masters := [], cap_acum := 0, width_acum := 0 } : SelState) = s
  induction cat generalizing i s with
  | nil => rfl
  | cons c rest ih =>
    rw [forMastersRounded, forMasters, whileAcceptRounded_id]
    split
    · rfl
    · rfl
    · exact ih _ _

/-- C27, as stated, fails in `double` arithmetic: with one master of width 1
whose capacitance is the `double` nearest to 0.1, the target the `double`
nearest to 1.6, nothing accumulated and usable width 1000, the selector with
binary64 rounding returns the master 15 times, although a sixteenth copy fits
the usable width and the budget: 16 times the capacitance is the target. In exact
arithmetic the selector returns it 16 times. -/
theorem findDecapCellIndicesRounded_stops_early :
    findDecapCellIndicesRounded machine.roundBinary64 tenthDesign 20 1000 0
        (machine.roundBinary64 (16 / 10)) = some (List.replicate 15 0)
      ∧ ¬ (∀ c ∈ tenthDesign.decap_masters_,
            1000 - tenthDesign.min_space
                < sumWidths tenthDesign.decap_masters_ (List.replicate 15 0)
                  + c.master.getWidth
              ∨ machine.roundBinary64 (16 / 10) - 0
                < sumCaps tenthDesign.decap_masters_ (List.replicate 15 0) + c.capacitance)
      ∧ findDecapCellIndices tenthDesign 20 1000 0 (machine.roundBinary64 (16 / 10))
          = some (List.replicate 16 0)
      ∧ (∀ c ∈ tenthDesign.decap_masters_, 0 < c.master.getWidth ∧ 0 ≤ c.capacitance)
      ∧ 0 ≤ tenthDesign.min_space := by
  decide!

/-- C27, amended: in exact arithmetic, with positive master widths, non-negative
capacitances, non-negative padding and a usable width `gap_width - min_space` in
the range of `int`, when `findDecapCellIndices` returns `ids`, appending any
master of the catalog would pass the usable width or the budget
`target - current`. -/
theorem findDecapCellIndices_maximal (self : Opendp) (fuel : Nat) (gap_width : Int)
    (current target : ℚ) (ids : List Nat)
    (hpos : ∀ c ∈ self.decap_masters_, 0 < c.master.getWidth)
    (hcap : ∀ c ∈ self.decap_masters_, 0 ≤ c.capacitance)
    (hpad : 0 ≤ self.min_space)
    (hint : -2147483648 ≤ gap_width - self.min_space ∧ gap_width - self.min_space ≤ INT_MAX)
    (h : findDecapCellIndices self fuel gap_width current target = some ids) :
    ∀ c ∈ self.decap_masters_,
      gap_width - self.min_space < sumWidths self.decap_masters_ ids + c.master.getWidth
        ∨ target - current < sumCaps self.decap_masters_ ids + c.capacitance := by
  have husable : machine.wrapInt (gap_width - self.min_space) = gap_width - self.min_space :=
    machine.wrapInt_of_fits _ hint.1 hint.2
  exact forMasters_blocked self.decap_masters_ hpos hcap fuel gap_width self.min_space hpad
    husable current target self.decap_masters_ 0 _ ids (by intro k c hk; simpa using hk)
    (by simp) (by intro k c hk; omega) (selInv_init _ _ _ _ _) h

/-- Witness of C27: the prepared scenario, gap width 40, target 12. -/
theorem findDecapCellIndices_maximal_witness :
    findDecapCellIndices scenarioPrepared 10 40 0 12 = some [0, 1]
      ∧ ∀ c ∈ scenarioPrepared.decap_masters_,
        40 - scenarioPrepared.min_space
            < sumWidths scenarioPrepared.decap_masters_ [0, 1] + c.master.getWidth
          ∨ (12 : ℚ) - 0 < sumCaps scenarioPrepared.decap_masters_ [0, 1] + c.capacitance :=
  ⟨by decide!,
   findDecapCellIndices_maximal scenarioPrepared 10 40 0 12 [0, 1]
    (by
      intro c hc
      simp only [scenarioPrepared, List.mem_cons, List.mem_singleton, List.not_mem_nil,
        or_false] at hc
      rcases hc with rfl | rfl <;> decide)
    (by
      intro c hc
      simp only [scenarioPrepared, List.mem_cons, List.mem_singleton, List.not_mem_nil,
        or_false] at hc
      rcases hc with rfl | rfl <;> norm_num)
    (by decide) (by decide) (by decide!)⟩

/-- With the gap width `INT_MAX`, zero padding and a master of width `2^30` and
capacitance 0, the `while` loop never returns: the accumulated width stays a
multiple of `2^30` and every sum, wrapped, is at most `INT_MAX`. -/
theorem whileAccept_wraps_forever :
    ∀ (fuel : Nat) (s : SelState), s.width_acum % 1073741824 = 0 → s.cap_acum = 0 →
      whileAccept 0 1073741824 0 2147483647 0 0 0 fuel s = none := by
  intro fuel
  induction fuel with
  | zero => intro s _ _; rfl
  | succ f ih =>
    intro s hw hc
    rw [whileAccept]
    have hb := machine.wrapInt_bounds (s.width_acum + 1073741824)
    have hu : machine.wrapInt (2147483647 - 0) = 2147483647 := by decide
    have hcond : machine.wrapInt (s.width_acum + 1073741824) ≤ machine.wrapInt (2147483647 - 0)
        ∧ s.cap_acum + 0 ≤ (0 : ℚ) - 0 := by
      rw [hu, hc]
      exact ⟨hb.2, by norm_num⟩
    have hmod : machine.wrapInt (s.width_acum + 1073741824) % 1073741824 = 0 := by
      unfold machine.wrapInt; omega
    rw [if_pos hcond]
    simp only
    rw [if_neg (by omega)]
    exact ih _ hmod (by show s.cap_acum + 0 = 0; rw [hc]; norm_num)

/-- C28, as stated, fails when the `int` sum `width_acum + master_width` wraps:
for the gap width `INT_MAX`, zero padding and one master of width `2^30`, with
capacitance 1 and the budget 5 `findDecapCellIndices` returns five masters where
the usable width divided by the smallest master width is 1, and with
capacitance 0 it does not return, whatever the fuel. -/
theorem findDecapCellIndices_wraps_without_bound :
    (findDecapCellIndices wideMaster 10 2147483647 0 5 = some [0, 0, 0, 0, 0]
        ∧ ¬ ((([0, 0, 0, 0, 0] : List Nat).length : Int)
              ≤ (2147483647 - wideMaster.min_space) / 1073741824)
        ∧ (∀ c ∈ wideMaster.decap_masters_, 0 < c.master.getWidth)
        ∧ (∀ c ∈ wideZeroCap.decap_masters_, 0 < c.master.getWidth))
      ∧ ∀ fuel : Nat, findDecapCellIndices wideZeroCap fuel 2147483647 0 0 = none := by
  refine ⟨by decide!, ?_⟩
  intro fuel
  have h := whileAccept_wraps_forever fuel { id_masters := [], cap_acum := 0, width_acum := 0 }
    (by decide) rfl
  have hms : wideZeroCap.min_space = 0 := by decide
  unfold findDecapCellIndices
  rw [hms]
  show forMasters fuel 2147483647 0 0 0 [⟨⟨0, 1073741824⟩, 0⟩] 0 _ = none
  rw [forMasters]
  show (match whileAccept 0 1073741824 0 2147483647 0 0 0 fuel
      { id_masters := [], cap_acum := 0, width_acum := 0 } with
    | none => none
    | some (true, s1) => some s1.id_masters
    | some (false, s1) => forMasters fuel 2147483647 0 0 0 [] (0 + 1) s1) = none
  rw [h]

/-- C28, amended: when every master has positive width and no `int` operation of
the selector can overflow (`FitsInt`), `findDecapCellIndices` returns for every
fuel above the usable width, and whatever it returns has at most
`usable width / wmin` masters for every positive lower bound `wmin` of the master
widths (the smallest width among them), and none when the usable width is
negative. -/
theorem findDecapCellIndices_terminates_bound (self : Opendp) (gap_width : Int)
    (current target : ℚ) (hpos : ∀ c ∈ self.decap_masters_, 0 < c.master.getWidth)
    (hfit : FitsInt self.decap_masters_ gap_width self.min_space) :
    (∀ fuel : Nat, (gap_width - self.min_space).toNat < fuel →
        ∃ ids, findDecapCellIndices self fuel gap_width current target = some ids)
      ∧ (∀ (fuel : Nat) (ids : List Nat),
          findDecapCellIndices self fuel gap_width current target = some ids →
          ∀ wmin : Int, 0 < wmin → (∀ c ∈ self.decap_masters_, wmin ≤ c.master.getWidth) →
            (gap_width - self.min_space < 0 → ids = [])
              ∧ (0 ≤ gap_width - self.min_space →
                  (ids.length : Int) ≤ (gap_width - self.min_space) / wmin)) := by
  constructor
  · intro fuel hf
    exact findDecapCellIndices_isSome self fuel gap_width current target hpos hfit hf
  · intro fuel ids h wmin hw hmin
    have hidx := findDecapCellIndices_lt self fuel gap_width current target ids h
    have hlen := length_mul_le_sumWidths self.decap_masters_ wmin hmin ids hidx
    have hbound : ids ≠ [] → sumWidths self.decap_masters_ ids ≤ gap_width - self.min_space :=
      (findDecapCellIndices_exact self fuel gap_width current target ids hfit h).2
    constructor
    · intro hneg
      by_contra hne
      have h1 := hbound hne
      have hpos1 : 0 < ids.length := List.length_pos.mpr hne
      have h2 : (0 : Int) < (ids.length : Int) * wmin :=
        Int.mul_pos (by exact_mod_cast hpos1) hw
      omega
    · intro hnn
      refine Int.le_ediv_of_mul_le hw ?_
      by_cases hne : ids = []
      · subst hne; simpa using hnn
      · exact le_trans hlen (hbound hne)

/-- Witness of C28: the prepared scenario, gap width 40, target 100, smallest
master width 10. -/
theorem findDecapCellIndices_terminates_bound_witness :
    (∀ fuel : Nat, ((40 : Int) - scenarioPrepared.min_space).toNat < fuel →
        ∃ ids, findDecapCellIndices scenarioPrepared fuel 40 0 100 = some ids)
      ∧ (∀ (fuel : Nat) (ids : List Nat),
          findDecapCellIndices scenarioPrepared fuel 40 0 100 = some ids →
          ∀ wmin : Int, 0 < wmin →
            (∀ c ∈ scenarioPrepared.decap_masters_, wmin ≤ c.master.getWidth) →
            ((40 : Int) - scenarioPrepared.min_space < 0 → ids = [])
              ∧ (0 ≤ (40 : Int) - scenarioPrepared.min_space →
                  (ids.length : Int) ≤ ((40 : Int) - scenarioPrepared.min_space) / wmin)) :=
  findDecapCellIndices_terminates_bound scenarioPrepared 40 0 100
    (by
      intro c hc
      simp only [scenarioPrepared, List.mem_cons, List.mem_singleton, List.not_mem_nil,
        or_false] at hc
      rcases hc with rfl | rfl <;> decide)
    (by unfold FitsInt; decide)

/-! ## Accounts of a pass -/

/-- C30: in a pass started with the running total 0 and the counter 0 on a
target that is not negative, after the first `k` drop points (for every `k`) the
instances created so far come one by one from catalog cells whose capacitances
add up to the running total, the counter is their number, and the running total
is at most the target. -/
theorem insertDecapLoop_accounting (fuel : Nat) (target : ℚ) (self : Opendp)
    (drops : List IRDrop) (k : Nat) (v : PassView)
    (ht : 0 ≤ target) (hc : self.decap_count_ = 0)
    (hres : passView (insertDecapLoop fuel target (drops.take k) self 0) = some v) :
    ∃ (placed : List dbInst) (ids : List Nat), v.block_ = self.block_ ++ placed
      ∧ List.Forall₂ (FromCell self.decap_masters_) placed ids
      ∧ v.total = sumCaps self.decap_masters_ ids
      ∧ v.decap_count_ = placed.length
      ∧ v.total ≤ target := by
  obtain ⟨s1, t1, hok, rfl⟩ := passView_eq_some _ v hres
  have hfin := insertDecapLoop_induct fuel target (Accounts self 0 target)
    (fun s row key x y total s1 t1 h0 _ h =>
      insertDecapInRow_accounts self 0 target fuel s row key x y total s1 t1 h0 h)
    (drops.take k) self 0 s1 t1
    ⟨rfl, [], [], by simp, List.Forall₂.nil, by simp [sumCaps], by simp, ht⟩ hok
  obtain ⟨_, placed, ids, hblock, hrel, htot, hcnt, hle⟩ := hfin
  refine ⟨placed, ids, hblock, hrel, ?_, ?_, hle⟩
  · simpa using htot
  · show s1.decap_count_ = (placed.length : Int)
    rw [hcnt, hc]; simp

/-- Witness of C30: the pass over the two gaps of `twoGaps` with target 30,
after both drop points. -/
theorem insertDecapLoop_accounting_witness :
    ∃ (placed : List dbInst) (ids : List Nat), twoGapsView.block_ = twoGaps.block_ ++ placed
      ∧ List.Forall₂ (FromCell twoGaps.decap_masters_) placed ids
      ∧ twoGapsView.total = sumCaps twoGaps.decap_masters_ ids
      ∧ twoGapsView.decap_count_ = placed.length
      ∧ twoGapsView.total ≤ 30 :=
  insertDecapLoop_accounting 10 30 twoGaps [⟨100, 0, 9⟩, ⟨150, 0, 8⟩] 2 twoGapsView
    (by norm_num) rfl (by decide!)

end dpl

namespace psm

/-! ## Canonical order of the endpoints -/

/-- C18: with an asymmetric `Node::compare` (as every strict order is), the
connection constructed from two non-null nodes `a` and `b` stores these two
nodes, and its `node1` does not compare before its `node0`. -/
theorem Connection_canonical {T : Type} (compare : Node T → Option (Node T) → Bool)
    (hasym : ∀ a b, compare a (some b) = true → compare b (some a) = false)
    (a b : Node T) (variant : Variant) :
    (((Connection.construct compare (some a) (some b) variant).node0_ = some a
        ∧ (Connection.construct compare (some a) (some b) variant).node1_ = some b)
      ∨ ((Connection.construct compare (some a) (some b) variant).node0_ = some b
        ∧ (Connection.construct compare (some a) (some b) variant).node1_ = some a))
    ∧ ∀ n0 n1, (Connection.construct compare (some a) (some b) variant).node0_ = some n0 →
        (Connection.construct compare (some a) (some b) variant).node1_ = some n1 →
        compare n1 (some n0) = false := by
  unfold Connection.construct Connection.ensureNodeOrder
  simp only
  split
  · rename_i hc
    refine ⟨Or.inr ⟨rfl, rfl⟩, ?_⟩
    intro n0 n1 h0 h1
    simp only [Option.some.injEq] at h0 h1
    subst h0 h1
    exact hc
  · rename_i hc
    refine ⟨Or.inl ⟨rfl, rfl⟩, ?_⟩
    intro n0 n1 h0 h1
    simp only [Option.some.injEq] at h0 h1
    subst h0 h1
    exact hasym _ _ (by simpa using hc)

/-- Witness of C18: the order of integer tuples on the nodes `nodeB`, `nodeA`. -/
theorem Connection_canonical_witness :
    (((Connection.construct Node.compare (some nodeB) (some nodeA) .term).node0_ = some nodeB
        ∧ (Connection.construct Node.compare (some nodeB) (some nodeA) .term).node1_
            = some nodeA)
      ∨ ((Connection.construct Node.compare (some nodeB) (some nodeA) .term).node0_
            = some nodeA
        ∧ (Connection.construct Node.compare (some nodeB) (some nodeA) .term).node1_
            = some nodeB))
    ∧ ∀ n0 n1,
        (Connection.construct Node.compare (some nodeB) (some nodeA) .term).node0_ = some n0 →
        (Connection.construct Node.compare (some nodeB) (some nodeA) .term).node1_ = some n1 →
        Node.compare n1 (some n0) = false :=
  Connection_canonical Node.compare
    (by
      intro a b h
      simp only [Node.compare, decide_eq_true_eq, decide_eq_false_iff_not] at h ⊢
      omega)
    nodeB nodeA .term

/-- C20, as stated, fails: the connection constructed from a null first
reference and `nodeB` keeps `node0` null and stores `nodeB` as `node1`. -/
theorem Connection_null_first_stays :
    (Connection.construct Node.compare none (some nodeB) .term).node0_ = none
      ∧ (Connection.construct Node.compare none (some nodeB) .term).node1_ = some nodeB := by
  decide

/-- C20, amended: after construction `node0` is null exactly when the first
reference is null, or the second reference is null and the first node does not
compare before it; a null first reference is never swapped, so the second
reference stays `node1`. -/
theorem Connection_node0_null_iff {T : Type} (compare : Node T → Option (Node T) → Bool)
    (node0 node1 : Option (Node T)) (variant : Variant) :
    ((Connection.construct compare node0 node1 variant).node0_ = none
        ↔ (node0 = none ∨ (node1 = none ∧ ∃ n, node0 = some n ∧ compare n none = false)))
      ∧ (node0 = none → (Connection.construct compare node0 node1 variant).node1_ = node1) := by
  unfold Connection.construct Connection.ensureNodeOrder
  cases node0 with
  | none => simp
  | some n =>
    simp only
    split
    · rename_i hc
      cases node1 with
      | none => simp [hc]
      | some m => simp
    · rename_i hc
      constructor
      · constructor
        · intro h; simp at h
        · rintro (h | ⟨h1, m, hm, hf⟩)
          · simp at h
          · simp only [Option.some.injEq] at hm
            subst hm h1
            exact absurd hf hc
      · intro h; simp at h

/-! ## The other endpoint -/

/-- C21: `getOtherNode(n)` is `node1` when `n` is `node0` and `node0` for every
other `n`, an endpoint or not; when the two endpoints differ, applying it twice
to an endpoint gives that endpoint back. The function only reads the
connection. -/
theorem getOtherNode_spec {T : Type} [DecidableEq T] (self : Connection T) :
    (∀ n, n = self.node0_ → self.getOtherNode n = self.node1_)
      ∧ (∀ n, n ≠ self.node0_ → self.getOtherNode n = self.node0_)
      ∧ (self.node0_ ≠ self.node1_ →
          self.getOtherNode (self.getOtherNode self.node0_) = self.node0_
            ∧ self.getOtherNode (self.getOtherNode self.node1_) = self.node1_) := by
  refine ⟨?_, ?_, ?_⟩
  · intro n hn
    simp [Connection.getOtherNode, hn]
  · intro n hn
    simp [Connection.getOtherNode, hn]
  · intro hne
    have hne1 : ¬ self.node1_ = self.node0_ := fun e => hne e.symm
    simp [Connection.getOtherNode, hne1]

/-! ## Resistance and conductance -/

/-- A rounding that changes nothing. -/
theorem rounded_fin (d : Double) : d.rounded Double.fin = d := by
  cases d <;> rfl

/-- With a rounding that changes nothing, the rounded resistance is the
resistance in exact arithmetic. -/
theorem getResistanceRounded_exact {T : Type} (tech : Tech) (self : Connection T)
    (res_map : ResistanceMap) :
    self.getResistanceRounded Double.fin tech res_map = self.getResistance tech res_map := by
  unfold Connection.getResistanceRounded Connection.getResistance
  simp only [rounded_fin]

/-- With a rounding that changes nothing, the rounded conductance is the
conductance in exact arithmetic. -/
theorem getConductanceRounded_exact {T : Type} (tech : Tech) (self : Connection T)
    (res_map : ResistanceMap) :
    self.getConductanceRounded Double.fin tech res_map = self.getConductance tech res_map := by
  unfold Connection.getConductanceRounded Connection.getConductance
  simp only [rounded_fin, getResistanceRounded_exact]

/-- C22, as stated, fails in `double` arithmetic: for a via of one cut over a
via layer of resistance 49 the resistance is 49 and the conductance is the
`double` nearest to `1 / 49`, whose product with 49 is not 1, neither exactly
nor after rounding (it rounds to `1 - 2^-53`); and for the resistance `2^-1074`,
which is not 0, the quotient overflows and the conductance is `+infinity`. -/
theorem getConductance_times_resistance_ne_one :
    (⟨some nodeA, some nodeB, .via 1⟩ : Connection Int).getResistanceRounded Double.ieee
        exampleTech map49 = .ok (.fin 49)
      ∧ (⟨some nodeA, some nodeB, .via 1⟩ : Connection Int).getConductanceRounded Double.ieee
          exampleTech map49 = .ok (.fin (5882252574524729 / 288230376151711744))
      ∧ (5882252574524729 / 288230376151711744 : ℚ) * 49 ≠ 1
      ∧ (Double.mul (.fin (5882252574524729 / 288230376151711744)) (.fin 49)).rounded
          Double.ieee = .fin (9007199254740991 / 9007199254740992)
      ∧ (⟨some nodeA, some nodeB, .via 1⟩ : Connection Int).getResistanceRounded Double.ieee
          exampleTech mapTiny = .ok (.fin (1 / 2 ^ 1074))
      ∧ (1 / 2 ^ 1074 : ℚ) ≠ 0
      ∧ (⟨some nodeA, some nodeB, .via 1⟩ : Connection Int).getConductanceRounded Double.ieee
          exampleTech mapTiny = .ok .posInf := by
  decide!

/-- C22, amended: whatever the rounding of the `double` operations, when
`getResistance` returns `r`, `getConductance` returns `+infinity` if `r` is 0
and the rounded quotient `1.0 / r` otherwise, so the division is never by zero;
for a finite non-zero `r` this is the rounding of the rational `1 / r`; and in
exact arithmetic it is `1 / r` itself, whose product with `r` is 1. -/
theorem getConductance_of_resistance {T : Type} (round : ℚ → Double) (tech : Tech)
    (self : Connection T) (res_map : ResistanceMap) (r : Double)
    (h : self.getResistanceRounded round tech res_map = .ok r) :
    (r = .fin 0 → self.getConductanceRounded round tech res_map = .ok .posInf)
      ∧ (r ≠ .fin 0 → self.getConductanceRounded round tech res_map
          = .ok ((Double.div (.fin 1) r).rounded round))
      ∧ (∀ q, r = .fin q → q ≠ 0 →
          self.getConductanceRounded round tech res_map = .ok (round (1 / q)))
      ∧ (∀ q, self.getResistance tech res_map = .ok (.fin q) → q ≠ 0 →
          self.getConductance tech res_map = .ok (.fin (1 / q)) ∧ (1 / q) * q = 1) := by
  refine ⟨?_, ?_, ?_, ?_⟩
  · intro hr
    simp [Connection.getConductanceRounded, h, hr]
  · intro hr
    simp [Connection.getConductanceRounded, h, hr]
  · intro q hr hq
    subst hr
    simp [Connection.getConductanceRounded, h, hq, Double.div, Double.rounded]
  · intro q hres hq
    refine ⟨?_, by field_simp⟩
    simp [Connection.getConductance, hres, hq, Double.div]

/-- Witness of C22: a layer segment of length 6 and width 3 on layer 1, whose
sheet resistance is 2, in binary64 arithmetic. -/
theorem getConductance_of_resistance_witness :
    ((.fin 4 : Double) = .fin 0 →
        (⟨some nodeA, some nodeB, .layer 6 3⟩ : Connection Int).getConductanceRounded
          Double.ieee exampleTech exampleMap = .ok .posInf)
      ∧ ((.fin 4 : Double) ≠ .fin 0 →
          (⟨some nodeA, some nodeB, .layer 6 3⟩ : Connection Int).getConductanceRounded
            Double.ieee exampleTech exampleMap
              = .ok ((Double.div (.fin 1) (.fin 4)).rounded Double.ieee))
      ∧ (∀ q, (.fin 4 : Double) = .fin q → q ≠ 0 →
          (⟨some nodeA, some nodeB, .layer 6 3⟩ : Connection Int).getConductanceRounded
            Double.ieee exampleTech exampleMap = .ok (Double.ieee (1 / q)))
      ∧ (∀ q, (⟨some nodeA, some nodeB, .layer 6 3⟩ : Connection Int).getResistance exampleTech
            exampleMap = .ok (.fin q) → q ≠ 0 →
          (⟨some nodeA, some nodeB, .layer 6 3⟩ : Connection Int).getConductance exampleTech
            exampleMap = .ok (.fin (1 / q)) ∧ (1 / q) * q = 1) :=
  getConductance_of_resistance Double.ieee exampleTech ⟨some nodeA, some nodeB, .layer 6 3⟩
    exampleMap (.fin 4) (by decide!)

/-- C23: in exact arithmetic, a layer segment of width other than 0 has the
resistance `(length / width) * table[layer of node0]`, and a via of cut count
other than 0 has the resistance `table[upper layer of node0's layer] / cuts`. -/
theorem getResistance_law {T : Type} (tech : Tech) (self : Connection T)
    (res_map : ResistanceMap) (node0 : Node T) (h0 : self.node0_ = some node0) :
    (∀ (length_ width_ : Int) (r : ℚ), self.variant = .layer length_ width_ → width_ ≠ 0 →
        mapAt res_map (some node0.layer) = some r →
        self.getResistance tech res_map = .ok (.fin (((length_ : ℚ) / (width_ : ℚ)) * r)))
      ∧ (∀ (cuts_ : Int) (r : ℚ), self.variant = .via cuts_ → cuts_ ≠ 0 →
          mapAt res_map (tech.getUpperLayer node0.layer) = some r →
          self.getResistance tech res_map = .ok (.fin (r / (cuts_ : ℚ)))) := by
  constructor
  · intro length_ width_ r hv hw hr
    have hw1 : (width_ : ℚ) ≠ 0 := by exact_mod_cast hw
    simp [Connection.getResistance, hv, h0, hr, Double.div, Double.mul, Double.ofInt, hw1]
  · intro cuts_ r hv hc hr
    have hc1 : (cuts_ : ℚ) ≠ 0 := by exact_mod_cast hc
    simp [Connection.getResistance, hv, h0, hr, Double.div, Double.ofInt, hc1]

/-- Witness of C23: the layer segment of length 6 and width 3 with `nodeA`, which
lies on layer 1, as `node0`. -/
theorem getResistance_law_witness :
    (∀ (length_ width_ : Int) (r : ℚ),
        (⟨some nodeA, some nodeB, .layer 6 3⟩ : Connection Int).variant = .layer length_ width_ →
        width_ ≠ 0 →
        mapAt exampleMap (some nodeA.layer) = some r →
        (⟨some nodeA, some nodeB, .layer 6 3⟩ : Connection Int).getResistance exampleTech
          exampleMap = .ok (.fin (((length_ : ℚ) / (width_ : ℚ)) * r)))
      ∧ (∀ (cuts_ : Int) (r : ℚ),
          (⟨some nodeA, some nodeB, .layer 6 3⟩ : Connection Int).variant = .via cuts_ →
          cuts_ ≠ 0 →
          mapAt exampleMap (exampleTech.getUpperLayer nodeA.layer) = some r →
          (⟨some nodeA, some nodeB, .layer 6 3⟩ : Connection Int).getResistance exampleTech
            exampleMap = .ok (.fin (r / (cuts_ : ℚ)))) :=
  getResistance_law exampleTech ⟨some nodeA, some nodeB, .layer 6 3⟩ exampleMap nodeA rfl

/-- C24: with a non-null `node0`, `getResistance` and `getConductance` of a layer
segment fail exactly when the layer of `node0` is missing from the table, and
those of a via exactly when the upper layer of that layer is missing; a terminal
connection returns `kResistance` for every table and its conductance never
fails. -/
theorem getResistance_fails_iff {T : Type} (tech : Tech) (self : Connection T)
    (res_map : ResistanceMap) :
    (∀ (node0 : Node T) (length_ width_ : Int), self.node0_ = some node0 →
        self.variant = .layer length_ width_ →
        ((∃ e, self.getResistance tech res_map = .error e)
            ↔ mapAt res_map (some node0.layer) = none)
          ∧ ((∃ e, self.getConductance tech res_map = .error e)
            ↔ mapAt res_map (some node0.layer) = none))
      ∧ (∀ (node0 : Node T) (cuts_ : Int), self.node0_ = some node0 →
          self.variant = .via cuts_ →
          ((∃ e, self.getResistance tech res_map = .error e)
              ↔ mapAt res_map (tech.getUpperLayer node0.layer) = none)
            ∧ ((∃ e, self.getConductance tech res_map = .error e)
              ↔ mapAt res_map (tech.getUpperLayer node0.layer) = none))
      ∧ (self.variant = .term →
          ∀ res_map1 : ResistanceMap,
            self.getResistance tech res_map1 = .ok (.fin tech.kResistance)
              ∧ ∃ g, self.getConductance tech res_map1 = .ok g) := by
  refine ⟨?_, ?_, ?_⟩
  · intro node0 length_ width_ h0 hv
    cases hr : mapAt res_map (some node0.layer) with
    | none => simp [Connection.getConductance, Connection.getResistance, hv, h0, hr]
    | some r =>
      have hres : self.getResistance tech res_map
          = .ok (Double.mul (Double.div (Double.ofInt length_) (Double.ofInt width_)) (.fin r)) := by
        simp [Connection.getResistance, hv, h0, hr]
      constructor
      · simp [hres]
      · simp only [Connection.getConductance, hres]
        split <;> simp
  · intro node0 cuts_ h0 hv
    cases hr : mapAt res_map (tech.getUpperLayer node0.layer) with
    | none => simp [Connection.getConductance, Connection.getResistance, hv, h0, hr]
    | some r =>
      have hres : self.getResistance tech res_map
          = .ok (Double.div (.fin r) (Double.ofInt cuts_)) := by
        simp [Connection.getResistance, hv, h0, hr]
      constructor
      · simp [hres]
      · simp only [Connection.getConductance, hres]
        split <;> simp
  · intro hv res_map1
    have hres : self.getResistance tech res_map1 = .ok (.fin tech.kResistance) := by
      simp [Connection.getResistance, hv]
    refine ⟨hres, ?_⟩
    simp only [Connection.getConductance, hres]
    split
    · exact ⟨_, rfl⟩
    · exact ⟨_, rfl⟩

/-! ## Parallel merge -/

/-- C25, as stated, fails when the `int` addition wraps: merging a layer
segment of width `INT_MAX` with one of width 1 leaves the width `-2^31`, not the
sum `2^31`, and likewise for the cut counts of two vias. -/
theorem mergeWithWrapped_wraps :
    ((⟨some nodeA, some nodeB, .layer 6 2147483647⟩ : Connection Int).mergeWithWrapped
        (some ⟨some nodeA, some nodeB, .layer 6 1⟩)).variant = .layer 6 (-2147483648)
      ∧ ((⟨some nodeA, some nodeB, .via 2147483647⟩ : Connection Int).mergeWithWrapped
          (some ⟨some nodeA, some nodeB, .via 1⟩)).variant = .via (-2147483648)
      ∧ (-2147483648 : Int) ≠ 2147483647 + 1 := by
  decide

/-- C25, amended: merging a layer segment with a layer segment replaces the
receiver's width by the sum of the two widths reduced to an `int` (the sum
itself when it lies in the range of `int`, and then the merge is the merge in
exact arithmetic) and leaves its endpoints and length as they are; merging a via
with a via does the same with the cut counts; a receiver of either kind is
unchanged when the other connection has a different variant; and the merged
width or cut count does not depend on which of the two connections is the
receiver. -/
theorem mergeWith_spec {T : Type} (self other : Connection T) :
    (∀ (length_ width_ other_length other_width : Int),
        self.variant = .layer length_ width_ → other.variant = .layer other_length other_width →
        self.mergeWithWrapped (some other)
            = { self with variant := .layer length_ (machine.wrapInt (width_ + other_width)) }
          ∧ (other.mergeWithWrapped (some self)).variant
            = .layer other_length (machine.wrapInt (width_ + other_width))
          ∧ (-2147483648 ≤ width_ + other_width → width_ + other_width ≤ 2147483647 →
              self.mergeWithWrapped (some other)
                = { self with variant := .layer length_ (width_ + other_width) }
              ∧ self.mergeWithWrapped (some other) = self.mergeWith (some other)))
      ∧ (∀ (cuts_ other_cuts : Int),
          self.variant = .via cuts_ → other.variant = .via other_cuts →
          self.mergeWithWrapped (some other)
              = { self with variant := .via (machine.wrapInt (cuts_ + other_cuts)) }
            ∧ (other.mergeWithWrapped (some self)).variant
              = .via (machine.wrapInt (cuts_ + other_cuts))
            ∧ (-2147483648 ≤ cuts_ + other_cuts → cuts_ + other_cuts ≤ 2147483647 →
                self.mergeWithWrapped (some other)
                  = { self with variant := .via (cuts_ + other_cuts) }
                ∧ self.mergeWithWrapped (some other) = self.mergeWith (some other)))
      ∧ (∀ (length_ width_ : Int), self.variant = .layer length_ width_ →
          (∀ other_length other_width, other.variant ≠ .layer other_length other_width) →
          self.mergeWithWrapped (some other) = self)
      ∧ (∀ (cuts_ : Int), self.variant = .via cuts_ →
          (∀ other_cuts, other.variant ≠ .via other_cuts) →
          self.mergeWithWrapped (some other) = self) := by
  refine ⟨?_, ?_, ?_, ?_⟩
  · intro l w l2 w2 hv ho
    refine ⟨?_, ?_, ?_⟩
    · simp [Connection.mergeWithWrapped, hv, ho]
    · simp [Connection.mergeWithWrapped, hv, ho, add_comm]
    · intro hlo hhi
      have hfit := machine.wrapInt_of_fits (w + w2) hlo hhi
      constructor
      · simp [Connection.mergeWithWrapped, hv, ho, hfit]
      · simp [Connection.mergeWithWrapped, Connection.mergeWith, hv, ho, hfit]
  · intro c c2 hv ho
    refine ⟨?_, ?_, ?_⟩
    · simp [Connection.mergeWithWrapped, hv, ho]
    · simp [Connection.mergeWithWrapped, hv, ho, add_comm]
    · intro hlo hhi
      have hfit := machine.wrapInt_of_fits (c + c2) hlo hhi
      constructor
      · simp [Connection.mergeWithWrapped, hv, ho, hfit]
      · simp [Connection.mergeWithWrapped, Connection.mergeWith, hv, ho, hfit]
  · intro l w hv hne
    cases ho : other.variant with
    | layer l2 w2 => exact absurd ho (hne l2 w2)
    | via c2 => simp [Connection.mergeWithWrapped, hv, ho]
    | term => simp [Connection.mergeWithWrapped, hv, ho]
  · intro c hv hne
    cases ho : other.variant with
    | layer l2 w2 => simp [Connection.mergeWithWrapped, hv, ho]
    | via c2 => exact absurd ho (hne c2)
    | term => simp [Connection.mergeWithWrapped, hv, ho]

/-! ## The order of connections -/

theorem tupleLt_iff {T : Type} [LinearOrder T] (p q : T × T) :
    tupleLt p q ↔ (p.1 < q.1 ∨ (p.1 = q.1 ∧ p.2 < q.2)) := by
  unfold tupleLt
  constructor
  · rintro (h | ⟨h1, h2⟩)
    · exact Or.inl h
    · rcases lt_or_eq_of_le (not_lt.mp h1) with h | h
      · exact Or.inl h
      · exact Or.inr ⟨h, h2⟩
  · rintro (h | ⟨h1, h2⟩)
    · exact Or.inl h
    · exact Or.inr ⟨by rw [h1]; exact lt_irrefl _, h2⟩

/-- C26: `compare(a, b)` holds exactly when the pair of endpoint tuples of `a`
(the dummy tuple for a null endpoint) is lexicographically below that of `b`;
it is irreflexive and transitive, and of two connections with different pairs
exactly one compares before the other. -/
theorem compare_strict_total {T : Type} [LinearOrder T] (dummy : T) :
    (∀ a : Connection T,
        (a.node0_ = none → (a.compareTuple dummy).1 = dummy)
          ∧ (a.node1_ = none → (a.compareTuple dummy).2 = dummy)
          ∧ (∀ n, a.node0_ = some n → (a.compareTuple dummy).1 = n.compareTuple)
          ∧ (∀ n, a.node1_ = some n → (a.compareTuple dummy).2 = n.compareTuple))
      ∧ (∀ a b : Connection T, a.compare dummy b = true ↔
          ((a.compareTuple dummy).1 < (b.compareTuple dummy).1
            ∨ ((a.compareTuple dummy).1 = (b.compareTuple dummy).1
              ∧ (a.compareTuple dummy).2 < (b.compareTuple dummy).2)))
      ∧ (∀ a : Connection T, a.compare dummy a = false)
      ∧ (∀ a b c : Connection T, a.compare dummy b = true → b.compare dummy c = true →
          a.compare dummy c = true)
      ∧ (∀ a b : Connection T, a.compareTuple dummy ≠ b.compareTuple dummy →
          (a.compare dummy b = true ∧ b.compare dummy a = false)
            ∨ (a.compare dummy b = false ∧ b.compare dummy a = true)) := by
  have hiff : ∀ a b : Connection T, a.compare dummy b = true ↔
      ((a.compareTuple dummy).1 < (b.compareTuple dummy).1
        ∨ ((a.compareTuple dummy).1 = (b.compareTuple dummy).1
          ∧ (a.compareTuple dummy).2 < (b.compareTuple dummy).2)) := by
    intro a b
    simp only [Connection.compare, decide_eq_true_eq]
    exact tupleLt_iff _ _
  have hfalse : ∀ a b : Connection T, a.compare dummy b = false ↔
      ¬ ((a.compareTuple dummy).1 < (b.compareTuple dummy).1
        ∨ ((a.compareTuple dummy).1 = (b.compareTuple dummy).1
          ∧ (a.compareTuple dummy).2 < (b.compareTuple dummy).2)) := by
    intro a b
    rw [← hiff, Bool.not_eq_true]
  refine ⟨?_, hiff, ?_, ?_, ?_⟩
  · intro a
    refine ⟨?_, ?_, ?_, ?_⟩
    · intro h; simp [Connection.compareTuple, h]
    · intro h; simp [Connection.compareTuple, h]
    · intro n h; simp [Connection.compareTuple, h]
    · intro n h; simp [Connection.compareTuple, h]
  · intro a
    rw [hfalse]
    rintro (h | ⟨_, h⟩) <;> exact lt_irrefl _ h
  · intro a b c hab hbc
    rw [hiff] at hab hbc ⊢
    rcases hab with h1 | ⟨h1, h2⟩
    · rcases hbc with h3 | ⟨h3, _⟩
      · exact Or.inl (lt_trans h1 h3)
      · exact Or.inl (by rw [← h3]; exact h1)
    · rcases hbc with h3 | ⟨h3, h4⟩
      · exact Or.inl (by rw [h1]; exact h3)
      · exact Or.inr ⟨h1.trans h3, lt_trans h2 h4⟩
  · intro a b hne
    rw [hiff, hfalse, hfalse, hiff]
    generalize a.compareTuple dummy = p at hne ⊢
    generalize b.compareTuple dummy = q at hne ⊢
    rcases lt_trichotomy p.1 q.1 with h | h | h
    · left
      refine ⟨Or.inl h, ?_⟩
      rintro (h1 | ⟨h1, _⟩)
      · exact lt_asymm h h1
      · rw [h1] at h; exact lt_irrefl _ h
    · rcases lt_trichotomy p.2 q.2 with h2 | h2 | h2
      · left
        refine ⟨Or.inr ⟨h, h2⟩, ?_⟩
        rintro (h1 | ⟨_, h3⟩)
        · rw [h] at h1; exact lt_irrefl _ h1
        · exact lt_asymm h2 h3
      · exact absurd (Prod.ext h h2) hne
      · right
        refine ⟨?_, Or.inr ⟨h.symm, h2⟩⟩
        rintro (h1 | ⟨_, h3⟩)
        · rw [h] at h1; exact lt_irrefl _ h1
        · exact lt_asymm h2 h3
    · right
      refine ⟨?_, Or.inl h⟩
      rintro (h1 | ⟨h1, _⟩)
      · exact lt_asymm h h1
      · rw [h1] at h; exact lt_irrefl _ h

/-! ## Conductance of merged connections -/

/-- C29: in exact arithmetic, for two valid layer segments of equal length whose
`node0` lie on the same layer of positive sheet resistance, and for two valid
vias whose `node0` lie below the same via layer of positive resistance, the
conductance of the receiver after `mergeWith` is the sum of the conductances of
the two connections before it. -/
theorem mergeWith_conductance_additive {T : Type} (tech : Tech) (res_map : ResistanceMap)
    (c1 c2 : Connection T) (n1 n2 : Node T) (r : ℚ)
    (h1 : c1.node0_ = some n1) (h2 : c2.node0_ = some n2)
    (hv1 : c1.isValid = true) (hv2 : c2.isValid = true) (hr : 0 < r) :
    (∀ (length_ width1 width2 : Int),
        c1.variant = .layer length_ width1 → c2.variant = .layer length_ width2 →
        n1.layer = n2.layer → mapAt res_map (some n1.layer) = some r →
        ∃ g1 g2, c1.getConductance tech res_map = .ok (.fin g1)
          ∧ c2.getConductance tech res_map = .ok (.fin g2)
          ∧ (c1.mergeWith (some c2)).getConductance tech res_map = .ok (.fin (g1 + g2)))
      ∧ (∀ (cuts1 cuts2 : Int),
          c1.variant = .via cuts1 → c2.variant = .via cuts2 →
          tech.getUpperLayer n1.layer = tech.getUpperLayer n2.layer →
          mapAt res_map (tech.getUpperLayer n1.layer) = some r →
          ∃ g1 g2, c1.getConductance tech res_map = .ok (.fin g1)
            ∧ c2.getConductance tech res_map = .ok (.fin g2)
            ∧ (c1.mergeWith (some c2)).getConductance tech res_map = .ok (.fin (g1 + g2))) := by
  have hr0 : r ≠ 0 := ne_of_gt hr
  constructor
  · intro l w1 w2 hc1 hc2 hlay hmap
    simp only [Connection.isValid, hc1, hc2, Bool.and_eq_true, decide_eq_true_eq] at hv1 hv2
    have hl : (0 : ℚ) < (l : ℚ) := by exact_mod_cast hv1.2
    have hw1 : (0 : ℚ) < (w1 : ℚ) := by exact_mod_cast hv1.1
    have hw2 : (0 : ℚ) < (w2 : ℚ) := by exact_mod_cast hv2.1
    have hmap2 : mapAt res_map (some n2.layer) = some r := by rw [← hlay]; exact hmap
    have key : ∀ (c : Connection T) (n : Node T) (w : Int), c.node0_ = some n →
        c.variant = .layer l w → (0 : ℚ) < (w : ℚ) → mapAt res_map (some n.layer) = some r →
        c.getConductance tech res_map = .ok (.fin (1 / (((l : ℚ) / (w : ℚ)) * r))) := by
      intro c n w hn hc hw hm
      have hw0 : (w : ℚ) ≠ 0 := ne_of_gt hw
      have hne : ((l : ℚ) / (w : ℚ)) * r ≠ 0 :=
        mul_ne_zero (div_ne_zero (ne_of_gt hl) hw0) hr0
      have hres : c.getResistance tech res_map = .ok (.fin (((l : ℚ) / (w : ℚ)) * r)) := by
        simp [Connection.getResistance, hc, hn, hm, Double.div, Double.mul, Double.ofInt, hw0]
      simp only [Connection.getConductance, hres, Double.fin.injEq, hne, if_false, Double.div]
    refine ⟨_, _, key c1 n1 w1 h1 hc1 hw1 hmap, key c2 n2 w2 h2 hc2 hw2 hmap2, ?_⟩
    have hm : (c1.mergeWith (some c2)).variant = .layer l (w1 + w2) := by
      simp [Connection.mergeWith, hc1, hc2]
    have hn : (c1.mergeWith (some c2)).node0_ = some n1 := by
      simp [Connection.mergeWith, hc1, hc2, h1]
    have hw12 : (0 : ℚ) < ((w1 + w2 : Int) : ℚ) := by push_cast; linarith
    rw [key (c1.mergeWith (some c2)) n1 (w1 + w2) hn hm hw12 hmap]
    congr 2
    push_cast
    field_simp
  · intro k1 k2 hc1 hc2 hlay hmap
    simp only [Connection.isValid, hc1, hc2, decide_eq_true_eq] at hv1 hv2
    have hk1 : (0 : ℚ) < (k1 : ℚ) := by exact_mod_cast hv1
    have hk2 : (0 : ℚ) < (k2 : ℚ) := by exact_mod_cast hv2
    have hmap2 : mapAt res_map (tech.getUpperLayer n2.layer) = some r := by
      rw [← hlay]; exact hmap
    have key : ∀ (c : Connection T) (n : Node T) (k : Int), c.node0_ = some n →
        c.variant = .via k → (0 : ℚ) < (k : ℚ) →
        mapAt res_map (tech.getUpperLayer n.layer) = some r →
        c.getConductance tech res_map = .ok (.fin (1 / (r / (k : ℚ)))) := by
      intro c n k hn hc hk hm
      have hk0 : (k : ℚ) ≠ 0 := ne_of_gt hk
      have hne : r / (k : ℚ) ≠ 0 := div_ne_zero hr0 hk0
      have hres : c.getResistance tech res_map = .ok (.fin (r / (k : ℚ))) := by
        simp [Connection.getResistance, hc, hn, hm, Double.div, Double.ofInt, hk0]
      simp only [Connection.getConductance, hres, Double.fin.injEq, hne, if_false, Double.div]
    refine ⟨_, _, key c1 n1 k1 h1 hc1 hk1 hmap, key c2 n2 k2 h2 hc2 hk2 hmap2, ?_⟩
    have hm : (c1.mergeWith (some c2)).variant = .via (k1 + k2) := by
      simp [Connection.mergeWith, hc1, hc2]
    have hn : (c1.mergeWith (some c2)).node0_ = some n1 := by
      simp [Connection.mergeWith, hc1, hc2, h1]
    have hk12 : (0 : ℚ) < ((k1 + k2 : Int) : ℚ) := by push_cast; linarith
    rw [key (c1.mergeWith (some c2)) n1 (k1 + k2) hn hm hk12 hmap]
    congr 2
    push_cast
    field_simp

/-- Witness of C29: two layer segments of length 6 and widths 3 and 2 on layer
1, whose sheet resistance is 2. -/
theorem mergeWith_conductance_additive_witness :
    (∀ (length_ width1 width2 : Int),
        (⟨some nodeA, some nodeB, .layer 6 3⟩ : Connection Int).variant
          = .layer length_ width1 →
        (⟨some nodeA, some nodeB, .layer 6 2⟩ : Connection Int).variant
          = .layer length_ width2 →
        nodeA.layer = nodeA.layer → mapAt exampleMap (some nodeA.layer) = some 2 →
        ∃ g1 g2,
          (⟨some nodeA, some nodeB, .layer 6 3⟩ : Connection Int).getConductance exampleTech
              exampleMap = .ok (.fin g1)
            ∧ (⟨some nodeA, some nodeB, .layer 6 2⟩ : Connection Int).getConductance exampleTech
              exampleMap = .ok (.fin g2)
            ∧ ((⟨some nodeA, some nodeB, .layer 6 3⟩ : Connection Int).mergeWith
                (some ⟨some nodeA, some nodeB, .layer 6 2⟩)).getConductance exampleTech
              exampleMap = .ok (.fin (g1 + g2)))
      ∧ (∀ (cuts1 cuts2 : Int),
          (⟨some nodeA, some nodeB, .layer 6 3⟩ : Connection Int).variant = .via cuts1 →
          (⟨some nodeA, some nodeB, .layer 6 2⟩ : Connection Int).variant = .via cuts2 →
          exampleTech.getUpperLayer nodeA.layer = exampleTech.getUpperLayer nodeA.layer →
          mapAt exampleMap (exampleTech.getUpperLayer nodeA.layer) = some 2 →
          ∃ g1 g2,
            (⟨some nodeA, some nodeB, .layer 6 3⟩ : Connection Int).getConductance exampleTech
                exampleMap = .ok (.fin g1)
              ∧ (⟨some nodeA, some nodeB, .layer 6 2⟩ : Connection Int).getConductance
                exampleTech exampleMap = .ok (.fin g2)
              ∧ ((⟨some nodeA, some nodeB, .layer 6 3⟩ : Connection Int).mergeWith
                  (some ⟨some nodeA, some nodeB, .layer 6 2⟩)).getConductance exampleTech
                exampleMap = .ok (.fin (g1 + g2))) :=
  mergeWith_conductance_additive exampleTech exampleMap
    ⟨some nodeA, some nodeB, .layer 6 3⟩ ⟨some nodeA, some nodeB, .layer 6 2⟩ nodeA nodeA 2
    rfl rfl (by decide) (by decide) (by norm_num)

end psm
